import Mathlib

/-!
# Multi-attribute linear-hashed files

A shallow embedding of `reln.c` (relation state, `addToRelation`, `split`) and
`query.c` (`startQuery`, `getNextTuple`, `getNextBucket`).

Bytes, hash words (`Bits`), page identifiers (`PageID`) and counters are natural
numbers, C strings are NUL-free lists of bytes, a file is the list of its pages.
Loops whose termination depends on the stored data take a `fuel` argument; `none`
stands for an aborted run (failed `assert`, read of a page that does not exist,
division by zero) or for a loop that has not finished within the fuel.

The page layer (`page.c`), the bit operations (`bits.c`), the tuple functions
(`tuple.c`) and the constants of `defs.h` are not among the translated files: the
functions are modelled from the specification, the constants and the byte hash are
parameters (`Env`).
-/

namespace MALH

/-- A C string: the bytes before the terminating NUL. -/
abbrev Tuple := List Nat

/-- Constants and the byte hash that the sources take from `defs.h` and `hash.c`
(neither is part of the translated files); they are parameters of the model. -/
structure Env where
  /-- width of a hash word, `MAXBITS` -/
  MAXBITS : Nat
  /-- size of a page in bytes, `PAGESIZE` -/
  PAGESIZE : Nat
  /-- the sentinel page id, `NO_PAGE` -/
  NO_PAGE : Nat
  /-- size of the page header, `2*sizeof(Offset) + sizeof(Count)` -/
  hdr_size : Nat
  /-- width in bits of the unsigned type `Count`, an `unsigned int` -/
  COUNT_BITS : Nat
  /-- the byte-string hash `hash_any` -/
  hash_any : List Nat → Nat

/-! ## Bit operations -/

/-- Modelled from the spec: `bits.c` is absent; `bitIsSet(w, i)` is true iff bit `i`
(0 = least significant) of `w` is 1. -/
def bitIsSet (w : Nat) (i : Nat) : Bool := w.testBit i

/-- Modelled from the spec: `bits.c` is absent; `setBit(w, i)` returns `w` with bit `i` set. -/
def setBit (w : Nat) (i : Nat) : Nat := w ||| 2 ^ i

/-- Modelled from the spec: `bits.c` is absent; `getLower(w, k)` is the low-order `k`
bits of `w`, and `getLower(w, 0) = 0`. -/
def getLower (w : Nat) (k : Nat) : Nat := w % 2 ^ k

/-- The function `power_helper` of `reln.c`. -/
def power_helper (base : Nat) : Nat → Nat
  | 0 => 1
  | power + 1 => base * power_helper base power

/-- Modelled from the spec: `Pow` is declared in `query.c` but defined elsewhere; it is
used as integer exponentiation. -/
def Pow (x y : Nat) : Nat := x ^ y

/-! ## Tuples -/

/-- One item of the choice vector. -/
structure ChVecItem where
  att : Nat
  bit : Nat
deriving DecidableEq, Repr

/-- Modelled from the spec: `tuple.c` is absent; a tuple is parsed into its attribute
strings by splitting on `,` (byte 44). -/
def tupleVals : List Nat → List (List Nat)
  | [] => [[]]
  | c :: cs =>
    if c = 44 then [] :: tupleVals cs
    else match tupleVals cs with
      | [] => [[c]]
      | v :: vs => (c :: v) :: vs

/-- The tokens that successive `strtok(_, ",")` calls return: the maximal comma-free
runs of the string, empty runs skipped. -/
def strtok (q : List Nat) : List (List Nat) :=
  (tupleVals q).filter (fun v => v ≠ [])

/-! ## Pages -/

/-- A page: header fields and the data area. -/
structure Page where
  free : Nat
  ovflow : Nat
  ntuples : Nat
  data : List Nat
deriving DecidableEq, Repr

/-- Number of bytes in the data area of a page. -/
def dataSize (E : Env) : Nat := E.PAGESIZE - E.hdr_size

/-- Modelled from the spec: `page.c` is absent; a new page is zero-filled, holds no
tuple and has overflow link `NO_PAGE`. -/
def newPage (E : Env) : Page :=
  { free := 0, ovflow := E.NO_PAGE, ntuples := 0, data := List.replicate (dataSize E) 0 }

/-- The C string that starts at offset `off` of a data area (`strlen` stops at the
first NUL; the end of the area also ends the string). -/
def cstr (data : List Nat) (off : Nat) : Tuple :=
  (data.drop off).takeWhile (fun b => b ≠ 0)

/-- Overwrite `data` from offset `off` with `bytes`. -/
def writeAt (data : List Nat) (off : Nat) (bytes : List Nat) : List Nat :=
  data.take off ++ bytes ++ data.drop (off + bytes.length)

/-- Modelled from the spec: `page.c` is absent; `addToPage(p, t)` copies `t` and its
NUL to the free offset and returns success, or returns full (`none`).  A tuple fits
when it ends at or before offset `PAGESIZE - hdr_size - 2` of the data area, the
bound that the scan of `getNextTuple` uses. -/
def addToPage (E : Env) (p : Page) (t : Tuple) : Option Page :=
  if p.free + t.length ≤ E.PAGESIZE - E.hdr_size - 2 then
    some { p with
      data := writeAt p.data p.free (t ++ [0])
      free := p.free + t.length + 1
      ntuples := p.ntuples + 1 }
  else none

/-- Modelled from the spec: `pageSetOvflow`. -/
def pageSetOvflow (p : Page) (pid : Nat) : Page := { p with ovflow := pid }

/-- Modelled from the spec: `decreasePageFree`. -/
def decreasePageFree (p : Page) (n : Nat) : Page := { p with free := p.free - n }

/-- Modelled from the spec: `decrementPageTuples`. -/
def decrementPageTuples (p : Page) : Page := { p with ntuples := p.ntuples - 1 }

/-- Modelled from the spec: `getPage(file, id)` reads page `id`; the read aborts for
`NO_PAGE` and for a page outside the file. -/
def getPage (E : Env) (f : List Page) (pid : Nat) : Option Page :=
  if pid = E.NO_PAGE then none else f[pid]?

/-- Modelled from the spec: `putPage(file, id, page)` stores the page under `id`.  Every
`putPage` of the sources follows a successful `getPage` or `addPage` of the same id. -/
def putPage (f : List Page) (pid : Nat) (p : Page) : List Page := f.set pid p

/-- Modelled from the spec: `addPage(file)` appends a new page and returns its id. -/
def addPage (E : Env) (f : List Page) : List Page × Nat := (f ++ [newPage E], f.length)

/-! ## Relations -/

/-- The relation descriptor `struct RelnRep`, with the data and overflow files. -/
structure Reln where
  nattrs : Nat
  depth : Nat
  sp : Nat
  npages : Nat
  ntups : Nat
  cv : List ChVecItem
  insertions : Nat
  data : List Page
  ovflow : List Page
deriving DecidableEq, Repr

/-- Item `pos` of the choice vector. -/
def cvAt (r : Reln) (pos : Nat) : ChVecItem := r.cv.getD pos ⟨0, 0⟩

/-- Modelled from the spec: `tupleHash` (in `tuple.c`, absent): composite bit `i` is bit
`cv[i].bit` of the hash of attribute `cv[i].att`. -/
def tupleHash (E : Env) (r : Reln) (t : Tuple) : Nat :=
  (List.range E.MAXBITS).foldl
    (fun h i =>
      if bitIsSet (E.hash_any ((tupleVals t).getD (cvAt r i).att [])) (cvAt r i).bit
      then setBit h i else h) 0

/-- Modelled from the spec: `tupleMatch` (in `tuple.c`, absent): the tuple matches the
query iff for every attribute the query field is `?` (byte 63) or equals the
field of the tuple. -/
def tupleMatch (r : Reln) (t q : Tuple) : Bool :=
  (List.range r.nattrs).all
    (fun j => (tupleVals q).getD j [] == [63] || (tupleVals q).getD j [] == (tupleVals t).getD j [])

/-- The function `newRelation`, with the choice vector already parsed. -/
def newRelation (E : Env) (nattrs npages d : Nat) (cv : List ChVecItem) : Reln :=
  { nattrs := nattrs, depth := d, sp := 0, npages := npages, ntups := 0, cv := cv,
    insertions := 0, data := List.replicate npages (newPage E), ovflow := [] }

/-! ## Split -/

/-- The variables of `split` that live across its loop iterations: the two files,
the in-memory copy `pg` of the current page of the old bucket, and the in-memory
copy `newpg` of the current page of the new bucket with its id and file flag. -/
structure SplitSt where
  data : List Page
  ovflow : List Page
  pg : Page
  newpg : Page
  newpageid : Nat
  is_new_ovflow : Bool
deriving DecidableEq, Repr

/-- The clean-up of the old page in `split` once the tuple of length `len` at offset
`currtup` has been copied out: the bytes after it are moved down, the free
offset and the tuple count are lowered.  A negative `bytes_to_copy` aborts. -/
def compact (pg : Page) (currtup len : Nat) : Option Page :=
  if pg.free < currtup + len + 1 then none
  else
    let bytes_to_copy := pg.free - (currtup + len + 1)
    let decrease := len + 1
    let temp := (pg.data.drop (currtup + decrease)).take bytes_to_copy
    some (decrementPageTuples
      (decreasePageFree { pg with data := writeAt pg.data currtup temp } decrease))

/-- The part of `split` that places tuple `t` in the new bucket.  The flag of the
result is `false` when `split` returns at "Tuple too big to insert?". -/
def moveTuple (E : Env) (st : SplitSt) (t : Tuple) : Option (Bool × SplitSt) :=
  match addToPage E st.newpg t with
  | some np => some (true, { st with newpg := np })
  | none =>
    let prevpageid := st.newpageid
    let ov1 := (addPage E st.ovflow).1
    let newpageid := (addPage E st.ovflow).2
    match getPage E ov1 newpageid with
    | none => none
    | some newpg =>
      match (if st.is_new_ovflow then getPage E ov1 prevpageid
             else getPage E st.data prevpageid) with
      | none => none
      | some prevpage =>
        let prevpage1 := pageSetOvflow prevpage newpageid
        let st1 : SplitSt :=
          if st.is_new_ovflow then
            { st with ovflow := putPage ov1 prevpageid prevpage1, newpg := newpg,
                      newpageid := newpageid, is_new_ovflow := true }
          else
            { st with data := putPage st.data prevpageid prevpage1, ovflow := ov1,
                      newpg := newpg, newpageid := newpageid, is_new_ovflow := true }
        match addToPage E st1.newpg t with
        | none => some (false, st1)
        | some np => some (true, { st1 with newpg := np })

/-- The inner loop of `split` over the tuples of the current page of the old
bucket, from offset `currtup`. -/
def splitPage (E : Env) (r : Reln) (d oldp currpageid : Nat) (is_old_ovflow : Bool) :
    Nat → Nat → SplitSt → Option (Bool × SplitSt)
  | 0, currtup, st => if currtup < st.pg.free then none else some (true, st)
  | fuel + 1, currtup, st =>
    if currtup < st.pg.free then
      let t := cstr st.pg.data currtup
      if getLower (tupleHash E r t) (d + 1) = oldp then
        splitPage E r d oldp currpageid is_old_ovflow fuel (currtup + t.length + 1) st
      else
        match moveTuple E st t with
        | none => none
        | some (false, st1) => some (false, st1)
        | some (true, st1) =>
          match compact st1.pg currtup t.length with
          | none => none
          | some pg1 =>
            if is_old_ovflow then
              let ov := putPage st1.ovflow currpageid pg1
              match getPage E ov currpageid with
              | none => none
              | some pg2 =>
                splitPage E r d oldp currpageid is_old_ovflow fuel currtup
                  { st1 with ovflow := ov, pg := pg2 }
            else
              let da := putPage st1.data currpageid pg1
              match getPage E da currpageid with
              | none => none
              | some pg2 =>
                splitPage E r d oldp currpageid is_old_ovflow fuel currtup
                  { st1 with data := da, pg := pg2 }
    else some (true, st)

/-- The outer loop of `split` over the pages of the old bucket.  The inner loop is
run with fuel `pageFree(pg)`, which it cannot exhaust: every iteration raises
`currtup` or lowers `pageFree(pg)`. -/
def splitChain (E : Env) (r : Reln) (d oldp : Nat) :
    Nat → Nat → Bool → SplitSt → Option (Bool × SplitSt)
  | 0, currpageid, _, st => if currpageid = E.NO_PAGE then some (true, st) else none
  | fuel + 1, currpageid, is_old_ovflow, st =>
    if currpageid = E.NO_PAGE then some (true, st)
    else
      match (if is_old_ovflow then getPage E st.ovflow currpageid else some st.pg) with
      | none => none
      | some pg =>
        match splitPage E r d oldp currpageid is_old_ovflow pg.free 0 { st with pg := pg } with
        | none => none
        | some (false, st1) => some (false, st1)
        | some (true, st1) => splitChain E r d oldp fuel st1.pg.ovflow true st1

/-- The function `split`.  The statement `assert(newpageid = newp)` is an assignment:
the id used for the new bucket is `newp = sp + 2^d`, and the assertion holds
because `newp` is not 0. -/
def split (E : Env) (fuel : Nat) (r : Reln) : Option Reln :=
  let d := r.depth
  let sp := r.sp
  let oldp := sp
  let newp := sp + power_helper 2 d
  match getPage E r.data oldp with
  | none => none
  | some pg =>
    let data1 := (addPage E r.data).1
    match getPage E data1 newp with
    | none => none
    | some newpg =>
      let st0 : SplitSt :=
        { data := data1, ovflow := r.ovflow, pg := pg, newpg := newpg,
          newpageid := newp, is_new_ovflow := false }
      match splitChain E r d oldp fuel oldp false st0 with
      | none => none
      | some (false, st) =>
        some { r with npages := r.npages + 1, data := st.data, ovflow := st.ovflow }
      | some (true, st) =>
        if st.is_new_ovflow then
          some { r with npages := r.npages + 1, data := st.data,
                        ovflow := putPage st.ovflow st.newpageid st.newpg }
        else
          some { r with npages := r.npages + 1,
                        data := putPage st.data st.newpageid st.newpg, ovflow := st.ovflow }

/-! ## Insertion -/

/-- The bucket address that `addToRelation` computes from the tuple hash `h`. -/
def bucketAddr (h : Nat) (depth sp : Nat) : Nat :=
  if depth = 0 then 0
  else if getLower h depth < sp then getLower h (depth + 1) else getLower h depth

/-- The product `10 * r->nattrs` of `addToRelation`: it is computed in the unsigned
type `Count` of `nattrs` and wraps at `2^COUNT_BITS`.  The quotient of the `int`
constant `PAGESIZE` by it is at most `PAGESIZE` and fits the `int threshold`. -/
def tenAttrs (E : Env) (r : Reln) : Nat := 10 * r.nattrs % 2 ^ E.COUNT_BITS

/-- The split threshold of `addToRelation`. -/
def threshold (E : Env) (r : Reln) : Nat :=
  if E.PAGESIZE / tenAttrs E r > 1 then E.PAGESIZE / tenAttrs E r else 1

/-- The first part of `addToRelation`: split when the threshold is reached, advance
the split pointer, reset the insertion counter.  When the product `10 * r->nattrs`
is 0 the call aborts on the division by zero. -/
def maybeSplit (E : Env) (fuel : Nat) (r : Reln) : Option Reln :=
  if tenAttrs E r = 0 then none
  else if r.insertions ≥ threshold E r then
    match split E fuel r with
    | none => none
    | some r1 =>
      let r2 := { r1 with sp := r1.sp + 1 }
      let r3 := if r2.sp = power_helper 2 r2.depth
                then { r2 with depth := r2.depth + 1, sp := 0 } else r2
      some { r3 with insertions := 0 }
  else some r

/-- The end of the overflow scan of `addToRelation`: all overflow pages are full, a new
page is added to the chain behind `prev`, the last full page.  The assertion
`prevpg != NULL` fails when there is no such page. -/
def addToChainEnd (E : Env) (r : Reln) (t : Tuple) (p : Nat)
    (prev : Option (Nat × Page)) : Option (Reln × Nat) :=
  match prev with
  | none => none
  | some (prevp, prevpg) =>
    let ov1 := (addPage E r.ovflow).1
    let newp := (addPage E r.ovflow).2
    match getPage E ov1 newp with
    | none => none
    | some newpg =>
      match addToPage E newpg t with
      | none => some ({ r with ovflow := ov1 }, E.NO_PAGE)
      | some newpg1 =>
        let ov2 := putPage ov1 newp newpg1
        let ov3 := putPage ov2 prevp (pageSetOvflow prevpg newp)
        some ({ r with ovflow := ov3, ntups := r.ntups + 1,
                       insertions := r.insertions + 1 }, p)

/-- The scan of the overflow chain in `addToRelation`: `ovp` is the page to try next,
`prev` the last full page with its id (absent before the first iteration). -/
def addToChain (E : Env) (r : Reln) (t : Tuple) (p : Nat) :
    Nat → Nat → Option (Nat × Page) → Option (Reln × Nat)
  | 0, ovp, prev =>
    if ovp ≠ E.NO_PAGE then none
    else addToChainEnd E r t p prev
  | fuel + 1, ovp, prev =>
    if ovp ≠ E.NO_PAGE then
      match getPage E r.ovflow ovp with
      | none => none
      | some ovpg =>
        match addToPage E ovpg t with
        | none => addToChain E r t p fuel ovpg.ovflow (some (ovp, ovpg))
        | some ovpg1 =>
          some ({ r with ovflow := putPage r.ovflow ovp ovpg1, ntups := r.ntups + 1,
                         insertions := r.insertions + 1 }, p)
    else addToChainEnd E r t p prev

/-- The second part of `addToRelation`: place tuple `t` in the bucket of its hash. -/
def place (E : Env) (fuel : Nat) (r : Reln) (t : Tuple) : Option (Reln × Nat) :=
  let h := tupleHash E r t
  let p := bucketAddr h r.depth r.sp
  match getPage E r.data p with
  | none => none
  | some pg =>
    match addToPage E pg t with
    | some pg1 =>
      some ({ r with data := putPage r.data p pg1, insertions := r.insertions + 1,
                     ntups := r.ntups + 1 }, p)
    | none =>
      if pg.ovflow = E.NO_PAGE then
        let ov1 := (addPage E r.ovflow).1
        let newp := (addPage E r.ovflow).2
        let data1 := putPage r.data p (pageSetOvflow pg newp)
        match getPage E ov1 newp with
        | none => none
        | some newpg =>
          match addToPage E newpg t with
          | none => some ({ r with data := data1, ovflow := ov1 }, E.NO_PAGE)
          | some newpg1 =>
            some ({ r with data := data1, ovflow := putPage ov1 newp newpg1,
                           insertions := r.insertions + 1, ntups := r.ntups + 1 }, p)
      else addToChain E r t p fuel pg.ovflow none

/-- The function `addToRelation`: the new relation state and the returned page id. -/
def addToRelation (E : Env) (fuel : Nat) (r : Reln) (t : Tuple) : Option (Reln × Nat) :=
  match maybeSplit E fuel r with
  | none => none
  | some r1 => place E fuel r1 t

/-! ## Queries -/

/-- The scan state `struct QueryRep`; the relation is passed along separately. -/
structure QueryRep where
  known : Nat
  unknown : Nat
  curpage : Nat
  is_ovflow : Bool
  curtup : Nat
  nstars : Nat
  buck_ind : Nat
  attris : Tuple
deriving DecidableEq, Repr

/-- The inner loops of `startQuery` over the positions of the choice vector, for one
token `ptr` that is the attribute number `attri`: the pair `(compHash, starPos)`
is updated. -/
def queryBits (E : Env) (r : Reln) (ptr : List Nat) (attri : Nat) (acc : Nat × Nat) :
    Nat × Nat :=
  if ptr = [63] then
    (acc.1, (List.range E.MAXBITS).foldl
      (fun starPos pos => if (cvAt r pos).att = attri then setBit starPos pos else starPos) acc.2)
  else
    ((List.range E.MAXBITS).foldl
      (fun compHash pos =>
        if (cvAt r pos).att = attri then
          if bitIsSet (E.hash_any ptr) (cvAt r pos).bit then setBit compHash pos else compHash
        else compHash) acc.1, acc.2)

/-- The token loop of `startQuery`: `(compHash, starPos)` after the tokens `toks`, the
first of which is attribute number `attri`. -/
def queryHash (E : Env) (r : Reln) : List (List Nat) → Nat → Nat × Nat → Nat × Nat
  | [], _, acc => acc
  | ptr :: rest, attri, acc => queryHash E r rest (attri + 1) (queryBits E r ptr attri acc)

/-- The number of positions below `MAXBITS` at which `w` has a 1 bit (the counting
loop of `startQuery`). -/
def countBits (E : Env) (w : Nat) : Nat :=
  (List.range E.MAXBITS).foldl (fun n pos => if bitIsSet w pos then n + 1 else n) 0

/-- The function `startQuery`.  The local variable `stp` is assigned only when the
depth is not 0; `stp0` is the value it holds otherwise. -/
def startQuery (E : Env) (r : Reln) (q : List Nat) (stp0 : Nat) : QueryRep :=
  let ch := queryHash E r (strtok q) 0 (0, 0)
  let compHash := ch.1
  let starPos := ch.2
  let d := r.depth
  let sp := r.sp
  let p := if d = 0 then 0
           else if getLower compHash d < sp then getLower compHash (d + 1)
           else getLower compHash d
  let stp := if d = 0 then stp0 else getLower starPos (d + 1)
  { known := p, unknown := stp, curpage := p, is_ovflow := false, curtup := 0,
    nstars := countBits E stp, buck_ind := 0, attris := q }

/-- The loop of `getNextBucket` from position `i`: the mask and the counter `changes`. -/
def bucketMask (E : Env) (unknown buck_ind nstars : Nat) : Nat → Nat → Nat → Nat → Nat
  | 0, _, mask, _ => mask
  | n + 1, i, mask, changes =>
    if bitIsSet unknown i then
      let mask1 := if bitIsSet buck_ind changes then setBit mask i else mask
      if changes = nstars then mask1
      else bucketMask E unknown buck_ind nstars n (i + 1) mask1 (changes + 1)
    else bucketMask E unknown buck_ind nstars n (i + 1) mask changes

/-- The function `getNextBucket`. -/
def getNextBucket (E : Env) (q : QueryRep) : QueryRep :=
  let buck_ind := q.buck_ind + 1
  let mask := bucketMask E q.unknown buck_ind q.nstars E.MAXBITS 0 0 0
  { q with buck_ind := buck_ind, curpage := q.known ||| mask, is_ovflow := false, curtup := 0 }

/-- The `while (1)` loop of `getNextTuple`, with the page `pg` in memory.  The result
is the scan state and the returned tuple, `none` for `NULL`. -/
def nextTupleLoop (E : Env) (r : Reln) :
    Nat → Page → QueryRep → Option (QueryRep × Option Tuple)
  | 0, _, _ => none
  | fuel + 1, pg, q =>
    if q.curtup < E.PAGESIZE - E.hdr_size - 2 then
      let c := cstr pg.data q.curtup
      let q1 := { q with curtup := q.curtup + c.length + 1 }
      if c.length = 0 then nextTupleLoop E r fuel pg q1
      else if tupleMatch r c q1.attris then some (q1, some c)
      else nextTupleLoop E r fuel pg q1
    else if pg.ovflow ≠ E.NO_PAGE then
      let ovp := pg.ovflow
      match getPage E r.ovflow ovp with
      | none => none
      | some pg1 =>
        let c := cstr pg1.data 0
        let q1 := { q with curpage := ovp, curtup := c.length + 1, is_ovflow := true }
        if c.length = 0 then nextTupleLoop E r fuel pg1 q1
        else if tupleMatch r c q1.attris then some (q1, some c)
        else nextTupleLoop E r fuel pg1 q1
    else
      if q.buck_ind = Pow 2 q.nstars - 1 then some (q, none)
      else
        let q1 := getNextBucket E q
        if q1.curpage > (Pow 2 r.depth - 1) + r.sp then some (q1, none)
        else
          match getPage E r.data q1.curpage with
          | none => none
          | some pg1 =>
            let c := cstr pg1.data 0
            let q2 := { q1 with curtup := c.length + 1 }
            if c.length = 0 then nextTupleLoop E r fuel pg1 q2
            else if tupleMatch r c q2.attris then some (q2, some c)
            else nextTupleLoop E r fuel pg1 q2

/-- The function `getNextTuple`. -/
def getNextTuple (E : Env) (r : Reln) (fuel : Nat) (q : QueryRep) :
    Option (QueryRep × Option Tuple) :=
  match (if q.is_ovflow then getPage E r.ovflow q.curpage else getPage E r.data q.curpage) with
  | none => none
  | some pg => nextTupleLoop E r fuel pg q

/-- A complete scan: `getNextTuple` is called until it returns `NULL`, at most `calls`
times; the result lists the returned tuples in order. -/
def scan (E : Env) (r : Reln) (fuel : Nat) : Nat → QueryRep → Option (List Tuple)
  | 0, _ => none
  | calls + 1, q =>
    match getNextTuple E r fuel q with
    | none => none
    | some (_, none) => some []
    | some (q1, some t) =>
      match scan E r fuel calls q1 with
      | none => none
      | some ts => some (t :: ts)

/-- Insert the tuples of a list one by one with `addToRelation`; the result is the
final relation and the list of returned page ids. -/
def addAll (E : Env) (fuel : Nat) : Reln → List Tuple → Option (Reln × List Nat)
  | r, [] => some (r, [])
  | r, t :: ts =>
    match addToRelation E fuel r t with
    | none => none
    | some (r1, p) =>
      match addAll E fuel r1 ts with
      | none => none
      | some (r2, ps) => some (r2, p :: ps)

/-! ## Predicates of the specification -/

/-- The linear-hash state invariant: `0 ≤ sp < 2^depth` and `npages = 2^depth + sp`. -/
def Inv (r : Reln) : Prop := r.sp < 2 ^ r.depth ∧ r.npages = 2 ^ r.depth + r.sp

/-- Whether `addToRelation` executes `split` in state `r`: the test `insertions >= threshold`. -/
def splits (E : Env) (r : Reln) : Bool := decide (r.insertions ≥ threshold E r)

/-- The number of calls among the insertions of `ts`, one by one from state `r`, that
execute `split`. -/
def splitsExecuted (E : Env) (fuel : Nat) : Reln → List Tuple → Nat
  | _, [] => 0
  | r, t :: ts =>
    match addToRelation E fuel r t with
    | none => 0
    | some (r1, _) => (if splits E r then 1 else 0) + splitsExecuted E fuel r1 ts

/-- What a returning run of the placement part of `addToRelation` leaves behind. -/
structure Placed (E : Env) (r r' : Reln) (t : Tuple) (p res : Nat) : Prop where
  nattrs : r'.nattrs = r.nattrs
  depth : r'.depth = r.depth
  sp : r'.sp = r.sp
  npages : r'.npages = r.npages
  cv : r'.cv = r.cv
  cases :
    (res = E.NO_PAGE ∧ r'.ntups = r.ntups ∧ r'.insertions = r.insertions ∧
        r'.ovflow = r.ovflow ++ [newPage E] ∧ addToPage E (newPage E) t = none) ∨
    (res = p ∧ r'.ntups = r.ntups + 1 ∧ r'.insertions = r.insertions + 1)

/-! ## Stored tuples and well-formed files -/

/-- The packed byte image of a list of tuples: every tuple followed by its NUL. -/
def pack : List Tuple → List Nat
  | [] => []
  | t :: ts => t ++ 0 :: pack ts

/-- The NUL-terminated strings of a packed region, in order. -/
def unpack : List Nat → List Tuple
  | [] => []
  | b :: bs =>
    if b = 0 then [] :: unpack bs
    else match unpack bs with
      | [] => [[b]]
      | t :: ts => (b :: t) :: ts

/-- The tuples stored in a page: the strings that lie below its free offset. -/
def pageTuples (p : Page) : List Tuple := unpack (p.data.take p.free)

/-- The page invariant: the data area has its fixed size (of two bytes at least), and
the region below the free offset holds `pageNTuples` NUL-terminated strings, packed
from offset 0. -/
def PageOK (E : Env) (p : Page) : Prop :=
  p.data.length = dataSize E ∧ 2 ≤ p.data.length ∧ p.free ≤ p.data.length ∧
  pack (pageTuples p) = p.data.take p.free ∧ p.ntuples = (pageTuples p).length

/-- The tuples stored in the overflow chain that starts at page `pid` of the overflow
file `ovf`, following at most `n` links. -/
def chainTuples (E : Env) (ovf : List Page) : Nat → Nat → List Tuple
  | 0, _ => []
  | n + 1, pid =>
    if pid = E.NO_PAGE then []
    else match ovf[pid]? with
      | none => []
      | some pg => pageTuples pg ++ chainTuples E ovf n pg.ovflow

/-- The tuples stored in bucket `p`: those of the primary page, then those of its
overflow chain. -/
def bucketTuples (E : Env) (r : Reln) (p : Nat) : List Tuple :=
  match r.data[p]? with
  | none => []
  | some pg => pageTuples pg ++ chainTuples E r.ovflow r.ovflow.length pg.ovflow

/-- Every page of both files satisfies the page invariant. -/
def PagesOK (E : Env) (r : Reln) : Prop :=
  (∀ pg ∈ r.data, PageOK E pg) ∧ (∀ pg ∈ r.ovflow, PageOK E pg)

/-- Overflow links lead to existing overflow pages, and within the overflow file to a
page with a larger id (pages are linked to pages allocated later). -/
def LinksOK (E : Env) (r : Reln) : Prop :=
  (∀ pg ∈ r.data, pg.ovflow = E.NO_PAGE ∨ pg.ovflow < r.ovflow.length) ∧
  (∀ i, i < r.ovflow.length →
    (r.ovflow.getD i (newPage E)).ovflow = E.NO_PAGE ∨
    (i < (r.ovflow.getD i (newPage E)).ovflow ∧
      (r.ovflow.getD i (newPage E)).ovflow < r.ovflow.length))

/-- Forward links: a page of the overflow file is linked to a later page of the file. -/
def Fwd (E : Env) (f : List Page) : Prop :=
  ∀ (i : Nat) (pg : Page), f[i]? = some pg → pg.ovflow = E.NO_PAGE ∨ (i < pg.ovflow ∧ pg.ovflow < f.length)

instance (E : Env) (p : Page) : Decidable (PageOK E p) := by unfold PageOK; exact inferInstance

instance (E : Env) (r : Reln) : Decidable (PagesOK E r) := by unfold PagesOK; exact inferInstance

instance (E : Env) (r : Reln) : Decidable (LinksOK E r) := by unfold LinksOK; exact inferInstance

/-! ## A scan that keeps the unread bytes

The loop of `getNextTuple` reads the string at offset `curtup` of the page.  The
functions below run the same loop and carry, next to the offset, the bytes of the
data area from that offset on, so that a run over a concrete page takes time linear
in the page size.  They are equal to `nextTupleLoop`, `getNextTuple` and `scan`. -/

/-- The loop of `getNextTuple` with the unread bytes `rest` of the page. -/
def nextTupleLoopR (E : Env) (r : Reln) :
    Nat → Page → List Nat → QueryRep → Option (QueryRep × Option Tuple)
  | 0, _, _, _ => none
  | fuel + 1, pg, rest, q =>
    if q.curtup < E.PAGESIZE - E.hdr_size - 2 then
      let c := rest.takeWhile (fun b => b ≠ 0)
      let q1 := { q with curtup := q.curtup + c.length + 1 }
      if c.length = 0 then nextTupleLoopR E r fuel pg (rest.drop (c.length + 1)) q1
      else if tupleMatch r c q1.attris then some (q1, some c)
      else nextTupleLoopR E r fuel pg (rest.drop (c.length + 1)) q1
    else if pg.ovflow ≠ E.NO_PAGE then
      let ovp := pg.ovflow
      match getPage E r.ovflow ovp with
      | none => none
      | some pg1 =>
        let c := pg1.data.takeWhile (fun b => b ≠ 0)
        let q1 := { q with curpage := ovp, curtup := c.length + 1, is_ovflow := true }
        if c.length = 0 then nextTupleLoopR E r fuel pg1 (pg1.data.drop (c.length + 1)) q1
        else if tupleMatch r c q1.attris then some (q1, some c)
        else nextTupleLoopR E r fuel pg1 (pg1.data.drop (c.length + 1)) q1
    else
      if q.buck_ind = Pow 2 q.nstars - 1 then some (q, none)
      else
        let q1 := getNextBucket E q
        if q1.curpage > (Pow 2 r.depth - 1) + r.sp then some (q1, none)
        else
          match getPage E r.data q1.curpage with
          | none => none
          | some pg1 =>
            let c := pg1.data.takeWhile (fun b => b ≠ 0)
            let q2 := { q1 with curtup := c.length + 1 }
            if c.length = 0 then nextTupleLoopR E r fuel pg1 (pg1.data.drop (c.length + 1)) q2
            else if tupleMatch r c q2.attris then some (q2, some c)
            else nextTupleLoopR E r fuel pg1 (pg1.data.drop (c.length + 1)) q2

/-- The function `getNextTuple`, run with `nextTupleLoopR`. -/
def getNextTupleR (E : Env) (r : Reln) (fuel : Nat) (q : QueryRep) :
    Option (QueryRep × Option Tuple) :=
  match (if q.is_ovflow then getPage E r.ovflow q.curpage else getPage E r.data q.curpage) with
  | none => none
  | some pg => nextTupleLoopR E r fuel pg (pg.data.drop q.curtup) q

/-- A complete scan, run with `getNextTupleR`. -/
def scanR (E : Env) (r : Reln) (fuel : Nat) : Nat → QueryRep → Option (List Tuple)
  | 0, _ => none
  | calls + 1, q =>
    match getNextTupleR E r fuel q with
    | none => none
    | some (_, none) => some []
    | some (q1, some t) =>
      match scanR E r fuel calls q1 with
      | none => none
      | some ts => some (t :: ts)

/-- A well-formed relation: the data file has `npages` pages, every page satisfies the
page invariant and the overflow links are in order. -/
def WF (E : Env) (r : Reln) : Prop :=
  r.data.length = r.npages ∧ PagesOK E r ∧ LinksOK E r

instance (E : Env) (r : Reln) : Decidable (WF E r) := by unfold WF; exact inferInstance

/-- The invariant of the loops of `split` on the two files, the data file having `n`
pages, and on the in-memory copy of the current page of the new bucket. -/
structure SplitInv (E : Env) (n : Nat) (st : SplitSt) : Prop where
  data_len : st.data.length = n
  data_ok : ∀ pg ∈ st.data, PageOK E pg
  ov_ok : ∀ pg ∈ st.ovflow, PageOK E pg
  data_links : ∀ pg ∈ st.data, pg.ovflow = E.NO_PAGE ∨ pg.ovflow < st.ovflow.length
  fwd : Fwd E st.ovflow
  new_ok : PageOK E st.newpg
  new_link : st.newpg.ovflow = E.NO_PAGE
  new_id : st.is_new_ovflow = true → st.newpageid < st.ovflow.length

/-- The invariant of the loops of `split` on the in-memory copy `pg` of the current
page `cur` of the old bucket, which lies in the overflow file when `isOv` holds. -/
def CurInv (E : Env) (cur : Nat) (isOv : Bool) (st : SplitSt) : Prop :=
  PageOK E st.pg ∧
  (st.pg.ovflow = E.NO_PAGE ∨
    (st.pg.ovflow < st.ovflow.length ∧ (isOv = true → cur < st.pg.ovflow)))

/-- The bookkeeping of `split` on page ids, relative to the number `L0` of overflow
pages at its start: the overflow file has not shrunk, the overflow pages of the new
bucket lie behind the first `L0`, and the id of the current page of the new bucket
can be read back. -/
def NewAbove (E : Env) (L0 : Nat) (st : SplitSt) : Prop :=
  L0 ≤ st.ovflow.length ∧ (st.is_new_ovflow = true → L0 ≤ st.newpageid) ∧
  st.newpageid ≠ E.NO_PAGE ∧ (st.is_new_ovflow = false → st.newpageid < st.data.length)

/-- The id `cur` of the current page of the old bucket can be read back from its file. -/
def CurIdOK (E : Env) (cur : Nat) (isOv : Bool) (st : SplitSt) : Prop :=
  cur ≠ E.NO_PAGE ∧ (isOv = true → cur < st.ovflow.length) ∧
  (isOv = false → cur < st.data.length)

/-- The number of tuples stored in the pages of a file, by their tuple counts. -/
def tupleCount (f : List Page) : Nat := (f.map (fun p => p.ntuples)).sum

/-- The number of tuples stored in a relation, by the tuple counts of its pages. -/
def storedCount (r : Reln) : Nat := tupleCount r.data + tupleCount r.ovflow

/-- Where a successful placement stores the tuple `t` of bucket `p`: in the primary
page, in an existing overflow page, or in a newly allocated overflow page to which
the primary page or an overflow page that had no overflow link is now linked.  All
other pages are as before. -/
def StoredAt (E : Env) (r r' : Reln) (t : Tuple) (p : Nat) : Prop :=
  (∃ pg pg1, r.data[p]? = some pg ∧ addToPage E pg t = some pg1 ∧
      r'.data = r.data.set p pg1 ∧ r'.ovflow = r.ovflow) ∨
  (∃ j pg pg1, r.ovflow[j]? = some pg ∧ addToPage E pg t = some pg1 ∧
      r'.data = r.data ∧ r'.ovflow = r.ovflow.set j pg1) ∨
  (∃ pg1, addToPage E (newPage E) t = some pg1 ∧
      ((∃ pg, r.data[p]? = some pg ∧ pg.ovflow = E.NO_PAGE ∧
          r'.data = r.data.set p (pageSetOvflow pg r.ovflow.length) ∧
          r'.ovflow = (r.ovflow ++ [newPage E]).set r.ovflow.length pg1) ∨
       (∃ j pg, r.ovflow[j]? = some pg ∧ pg.ovflow = E.NO_PAGE ∧ r'.data = r.data ∧
          r'.ovflow = ((r.ovflow ++ [newPage E]).set r.ovflow.length pg1).set j
            (pageSetOvflow pg r.ovflow.length))))

/-! ## The run of `split` -/

/-- The state of `split` when its loops start: the old page `sp` has been read, the
new page `sp + 2^d` has been added to the data file and read. -/
def splitStart (E : Env) (r : Reln) : Option SplitSt :=
  match getPage E r.data r.sp with
  | none => none
  | some pg =>
    match getPage E (addPage E r.data).1 (r.sp + power_helper 2 r.depth) with
    | none => none
    | some newpg =>
      some { data := (addPage E r.data).1, ovflow := r.ovflow, pg := pg, newpg := newpg,
             newpageid := r.sp + power_helper 2 r.depth, is_new_ovflow := false }

/-- The loops of `split`, from their start to the state before the final `putPage`;
the flag is `false` when `split` returns at "Tuple too big to insert?". -/
def splitLoops (E : Env) (fuel : Nat) (r : Reln) : Option (Bool × SplitSt) :=
  match splitStart E r with
  | none => none
  | some st0 => splitChain E r r.depth r.sp fuel r.sp false st0

/-! ## Bit counts and the candidate buckets of a query -/

/-- The number of 1 bits of `w` at the positions below `n`. -/
def onesBelow (n w : Nat) : Nat := ((List.range n).filter (fun i => w.testBit i)).length

/-- The mask `m(b)` in the words of the specification: bit `j` of `b` is placed at the
position of the `j`-th lowest set bit of `u`, which is the position `i` with
`bitIsSet u i` below which `u` has `j` set bits; all other bits are 0. -/
def maskOf (E : Env) (u b : Nat) : Nat :=
  (List.range E.MAXBITS).foldl
    (fun m i => if bitIsSet u i && bitIsSet b (onesBelow i u) then setBit m i else m) 0

/-- The index `b` whose mask is `m`: bit `i` of `m`, at the `j`-th lowest set bit of
`u`, goes to bit `j`. -/
def indexOf (E : Env) (u m : Nat) : Nat :=
  (List.range E.MAXBITS).foldl
    (fun b i => if bitIsSet u i && bitIsSet m i then setBit b (onesBelow i u) else b) 0

/-- The candidate bucket that `getNextBucket` assigns to `curpage` when it raises
`buck_ind` to `b`. -/
def candidate (E : Env) (q : QueryRep) (b : Nat) : Nat :=
  q.known ||| bucketMask E q.unknown b q.nstars E.MAXBITS 0 0 0

/-! ## What `split` leaves in the pages of the old bucket -/

/-- The test of `split` on a tuple of the old bucket: the tuple stays in bucket `oldp`
when the lower `d + 1` bits of its hash are `oldp`. -/
def stays (E : Env) (r : Reln) (d oldp : Nat) (t : Tuple) : Bool :=
  decide (getLower (tupleHash E r t) (d + 1) = oldp)

/-- The tuple `t` fits an empty page. -/
def Fits (E : Env) (t : Tuple) : Prop := addToPage E (newPage E) t ≠ none

instance (E : Env) (t : Tuple) : Decidable (Fits E t) := by unfold Fits; exact inferInstance

/-- The ids of the pages of the overflow chain that starts at page `pid` of the
overflow file `ovf`, following at most `n` links. -/
def chainIds (E : Env) (ovf : List Page) : Nat → Nat → List Nat
  | 0, _ => []
  | n + 1, pid =>
    if pid = E.NO_PAGE then []
    else match ovf[pid]? with
      | none => []
      | some pg => pid :: chainIds E ovf n pg.ovflow

/-- The page `p'` is the page `p` after the compaction of `split`: it satisfies the
page invariant, it stores the tuples of `p` that stay, in their order, and it has
the overflow link of `p`. -/
def Kept (E : Env) (r : Reln) (d oldp : Nat) (p p' : Page) : Prop :=
  PageOK E p' ∧ pageTuples p' = (pageTuples p).filter (stays E r d oldp) ∧
  p'.ovflow = p.ovflow

/-- The ids of the pages of the new bucket during `split`, `L0` being the number of
overflow pages and `D` the number of data pages at its start: the current page is
the data page `D` or an overflow page behind the first `L0`. -/
def NewIds (L0 D : Nat) (st : SplitSt) : Prop :=
  L0 ≤ st.ovflow.length ∧ (st.is_new_ovflow = true → L0 ≤ st.newpageid) ∧
  (st.is_new_ovflow = false → st.newpageid = D)

/-- The stored copy of the current page `cur` of the old bucket is its in-memory copy. -/
def Synced (cur : Nat) (isOv : Bool) (st : SplitSt) : Prop :=
  (isOv = true → st.ovflow[cur]? = some st.pg) ∧ (isOv = false → st.data[cur]? = some st.pg)

/-- The pages that a part of `split` working on page `cur` leaves as they are: the
first `L0` overflow pages and the data pages other than `D`, `cur` excepted. -/
def SameBut (L0 D cur : Nat) (isOv : Bool) (st st' : SplitSt) : Prop :=
  st'.data.length = st.data.length ∧
  (∀ i, i < L0 → (isOv = true → i ≠ cur) → st'.ovflow[i]? = st.ovflow[i]?) ∧
  (∀ i, i ≠ D → (isOv = false → i ≠ cur) → st'.data[i]? = st.data[i]?)

/-- The page `p'` holds what the specification asks of the page `p` of the old bucket
after `split`: exactly the tuples of `p` with `getLower(tupleHash(t), d+1) = sp`, in
their order, packed from offset 0; the free offset is the sum of `strlen(t) + 1` over
them, the tuple count is their number, and the overflow link is that of `p`. -/
def Compacted (E : Env) (r : Reln) (p p' : Page) : Prop :=
  pageTuples p' = (pageTuples p).filter
    (fun t => decide (getLower (tupleHash E r t) (r.depth + 1) = r.sp)) ∧
  p'.data.take p'.free = pack (pageTuples p') ∧
  p'.free = ((pageTuples p').map (fun t => t.length + 1)).sum ∧
  p'.ntuples = (pageTuples p').length ∧ p'.ovflow = p.ovflow

/-! ## Room in the pages -/

/-- The bound that `addToPage` keeps on the free offset of a page: a tuple is added
only when it ends at or before offset `PAGESIZE - hdr_size - 2`, so that the free
offset behind its NUL is `PAGESIZE - hdr_size - 1` at most. -/
def Room (E : Env) (p : Page) : Prop := p.free ≤ E.PAGESIZE - E.hdr_size - 2 + 1

instance (E : Env) (p : Page) : Decidable (Room E p) := by unfold Room; exact inferInstance

/-- Every page of the two files of a relation keeps the bound of `addToPage` on its
free offset. -/
def RoomOK (E : Env) (r : Reln) : Prop :=
  (∀ pg ∈ r.data, Room E pg) ∧ (∀ pg ∈ r.ovflow, Room E pg)

instance (E : Env) (r : Reln) : Decidable (RoomOK E r) := by unfold RoomOK; exact inferInstance

/-- Every page of a state of `split`, in the files and in memory, keeps the bound of
`addToPage` on its free offset. -/
def RoomSt (E : Env) (st : SplitSt) : Prop :=
  (∀ pg ∈ st.data, Room E pg) ∧ (∀ pg ∈ st.ovflow, Room E pg) ∧ Room E st.pg ∧
  Room E st.newpg

/-! ## Concrete data for the runs -/

instance (r : Reln) : Decidable (Inv r) := by unfold Inv; exact inferInstance

/-- Byte values of the characters of a string. -/
def bytes (s : String) : List Nat := s.toList.map Char.toNat

/-- A byte hash for the concrete runs: the sum of the bytes. -/
def sumHash (bs : List Nat) : Nat := bs.foldl (fun h b => (h + b) % 2 ^ 32) 0

/-- The constants of the end-to-end scenarios of the specification (`MAXBITS = 32`,
`PAGESIZE = 1024`), 4-byte `Count` and `Offset`, and `sumHash` as the byte hash. -/
def stdEnv : Env :=
  { MAXBITS := 32, PAGESIZE := 1024, NO_PAGE := 4294967295, hdr_size := 12, COUNT_BITS := 32,
    hash_any := sumHash }

/-- The choice vector of the end-to-end scenarios: bits 0-7 of the composite hash are
bits 0-7 of attribute 0, bits 8-15 those of attribute 1, and so on. -/
def stdCv : List ChVecItem := (List.range 32).map (fun i => ⟨i / 8, i % 8⟩)

/-- The page that holds the tuples `ts` and nothing else. -/
def pageOf (E : Env) (ts : List Tuple) (ovflow : Nat) : Page :=
  { free := (pack ts).length, ovflow := ovflow, ntuples := ts.length,
    data := pack ts ++ List.replicate (dataSize E - (pack ts).length) 0 }

/-- The relation of the end-to-end scenarios when created: 4 attributes, 4 pages,
depth 2. -/
def relS : Reln := newRelation stdEnv 4 4 2 stdCv

/-- The relation `relS` after the insertion of `1,a,x,10`, which goes to bucket 1. -/
def relS1 : Reln :=
  { relS with
    ntups := 1, insertions := 1,
    data := [newPage stdEnv, pageOf stdEnv [bytes "1,a,x,10"] stdEnv.NO_PAGE,
             newPage stdEnv, newPage stdEnv] }

/-- A tuple of 1011 bytes; an empty page takes 1010 bytes at most. -/
def tupBig : Tuple := List.replicate 1005 97 ++ bytes ",b,c,d"

/-- The relation `relS` after the failed insertion of `tupBig`: bucket 1 is linked to
a new, empty overflow page. -/
def relSbig : Reln :=
  { relS with
    data := [newPage stdEnv, { newPage stdEnv with ovflow := 0 },
             newPage stdEnv, newPage stdEnv],
    ovflow := [newPage stdEnv] }

/-- The state of a run, or `r` when the run has none. -/
def stateOf (o : Option (Reln × Nat)) (r : Reln) : Reln :=
  match o with
  | some x => x.1
  | none => r

/-- Twenty-six tuples `i,i,i,i`, for `i` from 10 to 35. -/
def tups26 : List Tuple :=
  ["10,10,10,10", "11,11,11,11", "12,12,12,12", "13,13,13,13", "14,14,14,14",
   "15,15,15,15", "16,16,16,16", "17,17,17,17", "18,18,18,18", "19,19,19,19",
   "20,20,20,20", "21,21,21,21", "22,22,22,22", "23,23,23,23", "24,24,24,24",
   "25,25,25,25", "26,26,26,26", "27,27,27,27", "28,28,28,28", "29,29,29,29",
   "30,30,30,30", "31,31,31,31", "32,32,32,32", "33,33,33,33", "34,34,34,34",
   "35,35,35,35"].map bytes

/-- A relation of depth 0 that holds the first 25 tuples of `tups26` in its one page:
the state after their insertion into `newRelation stdEnv 4 1 0 stdCv`. -/
def relW : Reln :=
  { nattrs := 4, depth := 0, sp := 0, npages := 1, ntups := 25, cv := stdCv,
    insertions := 25, data := [pageOf stdEnv (tups26.take 25) stdEnv.NO_PAGE], ovflow := [] }

/-- The relation `relW` after the insertion of `35,35,35,35`, which splits bucket 0. -/
def relW1 : Reln := stateOf (addToRelation stdEnv 2 relW (bytes "35,35,35,35")) relW

/-- Two tuples of 601 bytes with an odd hash; one page holds only one of them. -/
def tupA : Tuple := List.replicate 595 97 ++ bytes ",b,c,d"

/-- The second tuple of 601 bytes. -/
def tupB : Tuple := List.replicate 595 99 ++ bytes ",b,c,d"

/-- A relation of depth 0 that holds `tupA` in its primary page and `tupB` in an
overflow page: the state after their insertion into `newRelation stdEnv 4 1 0 stdCv`. -/
def relAB : Reln :=
  { nattrs := 4, depth := 0, sp := 0, npages := 1, ntups := 2, cv := stdCv,
    insertions := 2, data := [pageOf stdEnv [tupA] 0],
    ovflow := [pageOf stdEnv [tupB] stdEnv.NO_PAGE] }

/-- A choice vector for two attributes that takes the bits in turn: bit `i` of the
composite hash is bit `i / 2` of attribute `i % 2`. -/
def cvAlt : List ChVecItem := (List.range 32).map (fun i => ⟨i % 2, i / 2⟩)

/-- Fifty-two tuples `i,21`, for `i` from 10 to 61. -/
def tups52 : List Tuple :=
  ["10,21", "11,21", "12,21", "13,21", "14,21", "15,21", "16,21", "17,21", "18,21", "19,21",
   "20,21", "21,21", "22,21", "23,21", "24,21", "25,21", "26,21", "27,21", "28,21", "29,21",
   "30,21", "31,21", "32,21", "33,21", "34,21", "35,21", "36,21", "37,21", "38,21", "39,21",
   "40,21", "41,21", "42,21", "43,21", "44,21", "45,21", "46,21", "47,21", "48,21", "49,21",
   "50,21", "51,21", "52,21", "53,21", "54,21", "55,21", "56,21", "57,21", "58,21", "59,21",
   "60,21", "61,21"].map bytes

/-- The relation `relAB` after the split of bucket 0. -/
def relAB1 : Reln :=
  match split stdEnv 2 relAB with
  | some r => r
  | none => relAB

/-! ## Address arithmetic and counters -/

theorem power_helper_eq (b n : Nat) : power_helper b n = b ^ n := by
  induction n with
  | zero => simp [power_helper]
  | succ n ih => simp [power_helper, ih, pow_succ, Nat.mul_comm]

theorem getLower_lt (h k : Nat) : getLower h k < 2 ^ k := by
  unfold getLower
  exact Nat.mod_lt _ (Nat.two_pow_pos k)

theorem getLower_succ (h d : Nat) :
    getLower h (d + 1) = getLower h d ∨ getLower h (d + 1) = getLower h d + 2 ^ d := by
  unfold getLower
  have hP : 0 < 2 ^ d := Nat.two_pow_pos d
  have h1 : h % 2 ^ (d + 1) % 2 ^ d = h % 2 ^ d :=
    Nat.mod_mod_of_dvd h (pow_dvd_pow 2 (Nat.le_succ d))
  have h2 : h % 2 ^ (d + 1) < 2 ^ (d + 1) := Nat.mod_lt _ (Nat.two_pow_pos _)
  have h4 := Nat.div_add_mod (h % 2 ^ (d + 1)) (2 ^ d)
  rw [h1] at h4
  rw [pow_succ] at h2
  have h5 : h % 2 ^ (d + 1) / 2 ^ d < 2 := Nat.div_lt_of_lt_mul (by omega)
  generalize h % 2 ^ (d + 1) = a at *
  generalize h % 2 ^ d = b at *
  generalize a / 2 ^ d = q at *
  generalize 2 ^ d = P at *
  interval_cases q
  · left; omega
  · right; omega

theorem bucketAddr_lt (h d sp : Nat) (hsp : sp < 2 ^ d) : bucketAddr h d sp < 2 ^ d + sp := by
  unfold bucketAddr
  have h0 := getLower_lt h d
  have hP : 0 < 2 ^ d := Nat.two_pow_pos d
  split
  · omega
  · split
    · rcases getLower_succ h d with h1 | h1 <;> rw [h1] <;> omega
    · omega

theorem getPage_addPage {E : Env} {f : List Page} {pg : Page}
    (h : getPage E (addPage E f).1 (addPage E f).2 = some pg) : pg = newPage E := by
  unfold getPage addPage at h
  split at h
  · exact absurd h (by simp)
  · simpa using h.symm

theorem getPage_ne_NO_PAGE {E : Env} {f : List Page} {pid : Nat} {pg : Page}
    (h : getPage E f pid = some pg) : pid ≠ E.NO_PAGE := by
  unfold getPage at h
  split at h
  · exact absurd h (by simp)
  · assumption

theorem addToChainEnd_placed {E : Env} {r r' : Reln} {t : Tuple} {p res : Nat}
    {prev : Option (Nat × Page)} (h : addToChainEnd E r t p prev = some (r', res)) :
    Placed E r r' t p res ∧ r'.data = r.data := by
  unfold addToChainEnd at h
  split at h
  · exact absurd h (by simp)
  · simp only at h
    split at h
    · exact absurd h (by simp)
    · rename_i newpg hg
      have hn := getPage_addPage hg
      subst hn
      split at h
      · rename_i hfull
        cases h
        exact ⟨⟨rfl, rfl, rfl, rfl, rfl, Or.inl ⟨rfl, rfl, rfl, rfl, hfull⟩⟩, rfl⟩
      · cases h
        exact ⟨⟨rfl, rfl, rfl, rfl, rfl, Or.inr ⟨rfl, rfl, rfl⟩⟩, rfl⟩

theorem addToChain_placed {E : Env} {r r' : Reln} {t : Tuple} {p res : Nat} :
    ∀ (fuel ovp : Nat) (prev : Option (Nat × Page)),
      addToChain E r t p fuel ovp prev = some (r', res) →
      Placed E r r' t p res ∧ r'.data = r.data := by
  intro fuel
  induction fuel with
  | zero =>
    intro ovp prev h
    unfold addToChain at h
    split at h
    · exact absurd h (by simp)
    · exact addToChainEnd_placed h
  | succ n ih =>
    intro ovp prev h
    unfold addToChain at h
    split at h
    · split at h
      · exact absurd h (by simp)
      · split at h
        · exact ih _ _ h
        · cases h
          exact ⟨⟨rfl, rfl, rfl, rfl, rfl, Or.inr ⟨rfl, rfl, rfl⟩⟩, rfl⟩
    · exact addToChainEnd_placed h

theorem place_placed {E : Env} {fuel : Nat} {r r' : Reln} {t : Tuple} {res : Nat}
    (h : place E fuel r t = some (r', res)) :
    Placed E r r' t (bucketAddr (tupleHash E r t) r.depth r.sp) res ∧
    bucketAddr (tupleHash E r t) r.depth r.sp ≠ E.NO_PAGE := by
  unfold place at h
  simp only at h
  split at h
  · exact absurd h (by simp)
  · rename_i pg hg
    refine ⟨?_, getPage_ne_NO_PAGE hg⟩
    split at h
    · cases h
      exact ⟨rfl, rfl, rfl, rfl, rfl, Or.inr ⟨rfl, rfl, rfl⟩⟩
    · split at h
      · split at h
        · exact absurd h (by simp)
        · rename_i newpg hg2
          have hn := getPage_addPage hg2
          subst hn
          split at h
          · rename_i hfull
            cases h
            exact ⟨rfl, rfl, rfl, rfl, rfl, Or.inl ⟨rfl, rfl, rfl, rfl, hfull⟩⟩
          · cases h
            exact ⟨rfl, rfl, rfl, rfl, rfl, Or.inr ⟨rfl, rfl, rfl⟩⟩
      · exact (addToChain_placed _ _ _ h).1

theorem split_fields {E : Env} {fuel : Nat} {r r' : Reln} (h : split E fuel r = some r') :
    r'.npages = r.npages + 1 ∧ r'.depth = r.depth ∧ r'.sp = r.sp ∧ r'.ntups = r.ntups ∧
    r'.insertions = r.insertions ∧ r'.nattrs = r.nattrs ∧ r'.cv = r.cv := by
  unfold split at h
  simp only at h
  split at h
  · exact absurd h (by simp)
  · split at h
    · exact absurd h (by simp)
    · split at h
      · exact absurd h (by simp)
      · cases h; simp
      · split at h <;> cases h <;> simp

/-- What a returning run of the first part of `addToRelation` leaves behind. -/
theorem maybeSplit_cases {E : Env} {fuel : Nat} {r r1 : Reln}
    (h : maybeSplit E fuel r = some r1) :
    r1.nattrs = r.nattrs ∧ r1.cv = r.cv ∧ r1.ntups = r.ntups ∧
    ((splits E r = false ∧ r1 = r) ∨
     (splits E r = true ∧ r1.insertions = 0 ∧ r1.npages = r.npages + 1 ∧
      ((r.sp + 1 = 2 ^ r.depth ∧ r1.sp = 0 ∧ r1.depth = r.depth + 1) ∨
       (r.sp + 1 ≠ 2 ^ r.depth ∧ r1.sp = r.sp + 1 ∧ r1.depth = r.depth)))) := by
  unfold maybeSplit at h
  split at h
  · exact absurd h (by simp)
  · split at h
    · rename_i hthr
      split at h
      · exact absurd h (by simp)
      · rename_i r0 hs
        obtain ⟨h1, h2, h3, h4, h5, h6, h7⟩ := split_fields hs
        simp only [power_helper_eq] at h
        by_cases hw : r0.sp + 1 = 2 ^ r0.depth
        · rw [if_pos hw] at h
          cases h
          refine ⟨h6, h7, h4, Or.inr ⟨by simp [splits, hthr], rfl, h1, Or.inl ⟨?_, rfl, ?_⟩⟩⟩
          · rw [← h3, ← h2]; exact hw
          · simp [h2]
        · rw [if_neg hw] at h
          cases h
          refine ⟨h6, h7, h4, Or.inr ⟨by simp [splits, hthr], rfl, h1, Or.inr ⟨?_, ?_, h2⟩⟩⟩
          · rw [← h3, ← h2]; exact hw
          · simp [h3]
    · rename_i hthr
      cases h
      exact ⟨rfl, rfl, rfl, Or.inl ⟨by simp [splits, hthr], rfl⟩⟩

/-- One call of `addToRelation`: the descriptor fields after the call. -/
theorem addToRelation_fields {E : Env} {fuel : Nat} {r r' : Reln} {t : Tuple} {res : Nat}
    (h : addToRelation E fuel r t = some (r', res)) :
    ∃ r1, maybeSplit E fuel r = some r1 ∧ place E fuel r1 t = some (r', res) ∧
      Placed E r1 r' t (bucketAddr (tupleHash E r1 t) r1.depth r1.sp) res ∧
      bucketAddr (tupleHash E r1 t) r1.depth r1.sp ≠ E.NO_PAGE := by
  unfold addToRelation at h
  split at h
  · exact absurd h (by simp)
  · rename_i r1 hm
    exact ⟨r1, hm, h, place_placed h⟩

/-- Claim C4 (bucket address range): for every composite hash `h` and every state with
`0 ≤ sp < 2^d` and `npages = 2^d + sp`, the address computed by `addToRelation`
(`bucketAddr`) satisfies `0 ≤ p < npages`. -/
theorem bucket_address_in_range (h d sp npages : Nat) (hsp : sp < 2 ^ d)
    (hnp : npages = 2 ^ d + sp) :
    0 ≤ bucketAddr h d sp ∧ bucketAddr h d sp < npages :=
  ⟨Nat.zero_le _, hnp ▸ bucketAddr_lt h d sp hsp⟩

/-- Witness for C4: hash 13 in a state with depth 2 and split pointer 1. -/
theorem bucket_address_in_range_witness :
    (1 < 2 ^ 2 ∧ 5 = 2 ^ 2 + 1) ∧ (0 ≤ bucketAddr 13 2 1 ∧ bucketAddr 13 2 1 < 5) :=
  ⟨⟨by decide, by decide⟩, bucket_address_in_range 13 2 1 5 (by decide) (by decide)⟩

theorem addToRelation_inv {E : Env} {fuel : Nat} {r r' : Reln} {t : Tuple} {res : Nat}
    (hinv : Inv r) (h : addToRelation E fuel r t = some (r', res)) :
    Inv r' ∧ (splits E r = true → r.sp + 1 = 2 ^ r.depth → r'.sp = 0 ∧ r'.depth = r.depth + 1) := by
  obtain ⟨r1, hm, -, hp, -⟩ := addToRelation_fields h
  obtain ⟨-, -, -, hc⟩ := maybeSplit_cases hm
  obtain ⟨h1, h2⟩ := hinv
  unfold Inv
  rw [hp.depth, hp.sp, hp.npages]
  rcases hc with ⟨hs, rfl⟩ | ⟨hs, -, hnp, ⟨hw, hsp, hd⟩ | ⟨hw, hsp, hd⟩⟩
  · exact ⟨⟨h1, h2⟩, fun hs2 => by simp [hs] at hs2⟩
  · refine ⟨⟨?_, ?_⟩, fun _ _ => ⟨hsp, hd⟩⟩
    · rw [hsp]; exact Nat.two_pow_pos _
    · rw [hsp, hd, hnp, h2, pow_succ]; omega
  · refine ⟨⟨?_, ?_⟩, fun _ hw2 => absurd hw2 hw⟩
    · rw [hsp, hd]; omega
    · rw [hsp, hd, hnp, h2]; omega

/-- One call of `addToRelation`: a success adds one to `ntups`, a failure leaves it, and
`npages` grows by one exactly when the call executes `split`. -/
theorem addToRelation_counts {E : Env} {fuel : Nat} {r r' : Reln} {t : Tuple} {res : Nat}
    (h : addToRelation E fuel r t = some (r', res)) :
    r'.ntups = r.ntups + (if res ≠ E.NO_PAGE then 1 else 0) ∧
    r'.npages = r.npages + (if splits E r then 1 else 0) := by
  obtain ⟨r1, hm, -, hp, hne⟩ := addToRelation_fields h
  obtain ⟨-, -, hnt, hc⟩ := maybeSplit_cases hm
  have hnp : r1.npages = r.npages + (if splits E r then 1 else 0) := by
    rcases hc with ⟨hs, rfl⟩ | ⟨hs, -, hnp, -⟩
    · simp [hs]
    · simp [hs, hnp]
  refine ⟨?_, by rw [hp.npages, hnp]⟩
  rcases hp.cases with ⟨hres, h1, -⟩ | ⟨hres, h1, -⟩
  · simp [hres, h1, hnt]
  · have : res ≠ E.NO_PAGE := hres ▸ hne
    simp [this, h1, hnt]

theorem addAll_counts {E : Env} {fuel : Nat} :
    ∀ (ts : List Tuple) (r0 r : Reln) (ps : List Nat), addAll E fuel r0 ts = some (r, ps) →
      r.ntups = r0.ntups + (ps.filter (fun p => p ≠ E.NO_PAGE)).length ∧
      r.npages = r0.npages + splitsExecuted E fuel r0 ts ∧ ps.length = ts.length := by
  intro ts
  induction ts with
  | nil =>
    intro r0 r ps h
    simp only [addAll, Option.some.injEq, Prod.mk.injEq] at h
    obtain ⟨rfl, rfl⟩ := h
    simp [splitsExecuted]
  | cons t ts ih =>
    intro r0 r ps h
    unfold addAll at h
    split at h
    · exact absurd h (by simp)
    · rename_i r1 p h1
      split at h
      · exact absurd h (by simp)
      · rename_i r2 ps2 h2
        simp only [Option.some.injEq, Prod.mk.injEq] at h
        obtain ⟨rfl, rfl⟩ := h
        obtain ⟨i1, i2, i3⟩ := ih _ _ _ h2
        obtain ⟨c1, c2⟩ := addToRelation_counts h1
        refine ⟨?_, ?_, by simp [i3]⟩
        · rw [i1, c1]
          by_cases hp : p = E.NO_PAGE <;> simp [List.filter_cons, hp]; omega
        · rw [i2, c2]
          simp only [splitsExecuted, h1]
          omega

/-- Claim C6 (accounting): starting from a freshly created relation, after the tuples `ts`
have been inserted one by one, `ntups` is the number of calls that returned a page id
other than `NO_PAGE` and `npages` is the initial `npages` plus the number of executed
splits; each successful call adds exactly 1 to `ntups` and each split exactly 1 to
`npages`. -/
theorem accounting (E : Env) (fuel nattrs npages d : Nat) (cv : List ChVecItem)
    (ts : List Tuple) (r : Reln) (ps : List Nat)
    (h : addAll E fuel (newRelation E nattrs npages d cv) ts = some (r, ps)) :
    r.ntups = (ps.filter (fun p => p ≠ E.NO_PAGE)).length ∧
    r.npages = npages + splitsExecuted E fuel (newRelation E nattrs npages d cv) ts ∧
    (∀ r0 t r1 p, addToRelation E fuel r0 t = some (r1, p) →
      r1.ntups = r0.ntups + (if p ≠ E.NO_PAGE then 1 else 0) ∧
      r1.npages = r0.npages + (if splits E r0 then 1 else 0)) := by
  obtain ⟨h1, h2, -⟩ := addAll_counts ts _ _ _ h
  refine ⟨by simpa [newRelation] using h1, by simpa [newRelation] using h2, ?_⟩
  intro r0 t r1 p h3
  exact addToRelation_counts h3

/-- Claim C10 (counters do not advance on a capacity failure): if `addToRelation` returns
`NO_PAGE` then `ntups` is unchanged and `insertions` is not greater than before. -/
theorem counters_on_failure (E : Env) (fuel : Nat) (r r' : Reln) (t : Tuple)
    (h : addToRelation E fuel r t = some (r', E.NO_PAGE)) :
    r'.ntups = r.ntups ∧ r'.insertions ≤ r.insertions := by
  obtain ⟨r1, hm, -, hp, hne⟩ := addToRelation_fields h
  obtain ⟨-, -, hnt, hc⟩ := maybeSplit_cases hm
  rcases hp.cases with ⟨-, h1, h2, -⟩ | ⟨hres, -⟩
  · refine ⟨by rw [h1, hnt], ?_⟩
    rcases hc with ⟨-, rfl⟩ | ⟨-, hi, -⟩
    · exact le_of_eq h2
    · rw [h2, hi]; exact Nat.zero_le _
  · exact absurd hres.symm hne

/-! ## The seed bucket of a query -/

theorem testBit_setBit (h i k : Nat) :
    (setBit h i).testBit k = (h.testBit k || decide (i = k)) := by
  unfold setBit
  rw [Nat.testBit_or, Nat.testBit_two_pow]

/-- Bit `k` of a word built by a loop over the positions below `n` that sets bit `i`
when `c i` holds. -/
theorem foldl_range_setBit (c : Nat → Bool) (g : Nat → Nat → Nat)
    (hg : ∀ h i, g h i = if c i = true then setBit h i else h) (n h0 k : Nat) :
    ((List.range n).foldl g h0).testBit k = (h0.testBit k || (decide (k < n) && c k)) := by
  induction n with
  | zero => simp
  | succ n ih =>
    rw [List.range_succ, List.foldl_append, List.foldl_cons, List.foldl_nil, hg]
    by_cases hk : k = n
    · subst hk
      cases hc : c k <;> simp [hc, ih, testBit_setBit]
    · have h1 : decide (k < n + 1) = decide (k < n) := by
        apply decide_eq_decide.mpr; omega
      have h2 : decide (n = k) = false := by simpa using fun h => hk h.symm
      cases hc : c n <;> simp [ih, testBit_setBit, h1, h2]

theorem tupleHash_testBit (E : Env) (r : Reln) (t : Tuple) (k : Nat) :
    (tupleHash E r t).testBit k =
      (decide (k < E.MAXBITS) &&
        bitIsSet (E.hash_any ((tupleVals t).getD (cvAt r k).att [])) (cvAt r k).bit) := by
  unfold tupleHash
  rw [foldl_range_setBit
    (fun i => bitIsSet (E.hash_any ((tupleVals t).getD (cvAt r i).att [])) (cvAt r i).bit)]
  · simp
  · intro h i; rfl

theorem queryBits_known (E : Env) (r : Reln) (ptr : List Nat) (a : Nat) (acc : Nat × Nat)
    (hq : ptr ≠ [63]) (k : Nat) :
    (queryBits E r ptr a acc).1.testBit k =
      (acc.1.testBit k || (decide (k < E.MAXBITS) &&
        (decide ((cvAt r k).att = a) && bitIsSet (E.hash_any ptr) (cvAt r k).bit))) := by
  unfold queryBits
  rw [if_neg hq]
  simp only
  rw [foldl_range_setBit
    (fun i => decide ((cvAt r i).att = a) && bitIsSet (E.hash_any ptr) (cvAt r i).bit)]
  intro h i
  by_cases h1 : (cvAt r i).att = a <;> simp [h1]

theorem queryHash_known (E : Env) (r : Reln) (k : Nat) :
    ∀ (toks : List (List Nat)) (a : Nat) (acc : Nat × Nat),
      (∀ v ∈ toks, v ≠ [63]) →
      (queryHash E r toks a acc).1.testBit k =
        (acc.1.testBit k || (decide (k < E.MAXBITS) &&
          (decide (a ≤ (cvAt r k).att ∧ (cvAt r k).att < a + toks.length) &&
            bitIsSet (E.hash_any (toks.getD ((cvAt r k).att - a) [])) (cvAt r k).bit))) := by
  intro toks
  induction toks with
  | nil => intro a acc _; simp [queryHash]
  | cons ptr rest ih =>
    intro a acc hq
    rw [queryHash, ih _ _ (fun v hv => hq v (List.mem_cons_of_mem _ hv)),
      queryBits_known E r ptr a acc (hq ptr (List.mem_cons_self _ _))]
    rcases Nat.lt_trichotomy (cvAt r k).att a with hlt | heq | hgt
    · have e1 : decide ((cvAt r k).att = a) = false := by simp; omega
      have e2 : decide (a + 1 ≤ (cvAt r k).att ∧ (cvAt r k).att < a + 1 + rest.length) = false := by
        simp; omega
      have e3 : decide (a ≤ (cvAt r k).att ∧ (cvAt r k).att < a + (ptr :: rest).length) = false := by
        simp; omega
      rw [e1, e2, e3]; simp
    · have e2 : decide (a + 1 ≤ (cvAt r k).att ∧ (cvAt r k).att < a + 1 + rest.length) = false := by
        simp; omega
      simp [heq, e2]
    · have e1 : decide ((cvAt r k).att = a) = false := by simp; omega
      have e2 : decide (a + 1 ≤ (cvAt r k).att ∧ (cvAt r k).att < a + 1 + rest.length) =
          decide (a ≤ (cvAt r k).att ∧ (cvAt r k).att < a + (ptr :: rest).length) := by
        apply decide_eq_decide.mpr; simp; omega
      have e3 : (ptr :: rest).getD ((cvAt r k).att - a) [] =
          rest.getD ((cvAt r k).att - (a + 1)) [] := by
        have : (cvAt r k).att - a = ((cvAt r k).att - (a + 1)) + 1 := by omega
        rw [this]; rfl
      rw [e1, e2, e3]; simp

theorem strtok_eq_tupleVals (t : List Nat) (hf : ∀ v ∈ tupleVals t, v ≠ []) :
    strtok t = tupleVals t := by
  unfold strtok
  apply List.filter_eq_self.mpr
  intro v hv
  simpa using hf v hv

/-- For a query string without `?` whose fields are all present, the composite hash
that `startQuery` assembles is the tuple hash. -/
theorem queryHash_eq_tupleHash (E : Env) (r : Reln) (t : Tuple)
    (hcv : ∀ pos, pos < E.MAXBITS → (cvAt r pos).att < r.nattrs)
    (hn : (tupleVals t).length = r.nattrs)
    (hf : ∀ v ∈ tupleVals t, v ≠ [] ∧ v ≠ [63]) :
    (queryHash E r (strtok t) 0 (0, 0)).1 = tupleHash E r t := by
  rw [strtok_eq_tupleVals t (fun v hv => (hf v hv).1)]
  apply Nat.eq_of_testBit_eq
  intro k
  rw [queryHash_known E r k _ _ _ (fun v hv => (hf v hv).2), tupleHash_testBit]
  by_cases hk : k < E.MAXBITS
  · have := hcv k hk
    simp [hk, hn, this]
  · simp [hk]

theorem startQuery_known (E : Env) (r : Reln) (q : List Nat) (stp0 : Nat) :
    (startQuery E r q stp0).known =
      bucketAddr (queryHash E r (strtok q) 0 (0, 0)).1 r.depth r.sp ∧
    (startQuery E r q stp0).curpage =
      bucketAddr (queryHash E r (strtok q) 0 (0, 0)).1 r.depth r.sp := by
  unfold startQuery bucketAddr
  simp

/-- Claim C7 (insert and query agree on the bucket): for every relation state, every
choice vector whose items have `att < nattrs`, and every tuple `t` of `nattrs`
non-empty fields none of which is `?`, the seed bucket of `startQuery` for the query
string `t` (fields `known` and `curpage`) is the bucket address that `addToRelation`
computes for `t` in the same state from the choice-vector composition of the
attribute hashes, which is the page id a successful placement of `t` returns. -/
theorem insert_query_same_bucket (E : Env) (r : Reln) (t : Tuple) (stp0 : Nat)
    (hcv : ∀ pos, pos < E.MAXBITS → (cvAt r pos).att < r.nattrs)
    (hn : (tupleVals t).length = r.nattrs)
    (hf : ∀ v ∈ tupleVals t, v ≠ [] ∧ v ≠ [63]) :
    (startQuery E r t stp0).known = bucketAddr (tupleHash E r t) r.depth r.sp ∧
    (startQuery E r t stp0).curpage = bucketAddr (tupleHash E r t) r.depth r.sp ∧
    (∀ fuel r' res, place E fuel r t = some (r', res) → res ≠ E.NO_PAGE →
      res = (startQuery E r t stp0).known) := by
  obtain ⟨h1, h2⟩ := startQuery_known E r t stp0
  rw [queryHash_eq_tupleHash E r t hcv hn hf] at h1 h2
  refine ⟨h1, h2, ?_⟩
  intro fuel r' res hp hres
  rcases (place_placed hp).1.cases with ⟨h3, -⟩ | ⟨h3, -⟩
  · exact absurd h3 hres
  · rw [h3, h1]

/-! ## Pages and their stored tuples -/

theorem pack_append (ts : List Tuple) (t : Tuple) : pack (ts ++ [t]) = pack ts ++ (t ++ [0]) := by
  induction ts with
  | nil => simp [pack]
  | cons a ts ih => simp [pack, ih]

theorem unpack_nul_free : ∀ (bs : List Nat), ∀ t ∈ unpack bs, 0 ∉ t := by
  intro bs
  induction bs with
  | nil => intro t ht; simp [unpack] at ht
  | cons b bs ih =>
    intro t ht
    unfold unpack at ht
    split at ht
    · rcases List.mem_cons.mp ht with h | h
      · subst h; simp
      · exact ih t h
    · rename_i hb
      split at ht
      · simp only [List.mem_singleton] at ht
        subst ht
        simpa using fun h => hb h.symm
      · rename_i t0 ts0 heq
        rcases List.mem_cons.mp ht with h | h
        · subst h
          have h0 := ih t0 (by rw [heq]; exact List.mem_cons_self _ _)
          simp only [List.mem_cons, not_or]
          exact ⟨fun h => hb h.symm, h0⟩
        · exact ih t (by rw [heq]; exact List.mem_cons_of_mem _ h)

theorem unpack_tuple (t : Tuple) (ht : 0 ∉ t) (rest : List Nat) :
    unpack (t ++ 0 :: rest) = t :: unpack rest := by
  induction t with
  | nil => simp [unpack]
  | cons b t ih =>
    have hb : b ≠ 0 := fun h => ht (by simp [h])
    have ht2 : 0 ∉ t := fun h => ht (List.mem_cons_of_mem _ h)
    rw [List.cons_append, unpack, if_neg hb, ih ht2]

theorem unpack_pack (ts : List Tuple) (h : ∀ t ∈ ts, 0 ∉ t) : unpack (pack ts) = ts := by
  induction ts with
  | nil => simp [pack, unpack]
  | cons t ts ih =>
    rw [pack, unpack_tuple t (h t (List.mem_cons_self _ _)),
      ih (fun s hs => h s (List.mem_cons_of_mem _ hs))]

theorem newPage_ok (E : Env) (hE : 2 ≤ dataSize E) : PageOK E (newPage E) := by
  simp [PageOK, newPage, pageTuples, unpack, pack, hE]

theorem pageTuples_newPage (E : Env) : pageTuples (newPage E) = [] := by
  simp [newPage, pageTuples, unpack]

/-- A successful `addToPage` appends the tuple to the stored tuples and keeps the page
invariant and the overflow link. -/
theorem addToPage_ok {E : Env} {p p' : Page} {t : Tuple} (hp : PageOK E p) (ht : 0 ∉ t)
    (h : addToPage E p t = some p') :
    pageTuples p' = pageTuples p ++ [t] ∧ PageOK E p' ∧ p'.ovflow = p.ovflow := by
  obtain ⟨h1, h0, h2, h3, h4⟩ := hp
  unfold addToPage at h
  split at h
  · rename_i hfit
    cases h
    have hsz : p.free + t.length + 1 ≤ p.data.length := by
      rw [h1] at h0 ⊢; unfold dataSize at h0 ⊢; omega
    have hA : (p.data.take p.free ++ (t ++ [0])).length = p.free + t.length + 1 := by
      simp only [List.length_append, List.length_take, List.length_singleton]
      omega
    have htake : (writeAt p.data p.free (t ++ [0])).take (p.free + t.length + 1) =
        p.data.take p.free ++ (t ++ [0]) := by
      unfold writeAt
      exact List.take_left' hA
    have hlen : (writeAt p.data p.free (t ++ [0])).length = p.data.length := by
      unfold writeAt
      simp only [List.length_append, List.length_take, List.length_drop, List.length_singleton]
      omega
    have htup : unpack (p.data.take p.free ++ (t ++ [0])) = pageTuples p ++ [t] := by
      rw [← h3, ← pack_append, unpack_pack]
      intro s hs
      rcases List.mem_append.mp hs with h5 | h5
      · exact unpack_nul_free _ s h5
      · simp only [List.mem_singleton] at h5; subst h5; exact ht
    have key : unpack ((writeAt p.data p.free (t ++ [0])).take (p.free + t.length + 1)) =
        pageTuples p ++ [t] := by rw [htake, htup]
    refine ⟨key, ⟨?_, ?_, ?_, ?_, ?_⟩, rfl⟩
    · show (writeAt p.data p.free (t ++ [0])).length = dataSize E
      rw [hlen, h1]
    · show 2 ≤ (writeAt p.data p.free (t ++ [0])).length
      rw [hlen]; exact h0
    · show p.free + t.length + 1 ≤ (writeAt p.data p.free (t ++ [0])).length
      rw [hlen]; exact hsz
    · show pack (unpack ((writeAt p.data p.free (t ++ [0])).take (p.free + t.length + 1))) =
        (writeAt p.data p.free (t ++ [0])).take (p.free + t.length + 1)
      rw [key, htake, pack_append, h3]
    · show p.ntuples + 1 =
        (unpack ((writeAt p.data p.free (t ++ [0])).take (p.free + t.length + 1))).length
      rw [key, h4]; simp
  · exact absurd h (by simp)

/-! ## Overflow chains -/

theorem getPage_some {E : Env} {f : List Page} {pid : Nat} {pg : Page} :
    getPage E f pid = some pg ↔ pid ≠ E.NO_PAGE ∧ f[pid]? = some pg := by
  unfold getPage
  by_cases h : pid = E.NO_PAGE <;> simp [h]

theorem chainTuples_NO_PAGE (E : Env) (f : List Page) (n : Nat) :
    chainTuples E f n E.NO_PAGE = [] := by
  cases n <;> simp [chainTuples]

theorem chainTuples_fuel {E : Env} {f : List Page} (hf : Fwd E f) :
    ∀ (n m pid : Nat), f.length - pid ≤ n → f.length - pid ≤ m →
      chainTuples E f n pid = chainTuples E f m pid := by
  intro n
  induction n with
  | zero =>
    intro m pid hn _
    cases m with
    | zero => rfl
    | succ m =>
      have : f[pid]? = none := List.getElem?_eq_none (by omega)
      simp [chainTuples, this]
  | succ n ih =>
    intro m pid hn hm
    cases m with
    | zero =>
      have : f[pid]? = none := List.getElem?_eq_none (by omega)
      simp [chainTuples, this]
    | succ m =>
      simp only [chainTuples]
      split
      · rfl
      · split
        · rfl
        · rename_i pg hg
          rcases hf pid pg hg with h | ⟨h1, h2⟩
          · rw [h, chainTuples_NO_PAGE, chainTuples_NO_PAGE]
          · rw [ih m pg.ovflow (by omega) (by omega)]

theorem chainTuples_set {E : Env} {f : List Page} (hf : Fwd E f) (j : Nat) (x : Page) :
    ∀ (n pid : Nat), j < pid → chainTuples E (f.set j x) n pid = chainTuples E f n pid := by
  intro n
  induction n with
  | zero => intro pid _; rfl
  | succ n ih =>
    intro pid hj
    simp only [chainTuples]
    have hg : (f.set j x)[pid]? = f[pid]? := List.getElem?_set_ne (by omega)
    rw [hg]
    split
    · rfl
    · split
      · rfl
      · rename_i pg hg2
        rcases hf pid pg hg2 with h | ⟨h1, h2⟩
        · rw [h, chainTuples_NO_PAGE, chainTuples_NO_PAGE]
        · rw [ih pg.ovflow (by omega)]

theorem addToChain_NO_PAGE (E : Env) (r : Reln) (t : Tuple) (p fuel : Nat)
    (prev : Option (Nat × Page)) :
    addToChain E r t p fuel E.NO_PAGE prev = addToChainEnd E r t p prev := by
  cases fuel <;> simp [addToChain]

/-- A successful run of the overflow scan of `addToRelation` from page `ovp` leaves the
pages before `ovp` as they were and adds `t` to the tuples of the chain from `ovp`. -/
theorem addToChain_tuples {E : Env} {r r' : Reln} {t : Tuple} {p res : Nat}
    (hf : Fwd E r.ovflow) (hpg : ∀ pg ∈ r.ovflow, PageOK E pg) (ht : 0 ∉ t) :
    ∀ (fuel ovp : Nat) (prev : Option (Nat × Page)), ovp ≠ E.NO_PAGE →
      addToChain E r t p fuel ovp prev = some (r', res) → res ≠ E.NO_PAGE →
      (∀ i, i < ovp → r'.ovflow[i]? = r.ovflow[i]?) ∧
      (∀ n n', r.ovflow.length - ovp ≤ n → r'.ovflow.length - ovp ≤ n' →
        (chainTuples E r'.ovflow n' ovp).Perm (t :: chainTuples E r.ovflow n ovp)) := by
  intro fuel
  induction fuel with
  | zero =>
    intro ovp prev hovp h _
    simp [addToChain, hovp] at h
  | succ fuel ih =>
    intro ovp prev hovp h hres
    rw [addToChain, if_pos hovp] at h
    split at h
    · exact absurd h (by simp)
    · rename_i ovpg hg
      obtain ⟨-, hg⟩ := getPage_some.mp hg
      have hlt : ovp < r.ovflow.length := (List.getElem?_eq_some.mp hg).1
      have hok : PageOK E ovpg := hpg ovpg (List.getElem?_mem hg)
      split at h
      · -- page `ovp` is full
        rename_i hfull
        by_cases hnext : ovpg.ovflow = E.NO_PAGE
        · -- it is the tail of the chain
          rw [hnext, addToChain_NO_PAGE] at h
          simp only [addToChainEnd] at h
          split at h
          · exact absurd h (by simp)
          · rename_i newpg hg2
            have hL : r.ovflow.length ≠ E.NO_PAGE := (getPage_some.mp hg2).1
            have hn := getPage_addPage hg2
            subst hn
            split at h
            · simp only [Option.some.injEq, Prod.mk.injEq] at h
              exact absurd h.2.symm hres
            · rename_i newpg1 hadd
              simp only [Option.some.injEq, Prod.mk.injEq] at h
              obtain ⟨rfl, -⟩ := h
              have hnew := addToPage_ok (newPage_ok E (hok.1 ▸ hok.2.1)) ht hadd
              simp only [addPage, putPage]
              refine ⟨?_, ?_⟩
              · intro i hi
                rw [List.getElem?_set_ne (by omega), List.getElem?_set_ne (by omega),
                  List.getElem?_append_left (by omega)]
              · intro n n' hn hn'
                simp only [List.length_set, List.length_append, List.length_singleton] at hn'
                obtain ⟨k, rfl⟩ : ∃ k, n = k + 1 := ⟨n - 1, by omega⟩
                obtain ⟨k', rfl⟩ : ∃ k', n' = k' + 2 := ⟨n' - 2, by omega⟩
                have e1 : (((r.ovflow ++ [newPage E]).set r.ovflow.length newpg1).set ovp
                    (pageSetOvflow ovpg r.ovflow.length))[ovp]? =
                    some (pageSetOvflow ovpg r.ovflow.length) := by
                  rw [List.getElem?_set_self (by simp; omega)]
                have e2 : (((r.ovflow ++ [newPage E]).set r.ovflow.length newpg1).set ovp
                    (pageSetOvflow ovpg r.ovflow.length))[r.ovflow.length]? = some newpg1 := by
                  rw [List.getElem?_set_ne (by omega), List.getElem?_set_self (by simp)]
                have e3 : newpg1.ovflow = E.NO_PAGE := by rw [hnew.2.2]; rfl
                have e4 : (pageSetOvflow ovpg r.ovflow.length).ovflow = r.ovflow.length := rfl
                have e5 : pageTuples (pageSetOvflow ovpg r.ovflow.length) = pageTuples ovpg := rfl
                rw [chainTuples, if_neg hovp, e1]
                simp only []
                rw [e4, e5, chainTuples, if_neg hL, e2]
                simp only []
                rw [e3, chainTuples_NO_PAGE, hnew.1, pageTuples_newPage]
                rw [chainTuples, if_neg hovp, hg]
                simp only []
                rw [hnext, chainTuples_NO_PAGE]
                simp only [List.nil_append, List.append_nil]
                exact List.perm_append_singleton _ _
        · -- the scan goes on to the next page
          rcases hf ovp ovpg hg with h0 | ⟨h1, h2⟩
          · exact absurd h0 hnext
          · obtain ⟨f1, f2⟩ := ih _ _ hnext h hres
            refine ⟨fun i hi => f1 i (by omega), ?_⟩
            intro n n' hn hn'
            have hg' : r'.ovflow[ovp]? = some ovpg := by rw [f1 ovp h1]; exact hg
            have hlt' : ovp < r'.ovflow.length := (List.getElem?_eq_some.mp hg').1
            obtain ⟨k, rfl⟩ : ∃ k, n = k + 1 := ⟨n - 1, by omega⟩
            obtain ⟨k', rfl⟩ : ∃ k', n' = k' + 1 := ⟨n' - 1, by omega⟩
            rw [chainTuples, if_neg hovp, hg', chainTuples, if_neg hovp, hg]
            simp only
            have := f2 k k' (by omega) (by omega)
            exact (List.Perm.append_left _ this).trans List.perm_middle
      · -- the tuple fits into page `ovp`
        rename_i ovpg1 hadd
        simp only [Option.some.injEq, Prod.mk.injEq] at h
        obtain ⟨rfl, -⟩ := h
        obtain ⟨a1, -, a3⟩ := addToPage_ok hok ht hadd
        simp only [putPage]
        refine ⟨fun i hi => List.getElem?_set_ne (by omega), ?_⟩
        intro n n' hn hn'
        simp only [List.length_set] at hn'
        obtain ⟨k, rfl⟩ : ∃ k, n = k + 1 := ⟨n - 1, by omega⟩
        obtain ⟨k', rfl⟩ : ∃ k', n' = k' + 1 := ⟨n' - 1, by omega⟩
        rw [chainTuples, if_neg hovp, List.getElem?_set_self hlt, chainTuples, if_neg hovp, hg]
        simp only
        rw [a1, a3]
        have e : chainTuples E (r.ovflow.set ovp ovpg1) k' ovpg.ovflow =
            chainTuples E r.ovflow k ovpg.ovflow := by
          rcases hf ovp ovpg hg with h0 | ⟨h1, h2⟩
          · rw [h0, chainTuples_NO_PAGE, chainTuples_NO_PAGE]
          · rw [chainTuples_set hf ovp ovpg1 k' _ h1]
            exact chainTuples_fuel hf _ _ _ (by omega) (by omega)
        rw [e, List.append_assoc]
        exact List.perm_middle

theorem fwd_of_linksOK {E : Env} {r : Reln} (h : LinksOK E r) : Fwd E r.ovflow := by
  intro i pg hg
  obtain ⟨hi, he⟩ := List.getElem?_eq_some.mp hg
  have h2 := h.2 i hi
  have e : r.ovflow.getD i (newPage E) = pg := by
    rw [List.getD_eq_getElem?_getD, hg]; rfl
  rw [e] at h2
  exact h2

theorem tupleHash_congr (E : Env) {r r' : Reln} (h : r'.cv = r.cv) (t : Tuple) :
    tupleHash E r' t = tupleHash E r t := by
  unfold tupleHash cvAt
  rw [h]

/-- A successful placement adds `t` to the tuples stored in the bucket it returns. -/
theorem place_tuples {E : Env} {fuel : Nat} {r r' : Reln} {t : Tuple} {res : Nat}
    (hpg : PagesOK E r) (hl : LinksOK E r) (ht : 0 ∉ t)
    (h : place E fuel r t = some (r', res)) (hres : res ≠ E.NO_PAGE) :
    (bucketTuples E r' res).Perm (t :: bucketTuples E r res) := by
  have hres2 : res = bucketAddr (tupleHash E r t) r.depth r.sp := by
    rcases (place_placed h).1.cases with ⟨h3, -⟩ | ⟨h3, -⟩
    · exact absurd h3 hres
    · exact h3
  unfold place at h
  simp only at h
  rw [← hres2] at h
  split at h
  · exact absurd h (by simp)
  · rename_i pg hg
    obtain ⟨-, hg⟩ := getPage_some.mp hg
    have hlt : res < r.data.length := (List.getElem?_eq_some.mp hg).1
    have hok : PageOK E pg := hpg.1 pg (List.getElem?_mem hg)
    split at h
    · -- the primary page has room
      rename_i pg1 hadd
      simp only [Option.some.injEq, Prod.mk.injEq, and_true] at h
      subst h
      obtain ⟨a1, -, a3⟩ := addToPage_ok hok ht hadd
      simp only [bucketTuples, putPage, hg]
      rw [List.getElem?_set_self hlt]
      simp only []
      rw [a1, a3, List.append_assoc]
      exact List.perm_middle
    · split at h
      · -- first overflow page of the bucket
        rename_i hno
        split at h
        · exact absurd h (by simp)
        · rename_i newpg hg2
          have hL : r.ovflow.length ≠ E.NO_PAGE := (getPage_some.mp hg2).1
          have hn := getPage_addPage hg2
          subst hn
          split at h
          · simp only [Option.some.injEq, Prod.mk.injEq] at h
            exact absurd h.2.symm hres
          · rename_i newpg1 hadd
            simp only [Option.some.injEq, Prod.mk.injEq, and_true] at h
            subst h
            have hnew := addToPage_ok (newPage_ok E (hok.1 ▸ hok.2.1)) ht hadd
            have e3 : newpg1.ovflow = E.NO_PAGE := by rw [hnew.2.2]; rfl
            have e4 : (pageSetOvflow pg r.ovflow.length).ovflow = r.ovflow.length := rfl
            have e5 : pageTuples (pageSetOvflow pg r.ovflow.length) = pageTuples pg := rfl
            simp only [bucketTuples, putPage, addPage, hg]
            rw [List.getElem?_set_self hlt]
            simp only [List.length_set, List.length_append, List.length_singleton]
            rw [e4, e5, chainTuples, if_neg hL,
              List.getElem?_set_self (by simp)]
            simp only []
            rw [e3, chainTuples_NO_PAGE, hnew.1, pageTuples_newPage, hno, chainTuples_NO_PAGE]
            simp only [List.nil_append, List.append_nil]
            exact List.perm_append_singleton _ _
      · -- scan of the overflow chain
        rename_i hov
        have hd : r'.data = r.data := (addToChain_placed _ _ _ h).2
        obtain ⟨-, f2⟩ := addToChain_tuples (fwd_of_linksOK hl) hpg.2 ht _ _ _ hov h hres
        simp only [bucketTuples, hd, hg]
        have := f2 r.ovflow.length r'.ovflow.length (by omega) (by omega)
        exact (List.Perm.append_left _ this).trans List.perm_middle

/-- A failed placement: the overflow file has one more, empty page; the primary page
of the bucket is linked to it when it had no overflow page, and nothing else
changes. -/
theorem place_failure {E : Env} {fuel : Nat} {r r' : Reln} {t : Tuple}
    (h : place E fuel r t = some (r', E.NO_PAGE)) :
    r'.ovflow = r.ovflow ++ [newPage E] ∧
    ∃ pg, r.data[bucketAddr (tupleHash E r t) r.depth r.sp]? = some pg ∧
      (pg.ovflow = E.NO_PAGE →
        r'.data = r.data.set (bucketAddr (tupleHash E r t) r.depth r.sp)
          { pg with ovflow := r.ovflow.length }) ∧
      (pg.ovflow ≠ E.NO_PAGE → r'.data = r.data) := by
  have hne := (place_placed h).2
  have hov : r'.ovflow = r.ovflow ++ [newPage E] := by
    rcases (place_placed h).1.cases with ⟨-, -, -, h3, -⟩ | ⟨h3, -⟩
    · exact h3
    · exact absurd h3.symm hne
  refine ⟨hov, ?_⟩
  unfold place at h
  simp only at h
  split at h
  · exact absurd h (by simp)
  · rename_i pg hg
    obtain ⟨-, hg⟩ := getPage_some.mp hg
    refine ⟨pg, hg, ?_⟩
    split at h
    · simp only [Option.some.injEq, Prod.mk.injEq] at h
      exact absurd h.2 hne
    · split at h
      · rename_i hno
        split at h
        · exact absurd h (by simp)
        · split at h
          · simp only [Option.some.injEq, Prod.mk.injEq, and_true] at h
            subst h
            exact ⟨fun _ => rfl, fun hx => absurd hno hx⟩
          · simp only [Option.some.injEq, Prod.mk.injEq] at h
            exact absurd h.2 hne
      · rename_i hno
        exact ⟨fun hx => absurd hx hno, fun _ => (addToChain_placed _ _ _ h).2⟩

/-! ## Compaction of a page -/

theorem pack_append_list (xs ys : List Tuple) : pack (xs ++ ys) = pack xs ++ pack ys := by
  induction xs with
  | nil => simp [pack]
  | cons a xs ih => simp [pack, ih]

theorem pageOK_free_eq {E : Env} {p : Page} (hp : PageOK E p) :
    (pack (pageTuples p)).length = p.free := by
  rw [hp.2.2.2.1, List.length_take, Nat.min_eq_left hp.2.2.1]

theorem pageOK_data {E : Env} {p : Page} (hp : PageOK E p) :
    p.data = pack (pageTuples p) ++ p.data.drop p.free := by
  rw [hp.2.2.2.1, List.take_append_drop]

theorem pageTuples_nul_free (p : Page) : ∀ t ∈ pageTuples p, 0 ∉ t :=
  unpack_nul_free _

theorem takeWhile_tuple (t : Tuple) (ht : 0 ∉ t) (rest : List Nat) :
    (t ++ 0 :: rest).takeWhile (fun b => b ≠ 0) = t := by
  induction t with
  | nil => simp
  | cons b t ih =>
    have hb : b ≠ 0 := fun h => ht (by simp [h])
    have ht2 : 0 ∉ t := fun h => ht (List.mem_cons_of_mem _ h)
    have hd : decide (b ≠ 0) = true := by simpa using hb
    rw [List.cons_append, List.takeWhile_cons]
    simp only [hd, if_true]
    rw [ih ht2]

/-- At a tuple boundary of a well-formed page the string read by `split` is the next
stored tuple. -/
theorem cstr_boundary {E : Env} {p : Page} (hp : PageOK E p) {ts1 ts2 : List Tuple} {t : Tuple}
    (hts : pageTuples p = ts1 ++ t :: ts2) : cstr p.data (pack ts1).length = t := by
  have ht : 0 ∉ t := pageTuples_nul_free p t (by rw [hts]; simp)
  unfold cstr
  rw [pageOK_data hp, hts, pack_append_list, List.append_assoc, List.drop_left, pack,
    List.append_assoc, List.cons_append]
  exact takeWhile_tuple t ht _

/-- Below the free offset there is a next tuple. -/
theorem boundary_next {E : Env} {p : Page} (hp : PageOK E p) {ts1 ts2 : List Tuple}
    (hts : pageTuples p = ts1 ++ ts2) (hlt : (pack ts1).length < p.free) :
    ∃ t ts3, ts2 = t :: ts3 := by
  cases ts2 with
  | nil =>
    rw [List.append_nil] at hts
    rw [← pageOK_free_eq hp, hts] at hlt
    exact absurd hlt (Nat.lt_irrefl _)
  | cons t ts3 => exact ⟨t, ts3, rfl⟩

/-- The clean-up of `split` removes the tuple at a boundary from the stored tuples and
keeps the page invariant and the overflow link. -/
theorem compact_ok {E : Env} {p : Page} (hp : PageOK E p) {ts1 ts2 : List Tuple} {t : Tuple}
    (hts : pageTuples p = ts1 ++ t :: ts2) :
    ∃ p1, compact p (pack ts1).length t.length = some p1 ∧
      PageOK E p1 ∧ pageTuples p1 = ts1 ++ ts2 ∧ p1.ovflow = p.ovflow := by
  obtain ⟨h1, h0, h2, h3, h4⟩ := hp
  have hfree : p.free = (pack ts1).length + (t.length + 1) + (pack ts2).length := by
    rw [← pageOK_free_eq ⟨h1, h0, h2, h3, h4⟩, hts, pack_append_list, pack]
    simp only [List.length_append, List.length_cons]
    omega
  obtain ⟨rest, hdata⟩ : ∃ rest, p.data = (pack ts1 ++ (t ++ [0])) ++ (pack ts2 ++ rest) := by
    refine ⟨p.data.drop p.free, ?_⟩
    have := pageOK_data ⟨h1, h0, h2, h3, h4⟩
    rw [hts, pack_append_list, pack] at this
    simpa using this
  have hnf : ∀ s ∈ ts1 ++ ts2, 0 ∉ s := by
    intro s hs
    apply pageTuples_nul_free p s
    rw [hts]
    rcases List.mem_append.mp hs with h | h
    · exact List.mem_append_left _ h
    · exact List.mem_append_right _ (List.mem_cons_of_mem _ h)
  have hbtc : p.free - ((pack ts1).length + t.length + 1) = (pack ts2).length := by omega
  have htemp : (p.data.drop ((pack ts1).length + (t.length + 1))).take
      (p.free - ((pack ts1).length + t.length + 1)) = pack ts2 := by
    rw [hbtc, hdata, List.drop_left' (by simp), List.take_left]
  have htake1 : p.data.take (pack ts1).length = pack ts1 := by
    rw [hdata, List.append_assoc, List.take_left]
  have hc : compact p (pack ts1).length t.length = some (decrementPageTuples
      (decreasePageFree { p with data := writeAt p.data (pack ts1).length (pack ts2) }
        (t.length + 1))) := by
    unfold compact
    rw [if_neg (by omega)]
    simp only [htemp]
  refine ⟨_, hc, ?_⟩
  · have hw : writeAt p.data (pack ts1).length (pack ts2) =
        (pack ts1 ++ pack ts2) ++ p.data.drop ((pack ts1).length + (pack ts2).length) := by
      unfold writeAt
      rw [htake1]
    have hwl : (writeAt p.data (pack ts1).length (pack ts2)).length = p.data.length := by
      rw [hw]
      simp only [List.length_append, List.length_drop]
      omega
    have hfree' : p.free - (t.length + 1) = (pack ts1 ++ pack ts2).length := by
      simp only [List.length_append]; omega
    have htk : (writeAt p.data (pack ts1).length (pack ts2)).take (p.free - (t.length + 1)) =
        pack (ts1 ++ ts2) := by
      rw [hw, hfree', List.take_left, pack_append_list]
    have key : unpack ((writeAt p.data (pack ts1).length (pack ts2)).take
        (p.free - (t.length + 1))) = ts1 ++ ts2 := by
      rw [htk, unpack_pack _ hnf]
    refine ⟨⟨?_, ?_, ?_, ?_, ?_⟩, key, rfl⟩
    · show (writeAt p.data (pack ts1).length (pack ts2)).length = dataSize E
      rw [hwl, h1]
    · show 2 ≤ (writeAt p.data (pack ts1).length (pack ts2)).length
      rw [hwl]; exact h0
    · show p.free - (t.length + 1) ≤ (writeAt p.data (pack ts1).length (pack ts2)).length
      rw [hwl]; omega
    · show pack (unpack ((writeAt p.data (pack ts1).length (pack ts2)).take
        (p.free - (t.length + 1)))) = (writeAt p.data (pack ts1).length (pack ts2)).take
        (p.free - (t.length + 1))
      rw [key, htk]
    · show p.ntuples - 1 = (unpack ((writeAt p.data (pack ts1).length (pack ts2)).take
        (p.free - (t.length + 1)))).length
      rw [key, h4, hts]
      simp only [List.length_append, List.length_cons]
      omega

/-! ## Invariants of `split` -/

theorem pageOK_setOvflow {E : Env} {p : Page} (hp : PageOK E p) (x : Nat) :
    PageOK E (pageSetOvflow p x) := hp

theorem fwd_append {E : Env} {f : List Page} (hf : Fwd E f) : Fwd E (f ++ [newPage E]) := by
  intro i pg hg
  by_cases hi : i < f.length
  · rw [List.getElem?_append_left hi] at hg
    rcases hf i pg hg with h | ⟨h1, h2⟩
    · exact Or.inl h
    · exact Or.inr ⟨h1, by simp; omega⟩
  · rw [List.getElem?_append_right (by omega)] at hg
    have : pg = newPage E := by
      cases hk : i - f.length with
      | zero => rw [hk] at hg; simpa using hg.symm
      | succ k => rw [hk] at hg; simp at hg
    subst this
    exact Or.inl rfl

theorem fwd_set {E : Env} {f : List Page} (hf : Fwd E f) (j : Nat) (x : Page)
    (hx : x.ovflow = E.NO_PAGE ∨ (j < x.ovflow ∧ x.ovflow < f.length)) :
    Fwd E (f.set j x) := by
  intro i pg hg
  rw [List.length_set]
  by_cases hij : j = i
  · subst hij
    have hj : j < f.length := by
      have := (List.getElem?_eq_some.mp hg).1
      simpa using this
    rw [List.getElem?_set_self hj] at hg
    simp only [Option.some.injEq] at hg
    subst hg
    exact hx
  · rw [List.getElem?_set_ne hij] at hg
    exact hf i pg hg

theorem getPage_set_self {E : Env} {f : List Page} {j : Nat} {x pg : Page}
    (h : getPage E (putPage f j x) j = some pg) : pg = x := by
  obtain ⟨-, hg⟩ := getPage_some.mp h
  unfold putPage at hg
  have hj : j < f.length := by
    have := (List.getElem?_eq_some.mp hg).1
    simpa using this
  rw [List.getElem?_set_self hj] at hg
  simpa using hg.symm

theorem getPage_mem {E : Env} {f : List Page} {j : Nat} {pg : Page}
    (h : getPage E f j = some pg) : pg ∈ f :=
  List.getElem?_mem (getPage_some.mp h).2

theorem getPage_lt {E : Env} {f : List Page} {j : Nat} {pg : Page}
    (h : getPage E f j = some pg) : j < f.length :=
  (List.getElem?_eq_some.mp (getPage_some.mp h).2).1

theorem cstr_nul_free (data : List Nat) (off : Nat) : 0 ∉ cstr data off := by
  unfold cstr
  intro h
  have := List.mem_takeWhile_imp h
  simp at this

/-- The placement of a tuple in the new bucket keeps the invariants of `split`. -/
theorem moveTuple_inv {E : Env} {n : Nat} {st st1 : SplitSt} {t : Tuple} {b : Bool} {cur : Nat}
    {isOv : Bool} (hs : SplitInv E n st) (hc : CurInv E cur isOv st) (ht : 0 ∉ t)
    (h : moveTuple E st t = some (b, st1)) :
    SplitInv E n st1 ∧ CurInv E cur isOv st1 ∧ st1.pg = st.pg := by
  unfold moveTuple at h
  split at h
  · rename_i np hadd
    simp only [Option.some.injEq, Prod.mk.injEq] at h
    obtain ⟨-, rfl⟩ := h
    obtain ⟨-, a2, a3⟩ := addToPage_ok hs.new_ok ht hadd
    exact ⟨⟨hs.data_len, hs.data_ok, hs.ov_ok, hs.data_links, hs.fwd, a2, a3.trans hs.new_link,
        hs.new_id⟩,
      hc, rfl⟩
  · simp only at h
    split at h
    · exact absurd h (by simp)
    · rename_i newpg hg
      have hn := getPage_addPage hg
      subst hn
      have hE : 2 ≤ dataSize E := hs.new_ok.1 ▸ hs.new_ok.2.1
      have hnew : PageOK E (newPage E) := newPage_ok E hE
      have hov1 : ∀ pg ∈ (addPage E st.ovflow).1, PageOK E pg := by
        intro pg hpg
        simp only [addPage, List.mem_append, List.mem_singleton] at hpg
        rcases hpg with h1 | h1
        · exact hs.ov_ok pg h1
        · subst h1; exact hnew
      have hlen1 : (addPage E st.ovflow).1.length = st.ovflow.length + 1 := by simp [addPage]
      have hid : (addPage E st.ovflow).2 = st.ovflow.length := rfl
      split at h
      · exact absurd h (by simp)
      · rename_i prevpage hprev
        -- the state after the new overflow page has been linked
        have key : ∀ st2 : SplitSt, st2 = (if st.is_new_ovflow = true then
              { st with ovflow := putPage (addPage E st.ovflow).1 st.newpageid
                          (pageSetOvflow prevpage (addPage E st.ovflow).2),
                        newpg := newPage E, newpageid := (addPage E st.ovflow).2,
                        is_new_ovflow := true }
            else
              { st with data := putPage st.data st.newpageid
                          (pageSetOvflow prevpage (addPage E st.ovflow).2),
                        ovflow := (addPage E st.ovflow).1, newpg := newPage E,
                        newpageid := (addPage E st.ovflow).2, is_new_ovflow := true }) →
            SplitInv E n st2 ∧ CurInv E cur isOv st2 ∧ st2.pg = st.pg := by
          intro st2 hst2
          by_cases hno : st.is_new_ovflow = true
          · rw [if_pos hno] at hst2 hprev
            subst hst2
            have hplt : st.newpageid < st.ovflow.length := hs.new_id hno
            refine ⟨⟨hs.data_len, hs.data_ok, ?_, ?_, ?_, hnew, rfl, ?_⟩, ⟨hc.1, ?_⟩, rfl⟩
            · intro pg hpg
              rcases List.mem_or_eq_of_mem_set hpg with h1 | h1
              · exact hov1 pg h1
              · subst h1; exact pageOK_setOvflow (hov1 _ (getPage_mem hprev)) _
            · intro pg hpg
              rcases hs.data_links pg hpg with h1 | h1
              · exact Or.inl h1
              · refine Or.inr ?_
                simp only [putPage, List.length_set, hlen1]; omega
            · apply fwd_set (fwd_append hs.fwd)
              refine Or.inr ⟨?_, ?_⟩
              · show st.newpageid < st.ovflow.length
                exact hplt
              · show st.ovflow.length < (st.ovflow ++ [newPage E]).length
                simp
            · intro _
              simp only [putPage, List.length_set, hlen1, hid]; omega
            · rcases hc.2 with h1 | ⟨h1, h2⟩
              · exact Or.inl h1
              · refine Or.inr ⟨?_, h2⟩
                simp only [putPage, List.length_set, hlen1]; omega
          · rw [if_neg hno] at hst2 hprev
            subst hst2
            refine ⟨⟨by simp only [putPage, List.length_set]; exact hs.data_len, ?_, hov1, ?_,
              fwd_append hs.fwd, hnew, rfl, ?_⟩, ⟨hc.1, ?_⟩, rfl⟩
            · intro pg hpg
              rcases List.mem_or_eq_of_mem_set hpg with h1 | h1
              · exact hs.data_ok pg h1
              · subst h1; exact pageOK_setOvflow (hs.data_ok _ (getPage_mem hprev)) _
            · intro pg hpg
              rcases List.mem_or_eq_of_mem_set hpg with h1 | h1
              · rcases hs.data_links pg h1 with h2 | h2
                · exact Or.inl h2
                · exact Or.inr (by rw [hlen1]; omega)
              · subst h1
                refine Or.inr ?_
                show st.ovflow.length < (addPage E st.ovflow).1.length
                rw [hlen1]; omega
            · intro _
              show st.ovflow.length < (addPage E st.ovflow).1.length
              rw [hlen1]; omega
            · rcases hc.2 with h1 | ⟨h1, h2⟩
              · exact Or.inl h1
              · exact Or.inr ⟨by show st.pg.ovflow < (addPage E st.ovflow).1.length
                                 rw [hlen1]; omega, h2⟩
        obtain ⟨k1, k2, k3⟩ := key _ rfl
        split at h
        · simp only [Option.some.injEq, Prod.mk.injEq] at h
          obtain ⟨-, rfl⟩ := h
          exact ⟨k1, k2, k3⟩
        · rename_i np hadd
          simp only [Option.some.injEq, Prod.mk.injEq] at h
          obtain ⟨-, rfl⟩ := h
          obtain ⟨-, a2, a3⟩ := addToPage_ok k1.new_ok ht hadd
          exact ⟨⟨k1.data_len, k1.data_ok, k1.ov_ok, k1.data_links, k1.fwd, a2, a3.trans k1.new_link,
            k1.new_id⟩, k2, k3⟩

/-- The inner loop of `split` keeps the invariants. -/
theorem splitPage_inv {E : Env} {n : Nat} {r : Reln} {d oldp cur : Nat} {isOv : Bool} :
    ∀ (fuel currtup : Nat) (st : SplitSt) (b : Bool) (st' : SplitSt) (ts1 ts2 : List Tuple),
      SplitInv E n st → CurInv E cur isOv st → pageTuples st.pg = ts1 ++ ts2 →
      currtup = (pack ts1).length →
      splitPage E r d oldp cur isOv fuel currtup st = some (b, st') →
      SplitInv E n st' ∧ CurInv E cur isOv st' := by
  intro fuel
  induction fuel with
  | zero =>
    intro currtup st b st' ts1 ts2 hs hc _ _ h
    unfold splitPage at h
    split at h
    · exact absurd h (by simp)
    · simp only [Option.some.injEq, Prod.mk.injEq] at h
      obtain ⟨-, rfl⟩ := h
      exact ⟨hs, hc⟩
  | succ fuel ih =>
    intro currtup st b st' ts1 ts2 hs hc hts hcur h
    unfold splitPage at h
    split at h
    · rename_i hlt
      subst hcur
      obtain ⟨t, ts3, rfl⟩ := boundary_next hc.1 hts hlt
      have htup : cstr st.pg.data (pack ts1).length = t := cstr_boundary hc.1 hts
      simp only [htup] at h
      split at h
      · -- the tuple stays
        refine ih _ st b st' (ts1 ++ [t]) ts3 hs hc (by rw [hts]; simp) ?_ h
        rw [pack_append]; simp only [List.length_append, List.length_singleton]; omega
      · -- the tuple moves
        have ht : 0 ∉ t := pageTuples_nul_free st.pg t (by rw [hts]; simp)
        split at h
        · exact absurd h (by simp)
        · rename_i st1 hmv
          obtain ⟨k1, k2, -⟩ := moveTuple_inv hs hc ht hmv
          simp only [Option.some.injEq, Prod.mk.injEq] at h
          obtain ⟨-, rfl⟩ := h
          exact ⟨k1, k2⟩
        · rename_i st1 hmv
          obtain ⟨k1, k2, k3⟩ := moveTuple_inv hs hc ht hmv
          obtain ⟨p1, c1, c2, c3, c4⟩ := compact_ok k2.1 (k3 ▸ hts)
          rw [c1] at h
          simp only at h
          have hlink : p1.ovflow = E.NO_PAGE ∨
              (p1.ovflow < st1.ovflow.length ∧ (isOv = true → cur < p1.ovflow)) := by
            rw [c4]; exact k2.2
          split at h
          · rename_i hov
            split at h
            · exact absurd h (by simp)
            · rename_i pg2 hg
              have : pg2 = p1 := getPage_set_self hg
              subst this
              refine ih _ _ b st' ts1 ts3 ?_ ?_ c3 rfl h
              · refine ⟨k1.data_len, k1.data_ok, ?_, ?_, ?_, k1.new_ok, k1.new_link, ?_⟩
                · intro pg hpg
                  rcases List.mem_or_eq_of_mem_set hpg with h1 | h1
                  · exact k1.ov_ok pg h1
                  · subst h1; exact c2
                · intro pg hpg
                  simp only [putPage, List.length_set]
                  exact k1.data_links pg hpg
                · apply fwd_set k1.fwd
                  rcases hlink with h1 | ⟨h1, h2⟩
                  · exact Or.inl h1
                  · exact Or.inr ⟨h2 hov, h1⟩
                · intro hn
                  simp only [putPage, List.length_set]
                  exact k1.new_id hn
              · refine ⟨c2, ?_⟩
                simp only [putPage, List.length_set]
                exact hlink
          · split at h
            · exact absurd h (by simp)
            · rename_i pg2 hg
              have : pg2 = p1 := getPage_set_self hg
              subst this
              refine ih _ _ b st' ts1 ts3 ?_ ?_ c3 rfl h
              · refine ⟨by simp only [putPage, List.length_set]; exact k1.data_len, ?_, k1.ov_ok, ?_,
                k1.fwd, k1.new_ok, k1.new_link, k1.new_id⟩
                · intro pg hpg
                  rcases List.mem_or_eq_of_mem_set hpg with h1 | h1
                  · exact k1.data_ok pg h1
                  · subst h1; exact c2
                · intro pg hpg
                  rcases List.mem_or_eq_of_mem_set hpg with h1 | h1
                  · exact k1.data_links pg h1
                  · subst h1
                    rcases hlink with h2 | ⟨h2, -⟩
                    · exact Or.inl h2
                    · exact Or.inr h2
              · exact ⟨c2, hlink⟩
    · simp only [Option.some.injEq, Prod.mk.injEq] at h
      obtain ⟨-, rfl⟩ := h
      exact ⟨hs, hc⟩

/-- The outer loop of `split` keeps the invariants of the files and the new page. -/
theorem splitChain_inv {E : Env} {n : Nat} {r : Reln} {d oldp : Nat} :
    ∀ (fuel cur : Nat) (isOv : Bool) (st : SplitSt) (b : Bool) (st' : SplitSt),
      SplitInv E n st → (isOv = false → CurInv E cur isOv st) →
      splitChain E r d oldp fuel cur isOv st = some (b, st') → SplitInv E n st' := by
  intro fuel
  induction fuel with
  | zero =>
    intro cur isOv st b st' hs _ h
    unfold splitChain at h
    split at h
    · simp only [Option.some.injEq, Prod.mk.injEq] at h
      obtain ⟨-, rfl⟩ := h
      exact hs
    · exact absurd h (by simp)
  | succ fuel ih =>
    intro cur isOv st b st' hs hc h
    unfold splitChain at h
    split at h
    · simp only [Option.some.injEq, Prod.mk.injEq] at h
      obtain ⟨-, rfl⟩ := h
      exact hs
    · split at h
      · exact absurd h (by simp)
      · rename_i pg hpg
        have hs2 : SplitInv E n { st with pg := pg } :=
          ⟨hs.data_len, hs.data_ok, hs.ov_ok, hs.data_links, hs.fwd, hs.new_ok, hs.new_link,
            hs.new_id⟩
        have hc2 : CurInv E cur isOv { st with pg := pg } := by
          cases isOv with
          | false =>
            simp only [Bool.false_eq_true, if_false, Option.some.injEq] at hpg
            subst hpg
            exact hc rfl
          | true =>
            simp only [if_true] at hpg
            refine ⟨hs.ov_ok pg (getPage_mem hpg), ?_⟩
            rcases hs.fwd cur pg (getPage_some.mp hpg).2 with h1 | ⟨h1, h2⟩
            · exact Or.inl h1
            · exact Or.inr ⟨h2, fun _ => h1⟩
        split at h
        · exact absurd h (by simp)
        · rename_i st1 hsp
          obtain ⟨k1, -⟩ := splitPage_inv _ _ _ _ _ [] (pageTuples pg) hs2 hc2 rfl rfl hsp
          simp only [Option.some.injEq, Prod.mk.injEq] at h
          obtain ⟨-, rfl⟩ := h
          exact k1
        · rename_i st1 hsp
          obtain ⟨k1, -⟩ := splitPage_inv _ _ _ _ _ [] (pageTuples pg) hs2 hc2 rfl rfl hsp
          exact ih _ _ _ _ _ k1 (fun hf => absurd hf (by simp)) h

theorem linksOK_of_fwd {E : Env} {r : Reln}
    (h1 : ∀ pg ∈ r.data, pg.ovflow = E.NO_PAGE ∨ pg.ovflow < r.ovflow.length)
    (h2 : Fwd E r.ovflow) : LinksOK E r := by
  refine ⟨h1, ?_⟩
  intro i hi
  have hg : r.ovflow[i]? = some (r.ovflow.getD i (newPage E)) := by
    rw [List.getD_eq_getElem?_getD, List.getElem?_eq_getElem hi]; rfl
  exact h2 i _ hg

/-- A returning `split` of a well-formed relation whose new bucket `sp + 2^d` is the
next page of the data file leaves a data file with one more page, well-formed pages
and links in order. -/
theorem split_wf {E : Env} {fuel : Nat} {r r' : Reln} (hw : WF E r)
    (hnew : r.sp + 2 ^ r.depth = r.data.length) (h : split E fuel r = some r') :
    r'.data.length = r.data.length + 1 ∧ PagesOK E r' ∧ LinksOK E r' := by
  obtain ⟨-, ⟨hd, ho⟩, hl⟩ := hw
  unfold split at h
  simp only [power_helper_eq, hnew] at h
  split at h
  · exact absurd h (by simp)
  · rename_i pg hg
    split at h
    · exact absurd h (by simp)
    · rename_i newpg hg2
      have hn := getPage_addPage hg2
      subst hn
      have hpg : PageOK E pg := hd pg (getPage_mem hg)
      have hE : 2 ≤ dataSize E := hpg.1 ▸ hpg.2.1
      have hs0 : SplitInv E (r.data.length + 1)
          { data := (addPage E r.data).1, ovflow := r.ovflow, pg := pg, newpg := newPage E,
            newpageid := r.data.length, is_new_ovflow := false } := by
        refine ⟨by simp [addPage], ?_, ho, ?_, fwd_of_linksOK hl, newPage_ok E hE, rfl,
          fun hf => absurd hf (by simp)⟩
        · intro p hp
          simp only [addPage, List.mem_append, List.mem_singleton] at hp
          rcases hp with h1 | h1
          · exact hd p h1
          · subst h1; exact newPage_ok E hE
        · intro p hp
          simp only [addPage, List.mem_append, List.mem_singleton] at hp
          rcases hp with h1 | h1
          · exact hl.1 p h1
          · subst h1; exact Or.inl rfl
      have hc0 : CurInv E r.sp false
          { data := (addPage E r.data).1, ovflow := r.ovflow, pg := pg, newpg := newPage E,
            newpageid := r.data.length, is_new_ovflow := false } := by
        refine ⟨hpg, ?_⟩
        rcases hl.1 pg (getPage_mem hg) with h1 | h1
        · exact Or.inl h1
        · exact Or.inr ⟨h1, fun hf => absurd hf (by simp)⟩
      split at h
      · exact absurd h (by simp)
      · rename_i st hsc
        have k := splitChain_inv _ _ _ _ _ _ hs0 (fun _ => hc0) hsc
        simp only [Option.some.injEq] at h
        subst h
        exact ⟨k.data_len, ⟨k.data_ok, k.ov_ok⟩, linksOK_of_fwd k.data_links k.fwd⟩
      · rename_i st hsc
        have k := splitChain_inv _ _ _ _ _ _ hs0 (fun _ => hc0) hsc
        split at h
        · simp only [Option.some.injEq] at h
          subst h
          refine ⟨k.data_len, ⟨k.data_ok, ?_⟩, linksOK_of_fwd ?_ ?_⟩
          · intro p hp
            rcases List.mem_or_eq_of_mem_set hp with h1 | h1
            · exact k.ov_ok p h1
            · subst h1; exact k.new_ok
          · intro p hp
            simp only [putPage, List.length_set]
            exact k.data_links p hp
          · exact fwd_set k.fwd _ _ (Or.inl k.new_link)
        · simp only [Option.some.injEq] at h
          subst h
          refine ⟨by simp only [putPage, List.length_set]; exact k.data_len, ⟨?_, k.ov_ok⟩,
            linksOK_of_fwd ?_ k.fwd⟩
          · intro p hp
            rcases List.mem_or_eq_of_mem_set hp with h1 | h1
            · exact k.data_ok p h1
            · subst h1; exact k.new_ok
          · intro p hp
            rcases List.mem_or_eq_of_mem_set hp with h1 | h1
            · exact k.data_links p h1
            · subst h1; exact Or.inl k.new_link

/-- The split step of `addToRelation` keeps a relation well formed and the state
invariant. -/
theorem maybeSplit_wf {E : Env} {fuel : Nat} {r r1 : Reln} (hinv : Inv r) (hw : WF E r)
    (h : maybeSplit E fuel r = some r1) : Inv r1 ∧ WF E r1 := by
  have hnew : r.sp + 2 ^ r.depth = r.data.length := by rw [hw.1, hinv.2]; omega
  unfold maybeSplit at h
  split at h
  · exact absurd h (by simp)
  · split at h
    · split at h
      · exact absurd h (by simp)
      · rename_i r0 hs
        obtain ⟨w1, w2, w3⟩ := split_wf hw hnew hs
        obtain ⟨f1, f2, f3, -, -, -, -⟩ := split_fields hs
        simp only [power_helper_eq] at h
        have hI := hinv.1
        have hN := hinv.2
        by_cases hwrap : r0.sp + 1 = 2 ^ r0.depth
        · rw [if_pos hwrap] at h
          simp only [Option.some.injEq] at h
          subst h
          rw [f3, f2] at hwrap
          refine ⟨⟨Nat.two_pow_pos _, ?_⟩, ?_, w2, w3⟩
          · show r0.npages = 2 ^ (r0.depth + 1) + 0
            rw [f1, f2, hN, pow_succ]; omega
          · show r0.data.length = r0.npages
            rw [w1, f1, hw.1]
        · rw [if_neg hwrap] at h
          simp only [Option.some.injEq] at h
          subst h
          rw [f3, f2] at hwrap
          refine ⟨⟨?_, ?_⟩, ?_, w2, w3⟩
          · show r0.sp + 1 < 2 ^ r0.depth
            rw [f3, f2]; omega
          · show r0.npages = 2 ^ r0.depth + (r0.sp + 1)
            rw [f1, f2, f3, hN]; omega
          · show r0.data.length = r0.npages
            rw [w1, f1, hw.1]
    · simp only [Option.some.injEq] at h
      subst h
      exact ⟨hinv, hw⟩

/-! ## Insertion keeps a relation well formed -/

theorem addToChainEnd_wf {E : Env} {r r' : Reln} {t : Tuple} {p res prevp : Nat} {prevpg : Page}
    (ho : ∀ pg ∈ r.ovflow, PageOK E pg) (hf : Fwd E r.ovflow) (ht : 0 ∉ t)
    (hprev : r.ovflow[prevp]? = some prevpg)
    (h : addToChainEnd E r t p (some (prevp, prevpg)) = some (r', res)) :
    (∀ pg ∈ r'.ovflow, PageOK E pg) ∧ Fwd E r'.ovflow ∧ r.ovflow.length ≤ r'.ovflow.length := by
  have hplt : prevp < r.ovflow.length := (List.getElem?_eq_some.mp hprev).1
  have hpok : PageOK E prevpg := ho prevpg (List.getElem?_mem hprev)
  have hE : 2 ≤ dataSize E := hpok.1 ▸ hpok.2.1
  have hov1 : ∀ pg ∈ r.ovflow ++ [newPage E], PageOK E pg := by
    intro pg hpg
    rcases List.mem_append.mp hpg with h1 | h1
    · exact ho pg h1
    · simp only [List.mem_singleton] at h1; subst h1; exact newPage_ok E hE
  unfold addToChainEnd at h
  simp only at h
  split at h
  · exact absurd h (by simp)
  · rename_i newpg hg
    have hn := getPage_addPage hg
    subst hn
    split at h
    · simp only [Option.some.injEq, Prod.mk.injEq] at h
      obtain ⟨rfl, -⟩ := h
      exact ⟨hov1, fwd_append hf, by simp [addPage]⟩
    · rename_i newpg1 hadd
      simp only [Option.some.injEq, Prod.mk.injEq] at h
      obtain ⟨rfl, -⟩ := h
      obtain ⟨-, a2, a3⟩ := addToPage_ok (newPage_ok E hE) ht hadd
      refine ⟨?_, ?_, by simp [addPage, putPage]⟩
      · intro pg hpg
        rcases List.mem_or_eq_of_mem_set hpg with h1 | h1
        · rcases List.mem_or_eq_of_mem_set h1 with h2 | h2
          · exact hov1 pg h2
          · subst h2; exact a2
        · subst h1; exact pageOK_setOvflow hpok _
      · apply fwd_set (fwd_set (fwd_append hf) _ _ (Or.inl (a3.trans rfl)))
        refine Or.inr ⟨hplt, ?_⟩
        show r.ovflow.length < ((r.ovflow ++ [newPage E]).set _ _).length
        simp

theorem addToChain_wf {E : Env} {r r' : Reln} {t : Tuple} {p res : Nat}
    (ho : ∀ pg ∈ r.ovflow, PageOK E pg) (hf : Fwd E r.ovflow) (ht : 0 ∉ t) :
    ∀ (fuel ovp : Nat) (prev : Option (Nat × Page)),
      (ovp = E.NO_PAGE → ∃ prevp prevpg, prev = some (prevp, prevpg) ∧
        r.ovflow[prevp]? = some prevpg) →
      addToChain E r t p fuel ovp prev = some (r', res) →
      (∀ pg ∈ r'.ovflow, PageOK E pg) ∧ Fwd E r'.ovflow ∧
        r.ovflow.length ≤ r'.ovflow.length := by
  intro fuel
  induction fuel with
  | zero =>
    intro ovp prev hprev h
    unfold addToChain at h
    split at h
    · exact absurd h (by simp)
    · rename_i hno
      obtain ⟨prevp, prevpg, rfl, hg⟩ := hprev (by simpa using hno)
      exact addToChainEnd_wf ho hf ht hg h
  | succ fuel ih =>
    intro ovp prev hprev h
    unfold addToChain at h
    split at h
    · split at h
      · exact absurd h (by simp)
      · rename_i ovpg hg
        split at h
        · exact ih _ _ (fun _ => ⟨ovp, ovpg, rfl, (getPage_some.mp hg).2⟩) h
        · rename_i ovpg1 hadd
          simp only [Option.some.injEq, Prod.mk.injEq] at h
          obtain ⟨rfl, -⟩ := h
          obtain ⟨-, a2, a3⟩ := addToPage_ok (ho ovpg (getPage_mem hg)) ht hadd
          refine ⟨?_, ?_, by simp [putPage]⟩
          · intro pg hpg
            rcases List.mem_or_eq_of_mem_set hpg with h1 | h1
            · exact ho pg h1
            · subst h1; exact a2
          · apply fwd_set hf
            rw [a3]
            exact hf ovp ovpg (getPage_some.mp hg).2
    · rename_i hno
      obtain ⟨prevp, prevpg, rfl, hg⟩ := hprev (by simpa using hno)
      exact addToChainEnd_wf ho hf ht hg h

/-- The placement part of `addToRelation` keeps a relation well formed. -/
theorem place_wf {E : Env} {fuel : Nat} {r r' : Reln} {t : Tuple} {res : Nat}
    (hw : WF E r) (ht : 0 ∉ t) (h : place E fuel r t = some (r', res)) : WF E r' := by
  obtain ⟨hlen, ⟨hd, ho⟩, hl⟩ := hw
  have hnp := (place_placed h).1.npages
  unfold place at h
  simp only at h
  split at h
  · exact absurd h (by simp)
  · rename_i pg hg
    have hpok : PageOK E pg := hd pg (getPage_mem hg)
    have hE : 2 ≤ dataSize E := hpok.1 ▸ hpok.2.1
    split at h
    · rename_i pg1 hadd
      simp only [Option.some.injEq, Prod.mk.injEq] at h
      obtain ⟨rfl, -⟩ := h
      obtain ⟨-, a2, a3⟩ := addToPage_ok hpok ht hadd
      refine ⟨by simp [putPage, hlen], ⟨?_, ho⟩, ?_, hl.2⟩
      · intro q hq
        rcases List.mem_or_eq_of_mem_set hq with h1 | h1
        · exact hd q h1
        · subst h1; exact a2
      · intro q hq
        rcases List.mem_or_eq_of_mem_set hq with h1 | h1
        · exact hl.1 q h1
        · subst h1; rw [a3]; exact hl.1 pg (getPage_mem hg)
    · split at h
      · split at h
        · exact absurd h (by simp)
        · rename_i newpg hg2
          have hn := getPage_addPage hg2
          subst hn
          have hov1 : ∀ q ∈ r.ovflow ++ [newPage E], PageOK E q := by
            intro q hq
            rcases List.mem_append.mp hq with h1 | h1
            · exact ho q h1
            · simp only [List.mem_singleton] at h1; subst h1; exact newPage_ok E hE
          have hdata : ∀ q ∈ r.data.set (bucketAddr (tupleHash E r t) r.depth r.sp)
              (pageSetOvflow pg r.ovflow.length), PageOK E q ∧
              (q.ovflow = E.NO_PAGE ∨ q.ovflow < r.ovflow.length + 1) := by
            intro q hq
            rcases List.mem_or_eq_of_mem_set hq with h1 | h1
            · refine ⟨hd q h1, ?_⟩
              rcases hl.1 q h1 with h2 | h2
              · exact Or.inl h2
              · exact Or.inr (by omega)
            · subst h1
              exact ⟨pageOK_setOvflow hpok _, Or.inr (Nat.lt_succ_self _)⟩
          split at h
          · simp only [Option.some.injEq, Prod.mk.injEq] at h
            obtain ⟨rfl, -⟩ := h
            refine ⟨by simp [putPage, hlen], ⟨fun q hq => (hdata q hq).1, hov1⟩,
              linksOK_of_fwd ?_ (fwd_append (fwd_of_linksOK hl))⟩
            intro q hq
            have := (hdata q hq).2
            simpa [addPage] using this
          · rename_i newpg1 hadd
            simp only [Option.some.injEq, Prod.mk.injEq] at h
            obtain ⟨rfl, -⟩ := h
            obtain ⟨-, a2, a3⟩ := addToPage_ok (newPage_ok E hE) ht hadd
            refine ⟨by simp [putPage, hlen], ⟨fun q hq => (hdata q hq).1, ?_⟩,
              linksOK_of_fwd ?_ ?_⟩
            · intro q hq
              rcases List.mem_or_eq_of_mem_set hq with h1 | h1
              · exact hov1 q h1
              · subst h1; exact a2
            · intro q hq
              have := (hdata q hq).2
              simpa [addPage, putPage] using this
            · exact fwd_set (fwd_append (fwd_of_linksOK hl)) _ _ (Or.inl (a3.trans rfl))
      · rename_i hov
        have hdata : r'.data = r.data := (addToChain_placed _ _ _ h).2
        obtain ⟨k1, k2, k3⟩ := addToChain_wf ho (fwd_of_linksOK hl) ht _ _ _
          (fun h0 => absurd h0 hov) h
        refine ⟨by rw [hdata, hlen, hnp], ⟨by rw [hdata]; exact hd, k1⟩, linksOK_of_fwd ?_ k2⟩
        rw [hdata]
        intro q hq
        rcases hl.1 q hq with h1 | h1
        · exact Or.inl h1
        · exact Or.inr (by omega)

/-- A returning call of `addToRelation` keeps the state invariant and the relation well
formed. -/
theorem addToRelation_wf {E : Env} {fuel : Nat} {r r' : Reln} {t : Tuple} {res : Nat}
    (hinv : Inv r) (hw : WF E r) (ht : 0 ∉ t)
    (h : addToRelation E fuel r t = some (r', res)) : Inv r' ∧ WF E r' := by
  obtain ⟨r1, hm, hp, -, -⟩ := addToRelation_fields h
  exact ⟨(addToRelation_inv hinv h).1, place_wf (maybeSplit_wf hinv hw hm).2 ht hp⟩

/-- A freshly created relation with pages of two data bytes at least is well formed. -/
theorem newRelation_wf (E : Env) (hE : 2 ≤ dataSize E) (nattrs npages d : Nat)
    (cv : List ChVecItem) : WF E (newRelation E nattrs npages d cv) := by
  refine ⟨by simp [newRelation], ⟨?_, by simp [newRelation]⟩, ?_, by simp [newRelation]⟩
  · intro pg hpg
    simp only [newRelation] at hpg
    rw [List.eq_of_mem_replicate hpg]
    exact newPage_ok E hE
  · intro pg hpg
    simp only [newRelation] at hpg
    rw [List.eq_of_mem_replicate hpg]
    exact Or.inl rfl

/-! ## Where an insertion stores the tuple -/

theorem addToChain_where {E : Env} {r r' : Reln} {t : Tuple} {p res : Nat}
    (hres : res ≠ E.NO_PAGE) :
    ∀ (fuel ovp : Nat) (prev : Option (Nat × Page)),
      (ovp = E.NO_PAGE → ∃ prevp prevpg, prev = some (prevp, prevpg) ∧
        r.ovflow[prevp]? = some prevpg ∧ prevpg.ovflow = E.NO_PAGE) →
      addToChain E r t p fuel ovp prev = some (r', res) → StoredAt E r r' t p := by
  have hend : ∀ (prevp : Nat) (prevpg : Page), r.ovflow[prevp]? = some prevpg →
      prevpg.ovflow = E.NO_PAGE →
      addToChainEnd E r t p (some (prevp, prevpg)) = some (r', res) → StoredAt E r r' t p := by
    intro prevp prevpg hg hno h
    unfold addToChainEnd at h
    simp only at h
    split at h
    · exact absurd h (by simp)
    · rename_i newpg hg2
      have hn := getPage_addPage hg2
      subst hn
      split at h
      · simp only [Option.some.injEq, Prod.mk.injEq] at h
        exact absurd h.2.symm hres
      · rename_i newpg1 hadd
        simp only [Option.some.injEq, Prod.mk.injEq] at h
        obtain ⟨rfl, -⟩ := h
        exact Or.inr (Or.inr ⟨newpg1, hadd, Or.inr ⟨prevp, prevpg, hg, hno, rfl, rfl⟩⟩)
  intro fuel
  induction fuel with
  | zero =>
    intro ovp prev hprev h
    unfold addToChain at h
    split at h
    · exact absurd h (by simp)
    · rename_i hno
      obtain ⟨prevp, prevpg, rfl, hg, hl⟩ := hprev (by simpa using hno)
      exact hend prevp prevpg hg hl h
  | succ fuel ih =>
    intro ovp prev hprev h
    unfold addToChain at h
    split at h
    · split at h
      · exact absurd h (by simp)
      · rename_i ovpg hg
        split at h
        · exact ih _ _ (fun hno => ⟨ovp, ovpg, rfl, (getPage_some.mp hg).2, hno⟩) h
        · rename_i ovpg1 hadd
          simp only [Option.some.injEq, Prod.mk.injEq] at h
          obtain ⟨rfl, -⟩ := h
          exact Or.inr (Or.inl ⟨ovp, ovpg, ovpg1, (getPage_some.mp hg).2, hadd, rfl, rfl⟩)
    · rename_i hno
      obtain ⟨prevp, prevpg, rfl, hg, hl⟩ := hprev (by simpa using hno)
      exact hend prevp prevpg hg hl h

/-- A successful placement stores the tuple in one page of the bucket it returns. -/
theorem place_where {E : Env} {fuel : Nat} {r r' : Reln} {t : Tuple} {res : Nat}
    (h : place E fuel r t = some (r', res)) (hres : res ≠ E.NO_PAGE) :
    StoredAt E r r' t res := by
  have hres2 : res = bucketAddr (tupleHash E r t) r.depth r.sp := by
    rcases (place_placed h).1.cases with ⟨h3, -⟩ | ⟨h3, -⟩
    · exact absurd h3 hres
    · exact h3
  unfold place at h
  simp only at h
  rw [← hres2] at h
  split at h
  · exact absurd h (by simp)
  · rename_i pg hg
    obtain ⟨-, hg⟩ := getPage_some.mp hg
    split at h
    · rename_i pg1 hadd
      simp only [Option.some.injEq, Prod.mk.injEq, and_true] at h
      subst h
      exact Or.inl ⟨pg, pg1, hg, hadd, rfl, rfl⟩
    · split at h
      · rename_i hno
        split at h
        · exact absurd h (by simp)
        · rename_i newpg hg2
          have hn := getPage_addPage hg2
          subst hn
          split at h
          · simp only [Option.some.injEq, Prod.mk.injEq] at h
            exact absurd h.2.symm hres
          · rename_i newpg1 hadd
            simp only [Option.some.injEq, Prod.mk.injEq, and_true] at h
            subst h
            exact Or.inr (Or.inr ⟨newpg1, hadd, Or.inl ⟨pg, hg, hno, rfl, rfl⟩⟩)
      · rename_i hov
        exact addToChain_where hres _ _ _ (fun h0 => absurd h0 hov) h

/-! ## Insertion and split return -/

theorem getPage_of_lt {E : Env} {f : List Page} {j : Nat} (hj : j < f.length)
    (hn : j ≠ E.NO_PAGE) : getPage E f j = some (f[j]) := by
  unfold getPage
  rw [if_neg hn, List.getElem?_eq_getElem hj]

theorem getPage_addPage_some (E : Env) (f : List Page) (hn : f.length ≠ E.NO_PAGE) :
    getPage E (addPage E f).1 (addPage E f).2 = some (newPage E) := by
  unfold getPage addPage
  simp only [if_neg hn]
  simp

/-- With page ids below `NO_PAGE`, the placement of a tuple in the new bucket returns;
it adds one overflow page at most and does not touch the first `L0` overflow pages. -/
theorem moveTuple_some {E : Env} {n L0 : Nat} {st : SplitSt} (t : Tuple)
    (hs : SplitInv E n st) (hn : NewAbove E L0 st) (hid : st.ovflow.length ≠ E.NO_PAGE) :
    ∃ b st1, moveTuple E st t = some (b, st1) ∧ NewAbove E L0 st1 ∧
      st.ovflow.length ≤ st1.ovflow.length ∧ st1.ovflow.length ≤ st.ovflow.length + 1 ∧
      (∀ i, i < L0 → st1.ovflow[i]? = st.ovflow[i]?) := by
  obtain ⟨n1, n2, n3, n4⟩ := hn
  unfold moveTuple
  split
  · exact ⟨true, _, rfl, ⟨n1, n2, n3, n4⟩, Nat.le_refl _, Nat.le_succ _, fun _ _ => rfl⟩
  · simp only
    rw [getPage_addPage_some E st.ovflow hid]
    simp only
    have hlen1 : (addPage E st.ovflow).1.length = st.ovflow.length + 1 := by simp [addPage]
    have hid2 : (addPage E st.ovflow).2 = st.ovflow.length := rfl
    by_cases hno : st.is_new_ovflow = true
    · have hplt : st.newpageid < (addPage E st.ovflow).1.length := by
        rw [hlen1]; exact Nat.lt_succ_of_lt (hs.new_id hno)
      rw [if_pos hno, getPage_of_lt hplt n3]
      simp only [if_pos hno]
      have frame : ∀ i, i < L0 →
          (putPage (addPage E st.ovflow).1 st.newpageid
            (pageSetOvflow ((addPage E st.ovflow).1[st.newpageid]) (addPage E st.ovflow).2))[i]? =
            st.ovflow[i]? := by
        intro i hi
        have h1 := n2 hno
        simp only [putPage, addPage]
        rw [List.getElem?_set_ne (by omega), List.getElem?_append_left (by omega)]
      have hna : NewAbove E L0
          { st with ovflow := putPage (addPage E st.ovflow).1 st.newpageid
                      (pageSetOvflow ((addPage E st.ovflow).1[st.newpageid])
                        (addPage E st.ovflow).2),
                    newpg := newPage E, newpageid := (addPage E st.ovflow).2,
                    is_new_ovflow := true } := by
        refine ⟨?_, fun _ => ?_, ?_, fun hf => absurd hf (by simp)⟩
        · simp only [putPage, List.length_set, hlen1]; omega
        · show L0 ≤ st.ovflow.length
          exact n1
        · show st.ovflow.length ≠ E.NO_PAGE
          exact hid
      split
      · exact ⟨false, _, rfl, hna, by simp [putPage, hlen1], by simp [putPage, hlen1], frame⟩
      · exact ⟨true, _, rfl, hna, by simp [putPage, hlen1], by simp [putPage, hlen1], frame⟩
    · have hno' : st.is_new_ovflow = false := by simpa using hno
      have hplt : st.newpageid < st.data.length := n4 hno'
      rw [if_neg hno, getPage_of_lt hplt n3]
      simp only [if_neg hno]
      have frame : ∀ i, i < L0 → (addPage E st.ovflow).1[i]? = st.ovflow[i]? := by
        intro i hi
        simp only [addPage]
        rw [List.getElem?_append_left (by omega)]
      have hna : NewAbove E L0
          { st with data := putPage st.data st.newpageid
                      (pageSetOvflow (st.data[st.newpageid]) (addPage E st.ovflow).2),
                    ovflow := (addPage E st.ovflow).1, newpg := newPage E,
                    newpageid := (addPage E st.ovflow).2, is_new_ovflow := true } := by
        refine ⟨?_, fun _ => ?_, ?_, fun hf => absurd hf (by simp)⟩
        · show L0 ≤ (addPage E st.ovflow).1.length
          rw [hlen1]; omega
        · show L0 ≤ st.ovflow.length
          exact n1
        · show st.ovflow.length ≠ E.NO_PAGE
          exact hid
      split
      · exact ⟨false, _, rfl, hna, by simp [hlen1], by simp [hlen1], frame⟩
      · exact ⟨true, _, rfl, hna, by simp [hlen1], by simp [hlen1], frame⟩

theorem getPage_putPage_self {E : Env} {f : List Page} {j : Nat} (x : Page)
    (hj : j < f.length) (hn : j ≠ E.NO_PAGE) : getPage E (putPage f j x) j = some x := by
  unfold getPage putPage
  rw [if_neg hn, List.getElem?_set_self hj]

/-- The invariants of `split` after the compacted page has been written back. -/
theorem afterCompact_inv {E : Env} {n cur : Nat} {isOv : Bool} {st1 : SplitSt} {p1 : Page}
    (k1 : SplitInv E n st1) (k2 : CurInv E cur isOv st1) (c2 : PageOK E p1)
    (c4 : p1.ovflow = st1.pg.ovflow) :
    (isOv = true →
      SplitInv E n { st1 with ovflow := putPage st1.ovflow cur p1, pg := p1 } ∧
      CurInv E cur isOv { st1 with ovflow := putPage st1.ovflow cur p1, pg := p1 }) ∧
    (isOv = false →
      SplitInv E n { st1 with data := putPage st1.data cur p1, pg := p1 } ∧
      CurInv E cur isOv { st1 with data := putPage st1.data cur p1, pg := p1 }) := by
  have hlink : p1.ovflow = E.NO_PAGE ∨
      (p1.ovflow < st1.ovflow.length ∧ (isOv = true → cur < p1.ovflow)) := by
    rw [c4]; exact k2.2
  constructor
  · intro hov
    refine ⟨⟨k1.data_len, k1.data_ok, ?_, ?_, ?_, k1.new_ok, k1.new_link, ?_⟩, c2, ?_⟩
    · intro pg hpg
      rcases List.mem_or_eq_of_mem_set hpg with h1 | h1
      · exact k1.ov_ok pg h1
      · subst h1; exact c2
    · intro pg hpg
      simp only [putPage, List.length_set]
      exact k1.data_links pg hpg
    · apply fwd_set k1.fwd
      rcases hlink with h1 | ⟨h1, h2⟩
      · exact Or.inl h1
      · exact Or.inr ⟨h2 hov, h1⟩
    · intro hn
      simp only [putPage, List.length_set]
      exact k1.new_id hn
    · simp only [putPage, List.length_set]
      exact hlink
  · intro _
    refine ⟨⟨by simp only [putPage, List.length_set]; exact k1.data_len, ?_, k1.ov_ok, ?_,
      k1.fwd, k1.new_ok, k1.new_link, k1.new_id⟩, c2, hlink⟩
    · intro pg hpg
      rcases List.mem_or_eq_of_mem_set hpg with h1 | h1
      · exact k1.data_ok pg h1
      · subst h1; exact c2
    · intro pg hpg
      rcases List.mem_or_eq_of_mem_set hpg with h1 | h1
      · exact k1.data_links pg h1
      · subst h1
        rcases hlink with h2 | ⟨h2, -⟩
        · exact Or.inl h2
        · exact Or.inr h2

/-- With page ids below `NO_PAGE`, the inner loop of `split` returns when its fuel is
the number of bytes between `currtup` and the free offset. -/
theorem splitPage_some {E : Env} {n L0 : Nat} {r : Reln} {d oldp cur : Nat} {isOv : Bool} :
    ∀ (fuel currtup : Nat) (st : SplitSt) (ts1 ts2 : List Tuple) (B : Nat),
      SplitInv E n st → CurInv E cur isOv st → NewAbove E L0 st → CurIdOK E cur isOv st →
      pageTuples st.pg = ts1 ++ ts2 → currtup = (pack ts1).length →
      st.pg.free - currtup ≤ fuel → st.ovflow.length + ts2.length ≤ B → B ≤ E.NO_PAGE →
      ∃ b st', splitPage E r d oldp cur isOv fuel currtup st = some (b, st') ∧
        NewAbove E L0 st' ∧ st'.ovflow.length ≤ B ∧ st'.pg.ovflow = st.pg.ovflow ∧
        (∀ i, i < L0 → (isOv = true → i ≠ cur) → st'.ovflow[i]? = st.ovflow[i]?) := by
  intro fuel
  induction fuel with
  | zero =>
    intro currtup st ts1 ts2 B _ _ hn _ _ _ hfuel hB _
    refine ⟨true, st, ?_, hn, by omega, rfl, fun _ _ _ => rfl⟩
    unfold splitPage
    rw [if_neg (by omega)]
  | succ fuel ih =>
    intro currtup st ts1 ts2 B hs hc hn hci hts hcur hfuel hB hBN
    unfold splitPage
    by_cases hlt : currtup < st.pg.free
    · rw [if_pos hlt]
      subst hcur
      obtain ⟨t, ts3, rfl⟩ := boundary_next hc.1 hts hlt
      have htup : cstr st.pg.data (pack ts1).length = t := cstr_boundary hc.1 hts
      have hfree := pageOK_free_eq hc.1
      rw [hts, pack_append_list, pack] at hfree
      simp only [List.length_append, List.length_cons] at hfree hB
      simp only [htup]
      split
      · -- the tuple stays
        obtain ⟨b, st', e1, e2, e3, e4, e5⟩ := ih ((pack ts1).length + t.length + 1) st
          (ts1 ++ [t]) ts3 B hs hc hn hci (by rw [hts]; simp)
          (by rw [pack_append]; simp only [List.length_append, List.length_singleton]; omega)
          (by omega) (by omega) hBN
        exact ⟨b, st', e1, e2, e3, e4, e5⟩
      · -- the tuple moves
        have ht : 0 ∉ t := pageTuples_nul_free st.pg t (by rw [hts]; simp)
        obtain ⟨b1, st1, m1, m2, m3, m4, m5⟩ := moveTuple_some t hs hn (by omega)
        obtain ⟨k1, k2, k3⟩ := moveTuple_inv hs hc ht m1
        rw [m1]
        cases b1 with
        | false =>
          exact ⟨false, st1, rfl, m2, by omega, by rw [k3], fun i hi _ => m5 i hi⟩
        | true =>
          simp only
          obtain ⟨p1, c1, c2, c3, c4⟩ := compact_ok k2.1 (k3 ▸ hts)
          rw [c1]
          simp only
          have hp1free : p1.free = (pack ts1).length + (pack ts3).length := by
            rw [← pageOK_free_eq c2, c3, pack_append_list, List.length_append]
          have hci1 : CurIdOK E cur isOv st1 :=
            ⟨hci.1, fun h => Nat.lt_of_lt_of_le (hci.2.1 h) m3,
              fun h => by rw [k1.data_len, ← hs.data_len]; exact hci.2.2 h⟩
          obtain ⟨a1, a2⟩ := afterCompact_inv k1 k2 c2 c4
          cases isOv with
          | true =>
            simp only [if_true]
            rw [getPage_putPage_self p1 (hci1.2.1 rfl) hci1.1]
            simp only
            obtain ⟨s2, c2'⟩ := a1 rfl
            obtain ⟨b, st', e1, e2, e3, e4, e5⟩ := ih (pack ts1).length
              { st1 with ovflow := putPage st1.ovflow cur p1, pg := p1 } ts1 ts3 B s2 c2'
              ⟨by simp only [putPage, List.length_set]; exact m2.1, m2.2.1, m2.2.2.1, m2.2.2.2⟩
              ⟨hci1.1, fun _ => by simp only [putPage, List.length_set]; exact hci1.2.1 rfl,
                fun h => absurd h (by simp)⟩
              c3 rfl (by simp only [hp1free]; omega)
              (by simp only [putPage, List.length_set]; omega) hBN
            refine ⟨b, st', e1, e2, e3, by rw [e4]; exact c4.trans (by rw [k3]), ?_⟩
            intro i hi hne
            rw [e5 i hi (fun _ => hne trivial)]
            simp only [putPage]
            rw [List.getElem?_set_ne (fun h => hne trivial h.symm), m5 i hi]
          | false =>
            simp only [Bool.false_eq_true, if_false]
            rw [getPage_putPage_self p1 (hci1.2.2 rfl) hci1.1]
            simp only
            obtain ⟨s2, c2'⟩ := a2 rfl
            obtain ⟨b, st', e1, e2, e3, e4, e5⟩ := ih (pack ts1).length
              { st1 with data := putPage st1.data cur p1, pg := p1 } ts1 ts3 B s2 c2'
              ⟨m2.1, m2.2.1, m2.2.2.1,
                fun h => by simp only [putPage, List.length_set]; exact m2.2.2.2 h⟩
              ⟨hci1.1, fun h => absurd h (by simp),
                fun _ => by simp only [putPage, List.length_set]; exact hci1.2.2 rfl⟩
              c3 rfl (by simp only [hp1free]; omega)
              (by show st1.ovflow.length + ts3.length ≤ B; omega) hBN
            refine ⟨b, st', e1, e2, e3, by rw [e4]; exact c4.trans (by rw [k3]), ?_⟩
            intro i hi _
            rw [e5 i hi (fun h => absurd h (by simp)), m5 i hi]
    · rw [if_neg hlt]
      exact ⟨true, st, rfl, hn, by omega, rfl, fun _ _ _ => rfl⟩

theorem tupleCount_cons (p : Page) (f : List Page) :
    tupleCount (p :: f) = p.ntuples + tupleCount f := by
  simp [tupleCount]

theorem tupleCount_drop_getElem (f : List Page) (cur : Nat) (h : cur < f.length) :
    tupleCount (f.drop cur) = f[cur].ntuples + tupleCount (f.drop (cur + 1)) := by
  rw [List.drop_eq_getElem_cons h, tupleCount_cons]

theorem tupleCount_drop_mono (f : List Page) (lo cur : Nat) (h : lo ≤ cur) :
    tupleCount (f.drop cur) ≤ tupleCount (f.drop lo) := by
  induction cur with
  | zero =>
    have : lo = 0 := by omega
    subst this; exact Nat.le_refl _
  | succ k ih =>
    by_cases hk : lo = k + 1
    · subst hk; exact Nat.le_refl _
    · have h1 := ih (by omega)
      by_cases hlen : k < f.length
      · rw [tupleCount_drop_getElem f k hlen] at h1
        omega
      · rw [List.drop_of_length_le (by omega)] at h1 ⊢
        exact h1

theorem tupleCount_mem (f : List Page) (p : Page) (h : p ∈ f) : p.ntuples ≤ tupleCount f := by
  induction f with
  | nil => simp at h
  | cons q f ih =>
    rw [tupleCount_cons]
    rcases List.mem_cons.mp h with h1 | h1
    · subst h1; omega
    · have := ih h1; omega

/-- With page ids below `NO_PAGE`, the outer loop of `split` returns from an overflow
page of the old bucket on when its fuel is the number of overflow pages that the
chain can still visit. -/
theorem splitChain_some {E : Env} {n L0 : Nat} {r : Reln} {d oldp : Nat} (f0 : List Page)
    (hf0 : Fwd E f0) (hL0 : f0.length = L0) (hok0 : ∀ pg ∈ f0, PageOK E pg) :
    ∀ (fuel cur : Nat) (st : SplitSt) (lo B : Nat),
      SplitInv E n st → NewAbove E L0 st →
      (∀ i, lo ≤ i → i < L0 → st.ovflow[i]? = f0[i]?) →
      (cur = E.NO_PAGE ∨ (lo ≤ cur ∧ cur < L0)) → L0 - lo ≤ fuel →
      st.ovflow.length + tupleCount (f0.drop lo) ≤ B → B ≤ E.NO_PAGE →
      ∃ b st', splitChain E r d oldp fuel cur true st = some (b, st') ∧
        st'.ovflow.length ≤ B := by
  intro fuel
  induction fuel with
  | zero =>
    intro cur st lo B _ _ _ hcur hfuel hB _
    unfold splitChain
    rcases hcur with h | ⟨h1, h2⟩
    · rw [if_pos h]; exact ⟨true, st, rfl, by omega⟩
    · omega
  | succ fuel ih =>
    intro cur st lo B hs hn hun hcur hfuel hB hBN
    unfold splitChain
    rcases hcur with h | ⟨h1, h2⟩
    · rw [if_pos h]; exact ⟨true, st, rfl, by omega⟩
    · by_cases hnp : cur = E.NO_PAGE
      · rw [if_pos hnp]; exact ⟨true, st, rfl, by omega⟩
      · rw [if_neg hnp]
        simp only [if_true]
        have hcl : cur < f0.length := by omega
        have hg0 : f0[cur]? = some f0[cur] := List.getElem?_eq_getElem hcl
        have hg : getPage E st.ovflow cur = some f0[cur] :=
          getPage_some.mpr ⟨hnp, by rw [hun cur h1 h2, hg0]⟩
        rw [hg]
        simp only
        have hpok : PageOK E f0[cur] := hok0 _ (List.getElem_mem _)
        have hs2 : SplitInv E n { st with pg := f0[cur] } :=
          ⟨hs.data_len, hs.data_ok, hs.ov_ok, hs.data_links, hs.fwd, hs.new_ok, hs.new_link,
            hs.new_id⟩
        have hlink := hf0 cur f0[cur] hg0
        have hc2 : CurInv E cur true { st with pg := f0[cur] } := by
          refine ⟨hpok, ?_⟩
          rcases hlink with h3 | ⟨h3, h4⟩
          · exact Or.inl h3
          · exact Or.inr ⟨by have := hn.1; show f0[cur].ovflow < st.ovflow.length; omega,
              fun _ => h3⟩
        have hcnt := tupleCount_drop_getElem f0 cur hcl
        have hmono := tupleCount_drop_mono f0 lo cur h1
        have hnt : (pageTuples f0[cur]).length = f0[cur].ntuples := hpok.2.2.2.2.symm
        obtain ⟨b, st1, e1, e2, e3, e4, e5⟩ := @splitPage_some E n L0 r d oldp cur true
          f0[cur].free 0 { st with pg := f0[cur] } [] (pageTuples f0[cur])
          (B - tupleCount (f0.drop (cur + 1))) hs2 hc2 hn
          ⟨hnp, fun _ => by have := hn.1; show cur < st.ovflow.length; omega,
            fun h => absurd h (by simp)⟩
          rfl rfl (Nat.sub_le _ _)
          (by show st.ovflow.length + (pageTuples f0[cur]).length ≤ _; omega) (by omega)
        rw [e1]
        cases b with
        | false => exact ⟨false, st1, rfl, by omega⟩
        | true =>
          simp only
          obtain ⟨k1, -⟩ := splitPage_inv _ _ _ _ _ [] (pageTuples f0[cur]) hs2 hc2 rfl rfl e1
          have e4' : st1.pg.ovflow = f0[cur].ovflow := e4
          rw [e4']
          refine ih _ st1 (cur + 1) B k1 e2 ?_ ?_ (by omega) (by omega) hBN
          · intro i hi1 hi2
            rw [e5 i hi2 (fun _ => by omega)]
            exact hun i (by omega) hi2
          · rcases hlink with h3 | ⟨h3, h4⟩
            · exact Or.inl h3
            · exact Or.inr ⟨by omega, by omega⟩

/-- On a well-formed relation with page ids below `NO_PAGE`, `split` returns when its
fuel exceeds the number of overflow pages. -/
theorem split_some {E : Env} {fuel : Nat} {r : Reln} (hinv : Inv r) (hw : WF E r)
    (hD : r.data.length < E.NO_PAGE) (hB : r.ovflow.length + storedCount r ≤ E.NO_PAGE)
    (hfuel : r.ovflow.length < fuel) :
    ∃ r', split E fuel r = some r' ∧
      r'.ovflow.length ≤ r.ovflow.length + storedCount r := by
  obtain ⟨hlen, ⟨hd, ho⟩, hl⟩ := hw
  have hnew : r.sp + 2 ^ r.depth = r.data.length := by rw [hlen, hinv.2]; omega
  have hsp : r.sp < r.data.length := by
    have := hinv.1; have := Nat.two_pow_pos r.depth; omega
  obtain ⟨f, rfl⟩ : ∃ f, fuel = f + 1 := ⟨fuel - 1, by omega⟩
  unfold split
  simp only [power_helper_eq, hnew]
  have hga : getPage E (addPage E r.data).1 r.data.length = some (newPage E) :=
    getPage_addPage_some E r.data (by omega)
  rw [getPage_of_lt hsp (by omega)]
  simp only
  rw [hga]
  simp only
  have hpok : PageOK E r.data[r.sp] := hd _ (List.getElem_mem _)
  have hE : 2 ≤ dataSize E := hpok.1 ▸ hpok.2.1
  have hs0 : SplitInv E (r.data.length + 1)
      { data := (addPage E r.data).1, ovflow := r.ovflow, pg := r.data[r.sp],
        newpg := newPage E, newpageid := r.data.length, is_new_ovflow := false } := by
    refine ⟨by simp [addPage], ?_, ho, ?_, fwd_of_linksOK hl, newPage_ok E hE, rfl,
      fun hf => absurd hf (by simp)⟩
    · intro p hp
      simp only [addPage, List.mem_append, List.mem_singleton] at hp
      rcases hp with h1 | h1
      · exact hd p h1
      · subst h1; exact newPage_ok E hE
    · intro p hp
      simp only [addPage, List.mem_append, List.mem_singleton] at hp
      rcases hp with h1 | h1
      · exact hl.1 p h1
      · subst h1; exact Or.inl rfl
  have hlink := hl.1 r.data[r.sp] (List.getElem_mem _)
  have hc0 : CurInv E r.sp false
      { data := (addPage E r.data).1, ovflow := r.ovflow, pg := r.data[r.sp],
        newpg := newPage E, newpageid := r.data.length, is_new_ovflow := false } := by
    refine ⟨hpok, ?_⟩
    rcases hlink with h1 | h1
    · exact Or.inl h1
    · exact Or.inr ⟨h1, fun hf => absurd hf (by simp)⟩
  have hn0 : NewAbove E r.ovflow.length
      { data := (addPage E r.data).1, ovflow := r.ovflow, pg := r.data[r.sp],
        newpg := newPage E, newpageid := r.data.length, is_new_ovflow := false } :=
    ⟨Nat.le_refl _, fun hf => absurd hf (by simp), by show r.data.length ≠ E.NO_PAGE; omega,
      fun _ => by show r.data.length < (addPage E r.data).1.length; simp [addPage]⟩
  have hnt : (pageTuples r.data[r.sp]).length = r.data[r.sp].ntuples := hpok.2.2.2.2.symm
  have hcnt : r.data[r.sp].ntuples ≤ tupleCount r.data := tupleCount_mem _ _ (List.getElem_mem _)
  have hsc : storedCount r = tupleCount r.data + tupleCount r.ovflow := rfl
  -- the first page of the chain is the primary page of the old bucket
  have key : ∃ b st', splitChain E r r.depth r.sp (f + 1) r.sp false
      { data := (addPage E r.data).1, ovflow := r.ovflow, pg := r.data[r.sp],
        newpg := newPage E, newpageid := r.data.length, is_new_ovflow := false } =
        some (b, st') ∧ st'.ovflow.length ≤ r.ovflow.length + storedCount r := by
    unfold splitChain
    rw [if_neg (by omega)]
    simp only [Bool.false_eq_true, if_false]
    obtain ⟨b, st1, e1, e2, e3, e4, e5⟩ := @splitPage_some E (r.data.length + 1)
      r.ovflow.length r r.depth r.sp r.sp false r.data[r.sp].free 0 _ [] (pageTuples r.data[r.sp])
      (r.ovflow.length + storedCount r - tupleCount r.ovflow) hs0 hc0 hn0
      ⟨by omega, fun h => absurd h (by simp),
        fun _ => by show r.sp < (addPage E r.data).1.length; simp [addPage]; omega⟩
      rfl rfl (Nat.sub_le _ _)
      (by show r.ovflow.length + (pageTuples r.data[r.sp]).length ≤ _; omega) (by omega)
    rw [e1]
    cases b with
    | false => exact ⟨false, st1, rfl, by omega⟩
    | true =>
      simp only
      obtain ⟨k1, -⟩ := splitPage_inv _ _ _ _ _ [] (pageTuples r.data[r.sp]) hs0 hc0 rfl rfl e1
      have e4' : st1.pg.ovflow = r.data[r.sp].ovflow := e4
      rw [e4']
      refine splitChain_some r.ovflow (fwd_of_linksOK hl) rfl ho f _ st1 0
        (r.ovflow.length + storedCount r) k1 e2 ?_ ?_ (by omega) ?_ hB
      · intro i _ hi2
        exact e5 i hi2 (fun h => absurd h (by simp))
      · rcases hlink with h3 | h3
        · exact Or.inl h3
        · exact Or.inr ⟨Nat.zero_le _, h3⟩
      · rw [List.drop_zero]; omega
  obtain ⟨b, st', e1, e2⟩ := key
  rw [e1]
  cases b with
  | false => exact ⟨_, rfl, e2⟩
  | true =>
    simp only
    split
    · exact ⟨_, rfl, by simp only [putPage, List.length_set]; exact e2⟩
    · exact ⟨_, rfl, e2⟩

theorem addToChainEnd_some {E : Env} {r : Reln} (t : Tuple) (p prevp : Nat) (prevpg : Page)
    (hid : r.ovflow.length ≠ E.NO_PAGE) :
    ∃ x, addToChainEnd E r t p (some (prevp, prevpg)) = some x := by
  unfold addToChainEnd
  simp only
  rw [getPage_addPage_some E r.ovflow hid]
  simp only
  split
  · exact ⟨_, rfl⟩
  · exact ⟨_, rfl⟩

theorem addToChain_some {E : Env} {r : Reln} (t : Tuple) (p : Nat) (hf : Fwd E r.ovflow)
    (hid : r.ovflow.length ≠ E.NO_PAGE) :
    ∀ (fuel ovp : Nat) (prev : Option (Nat × Page)),
      (ovp = E.NO_PAGE → ∃ prevp prevpg, prev = some (prevp, prevpg)) →
      (ovp ≠ E.NO_PAGE → ovp < r.ovflow.length ∧ r.ovflow.length - ovp ≤ fuel) →
      ∃ x, addToChain E r t p fuel ovp prev = some x := by
  intro fuel
  induction fuel with
  | zero =>
    intro ovp prev h1 h2
    unfold addToChain
    by_cases hn : ovp = E.NO_PAGE
    · obtain ⟨prevp, prevpg, rfl⟩ := h1 hn
      rw [if_neg (by simpa using hn)]
      exact addToChainEnd_some t p prevp prevpg hid
    · have := h2 hn; omega
  | succ fuel ih =>
    intro ovp prev h1 h2
    unfold addToChain
    by_cases hn : ovp = E.NO_PAGE
    · obtain ⟨prevp, prevpg, rfl⟩ := h1 hn
      rw [if_neg (by simpa using hn)]
      exact addToChainEnd_some t p prevp prevpg hid
    · obtain ⟨h3, h4⟩ := h2 hn
      rw [if_pos hn, getPage_of_lt h3 hn]
      simp only
      split
      · refine ih _ _ (fun _ => ⟨_, _, rfl⟩) ?_
        intro hne
        rcases hf ovp r.ovflow[ovp] (List.getElem?_eq_getElem h3) with h5 | ⟨h5, h6⟩
        · exact absurd h5 hne
        · exact ⟨h6, by omega⟩
      · exact ⟨_, rfl⟩

/-- On a well-formed relation with page ids below `NO_PAGE`, the placement part of
`addToRelation` returns when its fuel is the number of overflow pages. -/
theorem place_some {E : Env} {fuel : Nat} {r : Reln} (t : Tuple) (hinv : Inv r) (hw : WF E r)
    (hD : r.data.length ≤ E.NO_PAGE) (hO : r.ovflow.length ≠ E.NO_PAGE)
    (hfuel : r.ovflow.length ≤ fuel) : ∃ x, place E fuel r t = some x := by
  obtain ⟨hlen, -, hl⟩ := hw
  have hp : bucketAddr (tupleHash E r t) r.depth r.sp < r.data.length := by
    rw [hlen, hinv.2]; exact bucketAddr_lt _ _ _ hinv.1
  unfold place
  simp only
  rw [getPage_of_lt hp (by omega)]
  simp only
  split
  · exact ⟨_, rfl⟩
  · split
    · have hga : getPage E (addPage E r.ovflow).1 (addPage E r.ovflow).2 = some (newPage E) :=
        getPage_addPage_some E r.ovflow hO
      rw [hga]
      simp only
      split
      · exact ⟨_, rfl⟩
      · exact ⟨_, rfl⟩
    · rename_i hov
      refine addToChain_some t _ (fwd_of_linksOK hl) hO _ _ _ (fun h => absurd h hov) ?_
      intro _
      rcases hl.1 _ (List.getElem_mem hp) with h1 | h1
      · exact absurd h1 hov
      · exact ⟨h1, by omega⟩

/-- Totality of `addToRelation`: on a relation that satisfies the state invariant and
is well formed, whose product `10 * nattrs` is not 0 in the type `Count` and whose
page ids stay below `NO_PAGE`, every call with enough fuel returns. -/
theorem addToRelation_returns {E : Env} {fuel : Nat} {r : Reln} (t : Tuple) (hinv : Inv r)
    (hw : WF E r) (hna : tenAttrs E r ≠ 0) (hD : r.data.length < E.NO_PAGE)
    (hB : r.ovflow.length + storedCount r < E.NO_PAGE)
    (hfuel : r.ovflow.length + storedCount r < fuel) :
    ∃ r' res, addToRelation E fuel r t = some (r', res) := by
  have hm : ∃ r1, maybeSplit E fuel r = some r1 ∧
      r1.ovflow.length ≤ r.ovflow.length + storedCount r ∧
      r1.data.length ≤ r.data.length + 1 := by
    unfold maybeSplit
    rw [if_neg hna]
    split
    · obtain ⟨r0, h0, h1⟩ := split_some hinv hw hD (by omega) (by omega : r.ovflow.length < fuel)
      have h2 := (split_wf hw (by rw [hw.1, hinv.2]; omega) h0).1
      rw [h0]
      simp only [power_helper_eq]
      by_cases hwrap : r0.sp + 1 = 2 ^ r0.depth
      · rw [if_pos hwrap]
        exact ⟨_, rfl, h1, by show r0.data.length ≤ _; omega⟩
      · rw [if_neg hwrap]
        exact ⟨_, rfl, h1, by show r0.data.length ≤ _; omega⟩
    · exact ⟨r, rfl, by omega, by omega⟩
  obtain ⟨r1, h1, h2, h3⟩ := hm
  obtain ⟨i1, w1⟩ := maybeSplit_wf hinv hw h1
  obtain ⟨x, hx⟩ := place_some t i1 w1 (by omega) (by omega) (by omega : r1.ovflow.length ≤ fuel)
  refine ⟨x.1, x.2, ?_⟩
  unfold addToRelation
  rw [h1]
  exact hx

/-! ## The scan with unread bytes is the scan -/

theorem cstr_zero (data : List Nat) : cstr data 0 = data.takeWhile (fun b => b ≠ 0) := by
  simp [cstr]

theorem nextTupleLoopR_eq (E : Env) (r : Reln) :
    ∀ (fuel : Nat) (pg : Page) (q : QueryRep),
      nextTupleLoopR E r fuel pg (pg.data.drop q.curtup) q = nextTupleLoop E r fuel pg q := by
  intro fuel
  induction fuel with
  | zero => intro pg q; rfl
  | succ fuel ih =>
    intro pg q
    have hd : ∀ (pg1 : Page) (q1 : QueryRep) (rest : List Nat), rest = pg1.data.drop q1.curtup →
        nextTupleLoopR E r fuel pg1 rest q1 = nextTupleLoop E r fuel pg1 q1 := by
      intro pg1 q1 rest hr; rw [hr]; exact ih pg1 q1
    have hc : List.takeWhile (fun b => decide (b ≠ 0)) (List.drop q.curtup pg.data) =
        cstr pg.data q.curtup := rfl
    simp only [nextTupleLoopR, nextTupleLoop, cstr_zero]
    rw [hc, List.drop_drop]
    repeat' split
    all_goals first
      | rfl
      | exact hd _ _ _ rfl

theorem getNextTupleR_eq (E : Env) (r : Reln) (fuel : Nat) (q : QueryRep) :
    getNextTupleR E r fuel q = getNextTuple E r fuel q := by
  unfold getNextTupleR getNextTuple
  split
  · rfl
  · exact nextTupleLoopR_eq E r fuel _ q

theorem scanR_eq (E : Env) (r : Reln) (fuel : Nat) :
    ∀ (calls : Nat) (q : QueryRep), scanR E r fuel calls q = scan E r fuel calls q := by
  intro calls
  induction calls with
  | zero => intro q; rfl
  | succ calls ih =>
    intro q
    simp only [scanR, scan, getNextTupleR_eq, ih]

/-! ## The result of an insertion -/

/-- Claim C5 (linear-hash state invariant): `0 ≤ sp < 2^depth ∧ npages = 2^depth + sp`
holds in the state created by `newRelation` when `npages = 2^d` is passed, and every
returning call of `addToRelation` preserves it, with or without a split and whether
the call succeeds or returns `NO_PAGE`; when the call splits and `sp + 1` reaches
`2^depth`, it sets `sp` to 0 and increments `depth`.  On a well-formed relation with
page ids below `NO_PAGE`, whose product `10 * nattrs` is not 0 in the type `Count`
(no division by zero), the call does return, given enough fuel. -/
theorem state_invariant (E : Env) :
    (∀ nattrs d cv, Inv (newRelation E nattrs (2 ^ d) d cv)) ∧
    (∀ fuel r t r' res, Inv r → addToRelation E fuel r t = some (r', res) →
      Inv r' ∧
      (splits E r = true → r.sp + 1 = 2 ^ r.depth → r'.sp = 0 ∧ r'.depth = r.depth + 1)) ∧
    (∀ fuel r t, Inv r → WF E r → tenAttrs E r ≠ 0 → r.data.length < E.NO_PAGE →
      r.ovflow.length + storedCount r < E.NO_PAGE → r.ovflow.length + storedCount r < fuel →
      ∃ r' res, addToRelation E fuel r t = some (r', res) ∧ Inv r') := by
  refine ⟨fun _ d _ => ⟨Nat.two_pow_pos d, rfl⟩,
    fun _ _ _ _ _ hinv h => addToRelation_inv hinv h, ?_⟩
  intro fuel r t hinv hw hna hD hB hfuel
  obtain ⟨r', res, h⟩ := addToRelation_returns t hinv hw hna hD hB hfuel
  exact ⟨r', res, h, (addToRelation_inv hinv h).1⟩

/-- Claim C8, as amended (insert result): when `addToRelation` returns a value other
than `NO_PAGE`, the value is the bucket address of `t` for the depth and split pointer in force after
the split step of the call (state `r1`, which is `r` when the call does not split);
`t` is added to the primary page of that bucket, to an existing overflow page, or to
a newly allocated overflow page linked from a page that had no link, and no other
page changes; for a well-formed relation and a NUL-free tuple the value is the id of
a primary page, and the tuples stored in the chain of that bucket are those stored
there in `r1` and `t` once more.  A return value `NO_PAGE` means that `t` does not
fit into a freshly allocated page. -/
theorem insert_result (E : Env) (fuel : Nat) (r r' : Reln) (t : Tuple) (res : Nat)
    (h : addToRelation E fuel r t = some (r', res)) :
    ∃ r1, maybeSplit E fuel r = some r1 ∧ (splits E r = false → r1 = r) ∧
      (res ≠ E.NO_PAGE →
        res = bucketAddr (tupleHash E r' t) r'.depth r'.sp ∧
        r'.depth = r1.depth ∧ r'.sp = r1.sp ∧ StoredAt E r1 r' t res ∧
        (Inv r → WF E r → 0 ∉ t →
          res < r'.npages ∧ (bucketTuples E r' res).Perm (t :: bucketTuples E r1 res))) ∧
      (res = E.NO_PAGE → addToPage E (newPage E) t = none) := by
  obtain ⟨r1, hm, hp, hpl, hne⟩ := addToRelation_fields h
  obtain ⟨-, -, -, hc⟩ := maybeSplit_cases hm
  refine ⟨r1, hm, ?_, ?_, ?_⟩
  · intro hs
    rcases hc with ⟨-, h1⟩ | ⟨h1, -⟩
    · exact h1
    · rw [hs] at h1; exact absurd h1 (by simp)
  · intro hres
    have hres2 : res = bucketAddr (tupleHash E r1 t) r1.depth r1.sp := by
      rcases hpl.cases with ⟨h3, -⟩ | ⟨h3, -⟩
      · exact absurd h3 hres
      · exact h3
    refine ⟨?_, hpl.depth, hpl.sp, place_where hp hres, ?_⟩
    · rw [tupleHash_congr E hpl.cv, hpl.depth, hpl.sp]
      exact hres2
    · intro hinv hw ht
      obtain ⟨i1, w1⟩ := maybeSplit_wf hinv hw hm
      refine ⟨?_, place_tuples w1.2.1 w1.2.2 ht hp hres⟩
      rw [hpl.npages, hres2, i1.2]
      exact bucketAddr_lt _ _ _ i1.1
  · intro hres
    rcases hpl.cases with ⟨-, -, -, -, h3⟩ | ⟨h3, -⟩
    · exact h3
    · exact absurd (hres ▸ h3).symm hne

/-- Claim C9, amended (what a failed insert leaves): if `addToRelation` returns
`NO_PAGE`, then with `r1` the state after the split step of the call (`r` itself when
the call does not split) the fields `nattrs`, `depth`, `sp`, `npages`, `ntups`,
`insertions` and the choice vector are those of `r1`, and the overflow file is that
of `r1` with one empty page appended.  When the primary page of the bucket of `t`
had no overflow page, the data file is that of `r1` with this page linked to the new
page; when it had one, the data file is that of `r1`. -/
theorem insert_failure_frame (E : Env) (fuel : Nat) (r r' : Reln) (t : Tuple)
    (h : addToRelation E fuel r t = some (r', E.NO_PAGE)) :
    ∃ r1, maybeSplit E fuel r = some r1 ∧ (splits E r = false → r1 = r) ∧
      r'.nattrs = r1.nattrs ∧ r'.depth = r1.depth ∧ r'.sp = r1.sp ∧
      r'.npages = r1.npages ∧ r'.ntups = r1.ntups ∧ r'.insertions = r1.insertions ∧
      r'.cv = r1.cv ∧
      r'.ovflow = r1.ovflow ++ [newPage E] ∧
      ∃ pg, r1.data[bucketAddr (tupleHash E r1 t) r1.depth r1.sp]? = some pg ∧
        (pg.ovflow = E.NO_PAGE →
          r'.data = r1.data.set (bucketAddr (tupleHash E r1 t) r1.depth r1.sp)
            { pg with ovflow := r1.ovflow.length }) ∧
        (pg.ovflow ≠ E.NO_PAGE → r'.data = r1.data) := by
  obtain ⟨r1, hm, hp, hpl, hne⟩ := addToRelation_fields h
  obtain ⟨-, -, -, hc⟩ := maybeSplit_cases hm
  obtain ⟨f1, f2⟩ := place_failure hp
  have hcnt : r'.ntups = r1.ntups ∧ r'.insertions = r1.insertions := by
    rcases hpl.cases with ⟨-, h1, h2, -⟩ | ⟨h3, -⟩
    · exact ⟨h1, h2⟩
    · exact absurd h3.symm hne
  refine ⟨r1, hm, ?_, hpl.nattrs, hpl.depth, hpl.sp, hpl.npages, hcnt.1, hcnt.2, hpl.cv, f1, f2⟩
  intro hs
  rcases hc with ⟨-, h1⟩ | ⟨h1, -⟩
  · exact h1
  · rw [hs] at h1; exact absurd h1 (by simp)

/-! ## Concrete runs -/

set_option maxRecDepth 100000

/-- Witness for C5: the 26th insertion into a relation of depth 0 splits bucket 0, the split
pointer wraps to 0 and the depth becomes 1; the relation is well formed, so that the
call returns. -/
theorem state_invariant_witness :
    (Inv relW ∧ addToRelation stdEnv 2 relW (bytes "35,35,35,35") = some (relW1, 0)) ∧
    (Inv relW1 ∧
      (splits stdEnv relW = true → relW.sp + 1 = 2 ^ relW.depth →
        relW1.sp = 0 ∧ relW1.depth = relW.depth + 1)) ∧
    (WF stdEnv relW ∧ tenAttrs stdEnv relW ≠ 0 ∧ relW.data.length < stdEnv.NO_PAGE ∧
      relW.ovflow.length + storedCount relW < stdEnv.NO_PAGE ∧
      relW.ovflow.length + storedCount relW < 26) ∧
    (∃ r' res, addToRelation stdEnv 26 relW (bytes "35,35,35,35") = some (r', res) ∧ Inv r') :=
  ⟨⟨by decide, by decide!⟩,
    (state_invariant stdEnv).2.1 2 relW (bytes "35,35,35,35") relW1 0 (by decide) (by decide!),
    ⟨by decide!, by decide, by decide, by decide!, by decide!⟩,
    (state_invariant stdEnv).2.2 26 relW (bytes "35,35,35,35") (by decide) (by decide!)
      (by decide) (by decide) (by decide!) (by decide!)⟩

/-- The relation `relW` is the state after the first 25 insertions. -/
theorem relW_reached :
    addAll stdEnv 1 (newRelation stdEnv 4 1 0 stdCv) (tups26.take 25) =
      some (relW, List.replicate 25 0) := by decide!

/-- The relation `relAB` is the state after the insertion of `tupA` and `tupB`. -/
theorem relAB_reached :
    addAll stdEnv 1 (newRelation stdEnv 4 1 0 stdCv) [tupA, tupB] = some (relAB, [0, 0]) := by
  decide!

/-- Witness for C6: two successful insertions into a fresh relation. -/
theorem accounting_witness :
    addAll stdEnv 1 (newRelation stdEnv 4 1 0 stdCv) [tupA, tupB] = some (relAB, [0, 0]) ∧
    relAB.ntups = ([0, 0].filter (fun p => p ≠ stdEnv.NO_PAGE)).length :=
  ⟨by decide!, (accounting stdEnv 1 4 1 0 stdCv [tupA, tupB] relAB [0, 0] (by decide!)).1⟩

/-- Witness for C7: the tuple `1,a,x,10` in the relation of the scenarios. -/
theorem insert_query_same_bucket_witness :
    ((∀ pos, pos < stdEnv.MAXBITS → (cvAt relS pos).att < relS.nattrs) ∧
      (tupleVals (bytes "1,a,x,10")).length = relS.nattrs ∧
      (∀ v ∈ tupleVals (bytes "1,a,x,10"), v ≠ [] ∧ v ≠ [63])) ∧
    (startQuery stdEnv relS (bytes "1,a,x,10") 0).known =
      bucketAddr (tupleHash stdEnv relS (bytes "1,a,x,10")) relS.depth relS.sp :=
  ⟨⟨by decide, by decide, by decide⟩,
    (insert_query_same_bucket stdEnv relS (bytes "1,a,x,10") 0
      (by decide) (by decide) (by decide)).1⟩

/-- Witness for C10: the failed insertion of `tupBig`. -/
theorem counters_on_failure_witness :
    addToRelation stdEnv 1 relS tupBig = some (relSbig, stdEnv.NO_PAGE) ∧
    (relSbig.ntups = relS.ntups ∧ relSbig.insertions ≤ relS.insertions) :=
  ⟨by decide!, counters_on_failure stdEnv 1 relS relSbig tupBig (by decide!)⟩

/-- Witness for C8: the insertion of `1,a,x,10` into the relation of the scenarios. -/
theorem insert_result_witness :
    addToRelation stdEnv 1 relS (bytes "1,a,x,10") = some (relS1, 1) ∧
    (Inv relS ∧ WF stdEnv relS ∧ 0 ∉ bytes "1,a,x,10") ∧
    ∃ r1, maybeSplit stdEnv 1 relS = some r1 ∧ (splits stdEnv relS = false → r1 = relS) ∧
      (1 ≠ stdEnv.NO_PAGE →
        1 = bucketAddr (tupleHash stdEnv relS1 (bytes "1,a,x,10")) relS1.depth relS1.sp ∧
        relS1.depth = r1.depth ∧ relS1.sp = r1.sp ∧
        StoredAt stdEnv r1 relS1 (bytes "1,a,x,10") 1 ∧
        (Inv relS → WF stdEnv relS → 0 ∉ bytes "1,a,x,10" →
          1 < relS1.npages ∧
          (bucketTuples stdEnv relS1 1).Perm (bytes "1,a,x,10" :: bucketTuples stdEnv r1 1))) ∧
      (1 = stdEnv.NO_PAGE → addToPage stdEnv (newPage stdEnv) (bytes "1,a,x,10") = none) :=
  ⟨by decide!, ⟨by decide, by decide!, by decide⟩,
    insert_result stdEnv 1 relS relS1 (bytes "1,a,x,10") 1 (by decide!)⟩

/-- Claim C9, refuted as stated: the insertion of the 1011-byte tuple `tupBig` into the
freshly created relation `relS` returns `NO_PAGE`, and the state after the call is
not the state before it: the overflow file has a page and bucket 1 is linked to it.
The insertion of `tupBig` into `relW`, whose 25 insertions reach the threshold,
returns `NO_PAGE` after the split: `depth`, `npages` and `insertions` have changed
and bucket 0 has lost the 13 tuples that the split moved. -/
theorem insert_failure_changes_state :
    (addToRelation stdEnv 1 relS tupBig = some (relSbig, stdEnv.NO_PAGE) ∧
      relSbig ≠ relS ∧ relSbig.ovflow.length = relS.ovflow.length + 1) ∧
    ((relW.depth, relW.sp, relW.npages, relW.insertions, relW.ovflow.length) =
        (0, 0, 1, 25, 0) ∧
      (bucketTuples stdEnv relW 0).length = 25 ∧
      (addToRelation stdEnv 2 relW tupBig).map
          (fun x => (x.2, x.1.depth, x.1.sp, x.1.npages, x.1.insertions, x.1.ovflow.length)) =
        some (stdEnv.NO_PAGE, 1, 0, 2, 0, 1) ∧
      (addToRelation stdEnv 2 relW tupBig).map
          (fun x => (bucketTuples stdEnv x.1 0).length) = some 12) :=
  ⟨by decide!, by decide, by decide!, by decide!, by decide!⟩

/-- Witness for C9 as amended: the failed insertion of `tupBig` into `relS`, where the
primary page of bucket 1 has no overflow page. -/
theorem insert_failure_frame_witness :
    addToRelation stdEnv 1 relS tupBig = some (relSbig, stdEnv.NO_PAGE) ∧
    ∃ r1, maybeSplit stdEnv 1 relS = some r1 ∧ (splits stdEnv relS = false → r1 = relS) ∧
      relSbig.nattrs = r1.nattrs ∧ relSbig.depth = r1.depth ∧ relSbig.sp = r1.sp ∧
      relSbig.npages = r1.npages ∧ relSbig.ntups = r1.ntups ∧
      relSbig.insertions = r1.insertions ∧ relSbig.cv = r1.cv ∧
      relSbig.ovflow = r1.ovflow ++ [newPage stdEnv] ∧
      ∃ pg, r1.data[bucketAddr (tupleHash stdEnv r1 tupBig) r1.depth r1.sp]? = some pg ∧
        (pg.ovflow = stdEnv.NO_PAGE →
          relSbig.data = r1.data.set (bucketAddr (tupleHash stdEnv r1 tupBig) r1.depth r1.sp)
            { pg with ovflow := r1.ovflow.length }) ∧
        (pg.ovflow ≠ stdEnv.NO_PAGE → relSbig.data = r1.data) :=
  ⟨by decide!, insert_failure_frame stdEnv 1 relS relSbig tupBig (by decide!)⟩

/-- Claim C8, refuted as stated: the insertion of `35,35,35,35` into `relW` returns
bucket 0 after the split of bucket 0.  Before the call the chain of bucket 0 stores
25 tuples, among them `10,10,10,10`; after the call it stores 13 tuples, and
`10,10,10,10` is not among them. -/
theorem insert_moves_stored_tuples :
    (addToRelation stdEnv 2 relW (bytes "35,35,35,35") = some (relW1, 0) ∧
      0 ≠ stdEnv.NO_PAGE) ∧
    ((bucketTuples stdEnv relW 0).length = 25 ∧
      bytes "10,10,10,10" ∈ bucketTuples stdEnv relW 0) ∧
    ((bucketTuples stdEnv relW1 0).length = 13 ∧
      bytes "10,10,10,10" ∉ bucketTuples stdEnv relW1 0) :=
  ⟨by decide!, by decide!, by decide!⟩

/-- Claim C1 fails on the code (round trip): the 26 tuples `tups26` are inserted one by
one into the freshly created relation `relS`; every insertion succeeds, the 26th splits
bucket 0, and the scan of the query `?,?,?,?` returns 28 tuples: `31,31,31,31`, inserted
once, is returned three times (twice from the bytes that the compaction of `split`
left behind the free offset of page 0, once from its new place in bucket 4). -/
theorem roundtrip_returns_stale_copies :
    (addAll stdEnv 2 relS tups26).map (fun x => (x.2, x.1.ntups, x.1.npages)) =
      some ([1, 2, 3, 0, 1, 2, 3, 0, 1, 2, 2, 3, 0, 1, 2, 3, 0, 1, 2, 3, 3, 0, 1, 2, 3, 0],
        26, 5) ∧
    (addAll stdEnv 2 relS tups26).bind
        (fun x => scan stdEnv x.1 6000 100 (startQuery stdEnv x.1 (bytes "?,?,?,?") 0)) =
      some (["17,17,17,17", "26,26,26,26", "35,35,35,35", "31,31,31,31", "31,31,31,31",
        "10,10,10,10", "14,14,14,14", "18,18,18,18", "23,23,23,23", "27,27,27,27",
        "32,32,32,32", "11,11,11,11", "15,15,15,15", "19,19,19,19", "20,20,20,20",
        "24,24,24,24", "28,28,28,28", "33,33,33,33", "12,12,12,12", "16,16,16,16",
        "21,21,21,21", "25,25,25,25", "29,29,29,29", "30,30,30,30", "34,34,34,34",
        "13,13,13,13", "22,22,22,22", "31,31,31,31"].map bytes) ∧
    tups26.count (bytes "31,31,31,31") = 1 := by
  simp only [← scanR_eq]
  decide!

/-- Claim C2 fails on the code (completeness of a query): the 52 tuples `tups52`, all
with second attribute `21`, are inserted into a fresh relation with 2 attributes, 2
pages, depth 1 and the alternating choice vector; the 52nd insertion splits bucket 0.
Every inserted tuple matches the query `?,21`, and the scan returns only the 26 tuples
of bucket 2: the 26 matching tuples of bucket 1 are not returned. -/
theorem query_misses_matching_tuples :
    (addAll stdEnv 2 (newRelation stdEnv 2 2 1 cvAlt) tups52).map
        (fun x => (x.1.depth, x.1.sp, x.1.npages, x.1.ntups,
          tups52.all (fun t => tupleMatch x.1 t (bytes "?,21")),
          (bucketTuples stdEnv x.1 1).length)) =
      some (1, 1, 3, 52, true, 26) ∧
    (addAll stdEnv 2 (newRelation stdEnv 2 2 1 cvAlt) tups52).bind
        (fun x => scan stdEnv x.1 6000 100 (startQuery stdEnv x.1 (bytes "?,21") 0)) =
      some (["11,21", "13,21", "15,21", "17,21", "19,21", "20,21", "22,21", "24,21", "26,21",
        "28,21", "31,21", "33,21", "35,21", "37,21", "39,21", "40,21", "42,21", "44,21",
        "46,21", "48,21", "51,21", "53,21", "55,21", "57,21", "59,21", "60,21"].map bytes) := by
  simp only [← scanR_eq]
  decide!

/-- Claim C3 fails on the code (split with an overflowing new bucket): in `relAB`
(depth 0, `sp = 0`, one bucket) the chain of bucket 0 stores `tupA` and `tupB`, both
with `getLower(hash, 0) = 0` and `getLower(hash, 1) = 1`, so `split` has to move both
to the new bucket 1.  After `split` bucket 0 is empty and the chain of bucket 1 stores
`tupB` only: `tupA` is stored nowhere. -/
theorem split_loses_moved_tuple :
    (Inv relAB ∧ bucketTuples stdEnv relAB 0 = [tupA, tupB] ∧
      getLower (tupleHash stdEnv relAB tupA) 0 = 0 ∧ getLower (tupleHash stdEnv relAB tupB) 0 = 0 ∧
      getLower (tupleHash stdEnv relAB tupA) 1 = 1 ∧ getLower (tupleHash stdEnv relAB tupB) 1 = 1) ∧
    (split stdEnv 2 relAB).map
        (fun r => (r.npages, bucketTuples stdEnv r 0, bucketTuples stdEnv r 1)) =
      some (2, [], [tupB]) := by
  decide!
/-! ## The split policy of `addToRelation` -/

theorem threshold_eq (E : Env) (r : Reln) :
    threshold E r = max 1 (E.PAGESIZE / tenAttrs E r) := by
  unfold threshold
  split <;> omega

/-- The product `10 * nattrs` that does not wrap in the type `Count`. -/
theorem tenAttrs_small {E : Env} {r : Reln} (h : 10 * r.nattrs < 2 ^ E.COUNT_BITS) :
    tenAttrs E r = 10 * r.nattrs := Nat.mod_eq_of_lt h

/-- A returning call of `addToRelation` has not divided by zero. -/
theorem maybeSplit_tenAttrs {E : Env} {fuel : Nat} {r r1 : Reln}
    (h : maybeSplit E fuel r = some r1) : tenAttrs E r ≠ 0 := by
  unfold maybeSplit at h
  split at h
  · exact absurd h (by simp)
  · assumption

/-- The split step of `addToRelation`, case by case. -/
theorem maybeSplit_run {E : Env} {fuel : Nat} {r r1 : Reln}
    (h : maybeSplit E fuel r = some r1) :
    (splits E r = true ∧ ∃ r0, split E fuel r = some r0 ∧ r1.data = r0.data ∧
      r1.ovflow = r0.ovflow) ∨
    (splits E r = false ∧ r1 = r) := by
  unfold maybeSplit at h
  split at h
  · exact absurd h (by simp)
  · split at h
    · rename_i hthr
      split at h
      · exact absurd h (by simp)
      · rename_i r0 hs
        simp only [Option.some.injEq] at h
        subst h
        refine Or.inl ⟨by simp [splits, hthr], r0, hs, ?_, ?_⟩
        · split <;> rfl
        · split <;> rfl
    · rename_i hthr
      simp only [Option.some.injEq] at h
      exact Or.inr ⟨by simp [splits, hthr], h.symm⟩

/-- Claim C11, as amended (split policy): the product `10 * nattrs` is computed in the
unsigned type `Count` and wraps at `2^COUNT_BITS`; a returning call of
`addToRelation` has a product other than 0 and executes `split` iff
`insertions ≥ T` on entry, with `T = max(1, PAGESIZE / (10 * nattrs mod 2^COUNT_BITS))`,
which is `max(1, PAGESIZE / (10 * nattrs))` when the product does not wrap.  When
it does, `split` is run once on the entry state, `sp` advances by one (wrapping to 0
with `depth` incremented when it reaches `2^depth`), `insertions` is reset to 0
before the tuple is placed, and a successful call leaves `insertions = 1`.  When it
does not, the tuple is placed in the entry state, `depth`, `sp` and `npages` are
unchanged, and a successful call adds exactly 1 to `insertions`. -/
theorem split_policy (E : Env) (fuel : Nat) (r r' : Reln) (t : Tuple) (res : Nat)
    (h : addToRelation E fuel r t = some (r', res)) :
    (10 * r.nattrs % 2 ^ E.COUNT_BITS ≠ 0 ∧
      threshold E r = max 1 (E.PAGESIZE / (10 * r.nattrs % 2 ^ E.COUNT_BITS)) ∧
      (10 * r.nattrs < 2 ^ E.COUNT_BITS →
        1 ≤ r.nattrs ∧ threshold E r = max 1 (E.PAGESIZE / (10 * r.nattrs)))) ∧
    (splits E r = true ↔ r.insertions ≥ threshold E r) ∧
    (r.insertions ≥ threshold E r →
      ∃ r0 r1, split E fuel r = some r0 ∧ maybeSplit E fuel r = some r1 ∧
        r1.data = r0.data ∧ r1.ovflow = r0.ovflow ∧ r1.insertions = 0 ∧
        r1.npages = r.npages + 1 ∧
        ((r.sp + 1 = 2 ^ r.depth ∧ r1.sp = 0 ∧ r1.depth = r.depth + 1) ∨
          (r.sp + 1 ≠ 2 ^ r.depth ∧ r1.sp = r.sp + 1 ∧ r1.depth = r.depth)) ∧
        place E fuel r1 t = some (r', res) ∧
        r'.sp = r1.sp ∧ r'.depth = r1.depth ∧ r'.npages = r1.npages ∧
        (res ≠ E.NO_PAGE → r'.insertions = 1)) ∧
    (r.insertions < threshold E r →
      maybeSplit E fuel r = some r ∧ place E fuel r t = some (r', res) ∧
      r'.depth = r.depth ∧ r'.sp = r.sp ∧ r'.npages = r.npages ∧
      (res ≠ E.NO_PAGE → r'.insertions = r.insertions + 1)) := by
  obtain ⟨r1, hm, hp, hpl, hne⟩ := addToRelation_fields h
  obtain ⟨-, -, -, hc⟩ := maybeSplit_cases hm
  have hten : tenAttrs E r ≠ 0 := maybeSplit_tenAttrs hm
  have hins : res ≠ E.NO_PAGE → r'.insertions = r1.insertions + 1 := by
    intro hres
    rcases hpl.cases with ⟨h3, -⟩ | ⟨-, -, h3⟩
    · exact absurd h3 hres
    · exact h3
  refine ⟨⟨hten, threshold_eq E r, fun hs => ⟨?_, ?_⟩⟩, by simp [splits], ?_, ?_⟩
  · rw [tenAttrs_small hs] at hten
    omega
  · rw [threshold_eq, tenAttrs_small hs]
  · intro hthr
    have hs : splits E r = true := by simp [splits, hthr]
    rcases maybeSplit_run hm with ⟨-, r0, h0, h1, h2⟩ | ⟨h3, -⟩
    · rcases hc with ⟨h4, -⟩ | ⟨-, h5, h6, h7⟩
      · rw [hs] at h4; exact absurd h4 (by simp)
      · exact ⟨r0, r1, h0, hm, h1, h2, h5, h6, h7, hp, hpl.sp, hpl.depth, hpl.npages,
          fun hres => by rw [hins hres, h5]⟩
    · rw [hs] at h3; exact absurd h3 (by simp)
  · intro hthr
    have hs : splits E r = false := by simp [splits, hthr]
    rcases hc with ⟨-, h4⟩ | ⟨h5, -⟩
    · subst h4
      exact ⟨hm, hp, hpl.depth, hpl.sp, hpl.npages, hins⟩
    · rw [hs] at h5; exact absurd h5 (by simp)
/-! ## The run of `split` -/

/-- The function `split` is its loops followed by the final `putPage`. -/
theorem split_eq_loops (E : Env) (fuel : Nat) (r : Reln) :
    split E fuel r =
      match splitLoops E fuel r with
      | none => none
      | some (false, st) =>
        some { r with npages := r.npages + 1, data := st.data, ovflow := st.ovflow }
      | some (true, st) =>
        if st.is_new_ovflow then
          some { r with npages := r.npages + 1, data := st.data,
                        ovflow := putPage st.ovflow st.newpageid st.newpg }
        else
          some { r with npages := r.npages + 1,
                        data := putPage st.data st.newpageid st.newpg, ovflow := st.ovflow } := by
  unfold split splitLoops splitStart
  dsimp only
  cases h1 : getPage E r.data r.sp with
  | none => rfl
  | some pg =>
    dsimp only
    cases h2 : getPage E (addPage E r.data).1 (r.sp + power_helper 2 r.depth) with
    | none => rfl
    | some newpg => rfl

/-! ## Bits of the query hash -/

theorem queryBits_bits (E : Env) (r : Reln) (ptr : List Nat) (a : Nat) (acc : Nat × Nat)
    (k : Nat) :
    (queryBits E r ptr a acc).1.testBit k =
      (acc.1.testBit k || (decide (k < E.MAXBITS) &&
        (decide ((cvAt r k).att = a ∧ ptr ≠ [63]) &&
          bitIsSet (E.hash_any ptr) (cvAt r k).bit))) ∧
    (queryBits E r ptr a acc).2.testBit k =
      (acc.2.testBit k || (decide (k < E.MAXBITS) &&
        decide ((cvAt r k).att = a ∧ ptr = [63]))) := by
  unfold queryBits
  by_cases hq : ptr = [63]
  · rw [if_pos hq]
    refine ⟨by simp [hq], ?_⟩
    simp only
    rw [foldl_range_setBit (fun i => decide ((cvAt r i).att = a))]
    · simp [hq]
    · intro h i
      by_cases h1 : (cvAt r i).att = a <;> simp [h1]
  · rw [if_neg hq]
    refine ⟨?_, by simp [hq]⟩
    simp only
    rw [foldl_range_setBit
      (fun i => decide ((cvAt r i).att = a) && bitIsSet (E.hash_any ptr) (cvAt r i).bit)]
    · simp [hq]
    · intro h i
      by_cases h1 : (cvAt r i).att = a <;> simp [h1]

/-- The bits of `compHash` and `starPos` after the token loop of `startQuery`: bit `k`
is set in `starPos` when the token of the attribute of position `k` is `?`, and can
be set in `compHash` only when that token is not `?`. -/
theorem queryHash_bits (E : Env) (r : Reln) (k : Nat) :
    ∀ (toks : List (List Nat)) (a : Nat) (acc : Nat × Nat),
      (queryHash E r toks a acc).1.testBit k =
        (acc.1.testBit k || (decide (k < E.MAXBITS) &&
          (decide (a ≤ (cvAt r k).att ∧ (cvAt r k).att < a + toks.length ∧
              toks.getD ((cvAt r k).att - a) [] ≠ [63]) &&
            bitIsSet (E.hash_any (toks.getD ((cvAt r k).att - a) [])) (cvAt r k).bit))) ∧
      (queryHash E r toks a acc).2.testBit k =
        (acc.2.testBit k || (decide (k < E.MAXBITS) &&
          decide (a ≤ (cvAt r k).att ∧ (cvAt r k).att < a + toks.length ∧
              toks.getD ((cvAt r k).att - a) [] = [63]))) := by
  intro toks
  induction toks with
  | nil => intro a acc; simp [queryHash]
  | cons ptr rest ih =>
    intro a acc
    rw [queryHash]
    obtain ⟨h1, h2⟩ := ih (a + 1) (queryBits E r ptr a acc)
    obtain ⟨h3, h4⟩ := queryBits_bits E r ptr a acc k
    rw [h1, h2, h3, h4]
    by_cases hk : k < E.MAXBITS
    swap
    · simp [hk]
    by_cases ha : (cvAt r k).att = a
    · have e1 : (cvAt r k).att - a = 0 := by omega
      have e2 : ¬ (a + 1 ≤ (cvAt r k).att) := by omega
      simp [hk, ha, e2]
    · by_cases hlt : a + 1 ≤ (cvAt r k).att
      · have e1 : (cvAt r k).att - a = ((cvAt r k).att - (a + 1)) + 1 := by omega
        have e2 : a ≤ (cvAt r k).att := by omega
        have e3 : ((cvAt r k).att < a + 1 + rest.length) ↔
            ((cvAt r k).att < a + (rest.length + 1)) := by omega
        rw [e1]
        simp [hk, ha, hlt, e2, e3]
      · have e2 : ¬ (a ≤ (cvAt r k).att) := by omega
        simp [hk, ha, hlt, e2]

/-- The words `compHash` and `starPos` of `startQuery` share no set bit, and the set
bits of `starPos` lie below `MAXBITS`. -/
theorem queryHash_disjoint (E : Env) (r : Reln) (toks : List (List Nat)) (k : Nat) :
    ((queryHash E r toks 0 (0, 0)).2.testBit k = true → k < E.MAXBITS) ∧
    ¬ ((queryHash E r toks 0 (0, 0)).1.testBit k = true ∧
        (queryHash E r toks 0 (0, 0)).2.testBit k = true) := by
  obtain ⟨h1, h2⟩ := queryHash_bits E r k toks 0 (0, 0)
  rw [h1, h2]
  constructor
  · intro h
    simp at h
    exact h.1
  · intro h
    simp at h
    obtain ⟨⟨-, ⟨-, h3⟩, -⟩, -, -, h4⟩ := h
    exact h3 h4

/-! ## Bit counts -/

theorem onesBelow_succ (n w : Nat) :
    onesBelow (n + 1) w = onesBelow n w + (if w.testBit n = true then 1 else 0) := by
  unfold onesBelow
  rw [List.range_succ, List.filter_append, List.length_append]
  by_cases h : w.testBit n = true <;> simp [h]

theorem onesBelow_zero (w : Nat) : onesBelow 0 w = 0 := rfl

theorem onesBelow_mono (w : Nat) {i j : Nat} (h : i ≤ j) : onesBelow i w ≤ onesBelow j w := by
  induction j with
  | zero =>
    have : i = 0 := by omega
    subst this; exact Nat.le_refl _
  | succ j ih =>
    by_cases hij : i = j + 1
    · subst hij; exact Nat.le_refl _
    · have := ih (by omega)
      rw [onesBelow_succ]
      omega

/-- The rank of a set bit is below the rank of every later position. -/
theorem onesBelow_lt (w : Nat) {i j : Nat} (h : i < j) (hb : w.testBit i = true) :
    onesBelow i w < onesBelow j w := by
  have h1 : onesBelow (i + 1) w ≤ onesBelow j w := onesBelow_mono w h
  rw [onesBelow_succ, if_pos hb] at h1
  omega

/-- Set bits with the same rank are the same bit. -/
theorem onesBelow_inj (w : Nat) {i j : Nat} (hi : w.testBit i = true) (hj : w.testBit j = true)
    (h : onesBelow i w = onesBelow j w) : i = j := by
  rcases Nat.lt_trichotomy i j with h1 | h1 | h1
  · have := onesBelow_lt w h1 hi; omega
  · exact h1
  · have := onesBelow_lt w h1 hj; omega

/-- Every rank below the number of set bits is the rank of a set bit. -/
theorem onesBelow_surj (w : Nat) :
    ∀ (n j : Nat), j < onesBelow n w → ∃ i, i < n ∧ w.testBit i = true ∧ onesBelow i w = j := by
  intro n
  induction n with
  | zero => intro j h; simp [onesBelow] at h
  | succ n ih =>
    intro j h
    rw [onesBelow_succ] at h
    by_cases hj : j < onesBelow n w
    · obtain ⟨i, h1, h2, h3⟩ := ih j hj
      exact ⟨i, by omega, h2, h3⟩
    · by_cases hb : w.testBit n = true
      · rw [if_pos hb] at h
        exact ⟨n, by omega, hb, by omega⟩
      · rw [if_neg hb] at h
        omega

theorem countBits_foldl (w : Nat) (n c : Nat) :
    (List.range n).foldl (fun m pos => if bitIsSet w pos then m + 1 else m) c =
      c + onesBelow n w := by
  induction n with
  | zero => simp [onesBelow]
  | succ n ih =>
    rw [List.range_succ, List.foldl_append, List.foldl_cons, List.foldl_nil, ih, onesBelow_succ]
    unfold bitIsSet
    by_cases h : w.testBit n = true <;> simp [h]
    omega

/-- The counting loop of `startQuery` counts the 1 bits below `MAXBITS`. -/
theorem countBits_eq (E : Env) (w : Nat) : countBits E w = onesBelow E.MAXBITS w := by
  unfold countBits
  rw [countBits_foldl]
  omega

theorem testBit_getLower (w k i : Nat) :
    (getLower w k).testBit i = (decide (i < k) && w.testBit i) := by
  unfold getLower
  rw [Nat.testBit_mod_two_pow]

/-! ## Query start-up -/

/-- The fields of the query state that `startQuery` returns. -/
theorem startQuery_fields (E : Env) (r : Reln) (q : List Nat) (stp0 : Nat) :
    ((startQuery E r q stp0).buck_ind = 0 ∧ (startQuery E r q stp0).is_ovflow = false ∧
      (startQuery E r q stp0).curtup = 0 ∧
      (startQuery E r q stp0).curpage = (startQuery E r q stp0).known) ∧
    (r.depth = 0 → (startQuery E r q stp0).known = 0) ∧
    (1 ≤ r.depth →
      (startQuery E r q stp0).known =
        getLower (queryHash E r (strtok q) 0 (0, 0)).1
          (if getLower (queryHash E r (strtok q) 0 (0, 0)).1 r.depth ≥ r.sp then r.depth
           else r.depth + 1) ∧
      (startQuery E r q stp0).unknown =
        getLower (queryHash E r (strtok q) 0 (0, 0)).2 (r.depth + 1) ∧
      (∀ i, (startQuery E r q stp0).unknown.testBit i = true → i < E.MAXBITS) ∧
      (startQuery E r q stp0).nstars = onesBelow E.MAXBITS (startQuery E r q stp0).unknown) := by
  refine ⟨⟨rfl, rfl, rfl, rfl⟩, ?_, ?_⟩
  · intro hd
    simp [startQuery, hd]
  · intro hd
    have hd0 : r.depth ≠ 0 := by omega
    refine ⟨?_, ?_, ?_, ?_⟩
    · simp only [startQuery, if_neg hd0]
      by_cases h : getLower (queryHash E r (strtok q) 0 (0, 0)).1 r.depth < r.sp
      · rw [if_pos h, if_neg (by omega)]
      · rw [if_neg h, if_pos (by omega)]
    · simp only [startQuery, if_neg hd0]
    · intro i hi
      simp only [startQuery, if_neg hd0] at hi
      rw [testBit_getLower] at hi
      simp only [Bool.and_eq_true, decide_eq_true_eq] at hi
      exact (queryHash_disjoint E r (strtok q) i).1 hi.2
    · simp only [startQuery]
      exact countBits_eq E _

/-- Claim C14, as amended (query start-up): for every relation state and every query,
`startQuery` sets `buck_ind`, `is_ovflow` and `curtup` to 0.  For `d = 0` the seed
bucket (`known`, `curpage`) is 0.  For `d ≥ 1` the seed bucket is
`getLower(compHash, k)` with `k = d` if `getLower(compHash, d) ≥ sp` and `k = d + 1`
otherwise; the unknown mask is `getLower(starPos, d + 1)` for both values of `k`;
all its 1 bits lie below `MAXBITS`, and `nstars` is their number. -/
theorem query_startup (E : Env) (r : Reln) (q : List Nat) (stp0 : Nat) :
    ((startQuery E r q stp0).buck_ind = 0 ∧ (startQuery E r q stp0).is_ovflow = false ∧
      (startQuery E r q stp0).curtup = 0 ∧
      (startQuery E r q stp0).curpage = (startQuery E r q stp0).known) ∧
    (r.depth = 0 → (startQuery E r q stp0).known = 0) ∧
    (1 ≤ r.depth →
      (startQuery E r q stp0).known =
        getLower (queryHash E r (strtok q) 0 (0, 0)).1
          (if getLower (queryHash E r (strtok q) 0 (0, 0)).1 r.depth ≥ r.sp then r.depth
           else r.depth + 1) ∧
      (startQuery E r q stp0).unknown =
        getLower (queryHash E r (strtok q) 0 (0, 0)).2 (r.depth + 1) ∧
      (∀ i, (startQuery E r q stp0).unknown.testBit i = true → i < E.MAXBITS) ∧
      (startQuery E r q stp0).nstars = onesBelow E.MAXBITS (startQuery E r q stp0).unknown) :=
  startQuery_fields E r q stp0

/-! ## The masks of `getNextBucket` -/

/-- Bit `k` of the mask that the loop of `getNextBucket` builds from position `i`, when
`changes` is the number of set bits of `unknown` below `i` and `nstars` the number of
its set bits below `N`: the `break` is not taken. -/
theorem bucketMask_testBit (E : Env) (u b N : Nat) (k : Nat) :
    ∀ (n i mask : Nat), i + n ≤ N →
      (bucketMask E u b (onesBelow N u) n i mask (onesBelow i u)).testBit k =
        (mask.testBit k ||
          (decide (i ≤ k ∧ k < i + n) && (u.testBit k && b.testBit (onesBelow k u)))) := by
  intro n
  induction n with
  | zero =>
    intro i mask _
    have : ¬ (i ≤ k ∧ k < i + 0) := by omega
    simp [bucketMask, this]
  | succ n ih =>
    intro i mask hN
    rw [bucketMask]
    by_cases hu : u.testBit i = true
    · have hne : onesBelow i u ≠ onesBelow N u := by
        have := @onesBelow_lt u i N (by omega) hu
        omega
      have hs : onesBelow i u + 1 = onesBelow (i + 1) u := by
        rw [onesBelow_succ, if_pos hu]
      simp only [bitIsSet, hu, if_true, if_neg hne]
      rw [hs, ih (i + 1) _ (by omega)]
      by_cases hki : k = i
      · subst hki
        have e1 : ¬ (k + 1 ≤ k ∧ k < k + 1 + n) := by omega
        have e2 : (k ≤ k ∧ k < k + (n + 1)) := by omega
        by_cases hb : b.testBit (onesBelow k u) = true
        · simp [hb, hu, e1, e2, testBit_setBit]
        · simp [hb, hu, e1, e2]
      · have e1 : (i + 1 ≤ k ∧ k < i + 1 + n) ↔ (i ≤ k ∧ k < i + (n + 1)) := by omega
        have e2 : ¬ (i = k) := fun h => hki h.symm
        by_cases hb : b.testBit (onesBelow i u) = true
        · simp [hb, e1, e2, testBit_setBit]
        · simp [hb, e1]
    · simp only [bitIsSet, hu]
      rw [if_neg (by simp)]
      have hs : onesBelow i u = onesBelow (i + 1) u := by
        rw [onesBelow_succ, if_neg hu]; rfl
      rw [hs, ih (i + 1) _ (by omega)]
      by_cases hki : k = i
      · subst hki
        have e1 : ¬ (k + 1 ≤ k ∧ k < k + 1 + n) := by omega
        simp [hu, e1]
      · have e1 : (i + 1 ≤ k ∧ k < i + 1 + n) ↔ (i ≤ k ∧ k < i + (n + 1)) := by omega
        simp [e1]

theorem maskOf_testBit (E : Env) (u b k : Nat) :
    (maskOf E u b).testBit k =
      (decide (k < E.MAXBITS) && (u.testBit k && b.testBit (onesBelow k u))) := by
  unfold maskOf
  rw [foldl_range_setBit (fun i => bitIsSet u i && bitIsSet b (onesBelow i u))]
  · simp [bitIsSet]
  · intro h i; rfl

/-- The loop of `getNextBucket` computes the mask `m(b)` of the specification when
`nstars` is the number of 1 bits of `unknown` below `MAXBITS`. -/
theorem bucketMask_eq_maskOf (E : Env) (u b : Nat) :
    bucketMask E u b (onesBelow E.MAXBITS u) E.MAXBITS 0 0 0 = maskOf E u b := by
  apply Nat.eq_of_testBit_eq
  intro k
  have h := bucketMask_testBit E u b E.MAXBITS k E.MAXBITS 0 0 (by omega)
  rw [onesBelow_zero] at h
  rw [h, maskOf_testBit]
  simp

/-- Bit `j` of a word built by a loop over the positions below `n` that sets bit `f i`
when `c i` holds. -/
theorem foldl_range_setBit_at (c : Nat → Bool) (f : Nat → Nat) (g : Nat → Nat → Nat)
    (hg : ∀ h i, g h i = if c i = true then setBit h (f i) else h) (n h0 j : Nat) :
    ((List.range n).foldl g h0).testBit j = true ↔
      (h0.testBit j = true ∨ ∃ i, i < n ∧ c i = true ∧ f i = j) := by
  induction n with
  | zero => simp
  | succ n ih =>
    rw [List.range_succ, List.foldl_append, List.foldl_cons, List.foldl_nil, hg]
    by_cases hc : c n = true
    · rw [if_pos hc, testBit_setBit]
      simp only [Bool.or_eq_true, decide_eq_true_eq, ih]
      constructor
      · rintro ((h | ⟨i, h1, h2, h3⟩) | h)
        · exact Or.inl h
        · exact Or.inr ⟨i, by omega, h2, h3⟩
        · exact Or.inr ⟨n, by omega, hc, h⟩
      · rintro (h | ⟨i, h1, h2, h3⟩)
        · exact Or.inl (Or.inl h)
        · by_cases hi : i = n
          · subst hi; exact Or.inr h3
          · exact Or.inl (Or.inr ⟨i, by omega, h2, h3⟩)
    · rw [if_neg hc, ih]
      constructor
      · rintro (h | ⟨i, h1, h2, h3⟩)
        · exact Or.inl h
        · exact Or.inr ⟨i, by omega, h2, h3⟩
      · rintro (h | ⟨i, h1, h2, h3⟩)
        · exact Or.inl h
        · by_cases hi : i = n
          · subst hi; exact absurd h2 hc
          · exact Or.inr ⟨i, by omega, h2, h3⟩

theorem indexOf_testBit (E : Env) (u m j : Nat) :
    (indexOf E u m).testBit j = true ↔
      ∃ i, i < E.MAXBITS ∧ u.testBit i = true ∧ m.testBit i = true ∧ onesBelow i u = j := by
  unfold indexOf
  rw [foldl_range_setBit_at (fun i => bitIsSet u i && bitIsSet m i) (fun i => onesBelow i u)]
  · simp [bitIsSet, and_assoc]
  · intro h i; rfl

theorem indexOf_lt (E : Env) (u m : Nat) : indexOf E u m < 2 ^ onesBelow E.MAXBITS u := by
  apply Nat.lt_pow_two_of_testBit
  intro j hj
  by_contra hne
  have ht : (indexOf E u m).testBit j = true := by
    cases h : (indexOf E u m).testBit j
    · exact absurd h hne
    · rfl
  obtain ⟨i, h1, h2, -, h4⟩ := (indexOf_testBit E u m j).mp ht
  have := @onesBelow_lt u i E.MAXBITS h1 h2
  omega

/-- The mask of the index of `m` is `m`, for every subset `m` of the bits of `u`. -/
theorem maskOf_indexOf (E : Env) (u m : Nat)
    (hu : ∀ i, u.testBit i = true → i < E.MAXBITS)
    (hm : ∀ i, m.testBit i = true → u.testBit i = true) :
    maskOf E u (indexOf E u m) = m := by
  apply Nat.eq_of_testBit_eq
  intro k
  rw [maskOf_testBit]
  by_cases hk : m.testBit k = true
  · have h1 := hm k hk
    have h2 := hu k h1
    have h3 : (indexOf E u m).testBit (onesBelow k u) = true :=
      (indexOf_testBit E u m _).mpr ⟨k, h2, h1, hk, rfl⟩
    simp [hk, h1, h2, h3]
  · have hk0 : m.testBit k = false := by
      cases h : m.testBit k
      · rfl
      · exact absurd h hk
    rw [hk0]
    by_contra hne
    have ht : (decide (k < E.MAXBITS) &&
        (u.testBit k && (indexOf E u m).testBit (onesBelow k u))) = true := by
      cases h : (decide (k < E.MAXBITS) &&
        (u.testBit k && (indexOf E u m).testBit (onesBelow k u)))
      · exact absurd h hne
      · rfl
    simp only [Bool.and_eq_true, decide_eq_true_eq] at ht
    obtain ⟨-, h1, h2⟩ := ht
    obtain ⟨i, -, h4, h5, h6⟩ := (indexOf_testBit E u m _).mp h2
    have := onesBelow_inj u h4 h1 h6
    subst this
    exact hk h5

/-- The masks of two indices below `2^n` are different, `n` being the number of 1 bits
of `u` below `MAXBITS`. -/
theorem maskOf_inj (E : Env) (u b1 b2 : Nat)
    (h1 : b1 < 2 ^ onesBelow E.MAXBITS u) (h2 : b2 < 2 ^ onesBelow E.MAXBITS u)
    (h : maskOf E u b1 = maskOf E u b2) : b1 = b2 := by
  apply Nat.eq_of_testBit_eq
  intro j
  by_cases hj : j < onesBelow E.MAXBITS u
  · obtain ⟨i, hi, hb, hr⟩ := onesBelow_surj u E.MAXBITS j hj
    have e1 := maskOf_testBit E u b1 i
    have e2 := maskOf_testBit E u b2 i
    rw [h] at e1
    rw [e1] at e2
    simpa [hi, hb, hr] using e2
  · have hp : 2 ^ onesBelow E.MAXBITS u ≤ 2 ^ j :=
      Nat.pow_le_pow_right (by decide) (by omega)
    rw [Nat.testBit_eq_false_of_lt (by omega), Nat.testBit_eq_false_of_lt (by omega)]

/-- Two different words differ in a highest bit. -/
theorem exists_high_bit {a b : Nat} (h : a < b) :
    ∃ j, a.testBit j = false ∧ b.testBit j = true ∧ ∀ i, j < i → a.testBit i = b.testBit i := by
  have hx : a ^^^ b ≠ 0 := by
    intro h0
    have : a = b := Nat.eq_of_testBit_eq (fun i => by
      have := congrArg (fun w => Nat.testBit w i) h0
      simp only [Nat.testBit_xor, Nat.zero_testBit] at this
      cases ha : a.testBit i <;> cases hb : b.testBit i <;> simp_all)
    omega
  obtain ⟨j, hj, hup⟩ := Nat.exists_most_significant_bit hx
  have hup2 : ∀ i, j < i → a.testBit i = b.testBit i := by
    intro i hi
    have := hup i hi
    rw [Nat.testBit_xor] at this
    cases ha : a.testBit i <;> cases hb : b.testBit i <;> simp_all
  rw [Nat.testBit_xor] at hj
  cases ha : a.testBit j <;> cases hb : b.testBit j
  · simp [ha, hb] at hj
  · exact ⟨j, ha, hb, hup2⟩
  · have := Nat.lt_of_testBit j hb ha (fun i hi => (hup2 i hi).symm)
    omega
  · simp [ha, hb] at hj

/-- The candidate `known | m(b)` is strictly increasing in `b` below `2^n` when `known`
and `u` share no set bit. -/
theorem maskOf_lt (E : Env) (known u b1 b2 : Nat)
    (hd : ∀ i, ¬ (known.testBit i = true ∧ u.testBit i = true))
    (hlt : b1 < b2) (h2 : b2 < 2 ^ onesBelow E.MAXBITS u) :
    known ||| maskOf E u b1 < known ||| maskOf E u b2 := by
  obtain ⟨j, hj1, hj2, hup⟩ := exists_high_bit hlt
  have hjn : j < onesBelow E.MAXBITS u := by
    by_contra hge
    have hp : 2 ^ onesBelow E.MAXBITS u ≤ 2 ^ j :=
      Nat.pow_le_pow_right (by decide) (by omega)
    rw [Nat.testBit_eq_false_of_lt (by omega)] at hj2
    exact absurd hj2 (by simp)
  obtain ⟨i, hi, hb, hr⟩ := onesBelow_surj u E.MAXBITS j hjn
  have hk : known.testBit i = false := by
    cases h : known.testBit i
    · rfl
    · exact absurd ⟨h, hb⟩ (hd i)
  apply Nat.lt_of_testBit i
  · rw [Nat.testBit_or, maskOf_testBit, hk, hr, hj1]; simp
  · rw [Nat.testBit_or, maskOf_testBit, hk, hr, hj2]; simp [hi, hb]
  · intro k hik
    rw [Nat.testBit_or, Nat.testBit_or, maskOf_testBit, maskOf_testBit]
    by_cases hu : u.testBit k = true
    · have := @onesBelow_lt u i k hik hb
      rw [hup (onesBelow k u) (by omega)]
    · have hu0 : u.testBit k = false := by
        cases h : u.testBit k
        · rfl
        · exact absurd h hu
      simp [hu0]

theorem testBit_bound {w N i : Nat} (h : w < 2 ^ N) (hi : w.testBit i = true) : i < N := by
  by_contra hge
  have hp : 2 ^ N ≤ 2 ^ i := Nat.pow_le_pow_right (by decide) (by omega)
  rw [Nat.testBit_eq_false_of_lt (by omega)] at hi
  exact absurd hi (by simp)
/-! ## Enumeration of the candidate buckets -/

/-- Claim C15 (bucket enumeration): let the unknown mask `u` of the query state `q` be
a word of `MAXBITS` bits with `n = nstars` set bits, and `b` in `[1, 2^n)`.  The call
of `getNextBucket` that raises `buck_ind` to `b` sets `curpage` to `known | m(b)` and
resets `is_ovflow` and `curtup` to 0, where bit `i` of `m(b)` is 1 exactly when `i`
is a set bit of `u`, the `j`-th lowest one say, and bit `j` of `b` is 1.  Moreover
`m(0) = 0`, the masks `m(b)` for `b` in `[0, 2^n)` are pairwise distinct, and they
are exactly the subsets of the bits of `u`. -/
theorem bucket_enumeration (E : Env) (q : QueryRep) (b : Nat)
    (hu : ∀ i, q.unknown.testBit i = true → i < E.MAXBITS)
    (hn : q.nstars = onesBelow E.MAXBITS q.unknown)
    (hb1 : 1 ≤ b) (hb2 : b < 2 ^ q.nstars) (hq : q.buck_ind + 1 = b) :
    ((getNextBucket E q).buck_ind = b ∧
      (getNextBucket E q).curpage = q.known ||| maskOf E q.unknown b ∧
      (getNextBucket E q).is_ovflow = false ∧ (getNextBucket E q).curtup = 0 ∧
      (getNextBucket E q).known = q.known ∧ (getNextBucket E q).unknown = q.unknown ∧
      (getNextBucket E q).nstars = q.nstars) ∧
    (∀ c i, (maskOf E q.unknown c).testBit i =
      (q.unknown.testBit i && c.testBit (onesBelow i q.unknown))) ∧
    maskOf E q.unknown 0 = 0 ∧
    (∀ b1 b2, b1 < 2 ^ q.nstars → b2 < 2 ^ q.nstars →
      maskOf E q.unknown b1 = maskOf E q.unknown b2 → b1 = b2) ∧
    (∀ m, (∀ i, m.testBit i = true → q.unknown.testBit i = true) ↔
      ∃ c, c < 2 ^ q.nstars ∧ maskOf E q.unknown c = m) := by
  have _ := hb1
  have _ := hb2
  have hbit : ∀ c i, (maskOf E q.unknown c).testBit i =
      (q.unknown.testBit i && c.testBit (onesBelow i q.unknown)) := by
    intro c i
    rw [maskOf_testBit]
    by_cases hi : i < E.MAXBITS
    · simp [hi]
    · have : q.unknown.testBit i = false := by
        cases h : q.unknown.testBit i
        · rfl
        · exact absurd (hu i h) hi
      simp [this]
  refine ⟨⟨hq, ?_, rfl, rfl, rfl, rfl, rfl⟩, hbit, ?_, ?_, ?_⟩
  · show q.known ||| bucketMask E q.unknown (q.buck_ind + 1) q.nstars E.MAXBITS 0 0 0 = _
    rw [hn, bucketMask_eq_maskOf, hq]
  · apply Nat.eq_of_testBit_eq
    intro i
    rw [hbit]
    simp
  · intro b1 b2 h1 h2 h
    rw [hn] at h1 h2
    exact maskOf_inj E q.unknown b1 b2 h1 h2 h
  · intro m
    constructor
    · intro hm
      exact ⟨indexOf E q.unknown m, by rw [hn]; exact indexOf_lt E q.unknown m,
        maskOf_indexOf E q.unknown m hu hm⟩
    · rintro ⟨c, -, rfl⟩ i hi
      rw [hbit] at hi
      simp only [Bool.and_eq_true] at hi
      exact hi.1

/-- Claim C18 (early exit): for every query state produced by `startQuery` on a
relation with `d ≥ 1`, the word `known` and the unknown mask share no set bit; the
candidate bucket that `getNextBucket` assigns for `buck_ind = b` is `known | m(b)`,
and it is strictly increasing in `b` over `[0, 2^nstars)`.  Hence, with
`npages = 2^d + sp`, once a candidate is greater than `2^depth - 1 + sp`, every
candidate with a larger `buck_ind` is greater than `npages - 1`. -/
theorem early_exit_loses_no_bucket (E : Env) (r : Reln) (qs : List Nat) (stp0 : Nat)
    (hd : 1 ≤ r.depth) (hnp : r.npages = 2 ^ r.depth + r.sp) :
    (∀ i, ¬ ((startQuery E r qs stp0).known.testBit i = true ∧
        (startQuery E r qs stp0).unknown.testBit i = true)) ∧
    (∀ q : QueryRep, q.known = (startQuery E r qs stp0).known →
      q.unknown = (startQuery E r qs stp0).unknown →
      q.nstars = (startQuery E r qs stp0).nstars →
      (getNextBucket E q).curpage = candidate E (startQuery E r qs stp0) (q.buck_ind + 1)) ∧
    candidate E (startQuery E r qs stp0) 0 = (startQuery E r qs stp0).curpage ∧
    (∀ b1 b2, b1 < b2 → b2 < 2 ^ (startQuery E r qs stp0).nstars →
      candidate E (startQuery E r qs stp0) b1 < candidate E (startQuery E r qs stp0) b2) ∧
    (∀ b1 b2, b1 < b2 → b2 < 2 ^ (startQuery E r qs stp0).nstars →
      candidate E (startQuery E r qs stp0) b1 > Pow 2 r.depth - 1 + r.sp →
      candidate E (startQuery E r qs stp0) b2 > r.npages - 1) := by
  obtain ⟨⟨-, -, -, hcur⟩, -, hs⟩ := startQuery_fields E r qs stp0
  obtain ⟨hk, hun, -, hns⟩ := hs hd
  have hdis : ∀ i, ¬ ((startQuery E r qs stp0).known.testBit i = true ∧
      (startQuery E r qs stp0).unknown.testBit i = true) := by
    intro i
    rw [hk, hun, testBit_getLower, testBit_getLower]
    intro h
    simp only [Bool.and_eq_true, decide_eq_true_eq] at h
    exact (queryHash_disjoint E r (strtok qs) i).2 ⟨h.1.2, h.2.2⟩
  have hcand : ∀ b, candidate E (startQuery E r qs stp0) b =
      (startQuery E r qs stp0).known ||| maskOf E (startQuery E r qs stp0).unknown b := by
    intro b
    unfold candidate
    rw [hns, bucketMask_eq_maskOf]
  have hmono : ∀ b1 b2, b1 < b2 → b2 < 2 ^ (startQuery E r qs stp0).nstars →
      candidate E (startQuery E r qs stp0) b1 < candidate E (startQuery E r qs stp0) b2 := by
    intro b1 b2 h1 h2
    rw [hcand, hcand]
    rw [hns] at h2
    exact maskOf_lt E _ _ b1 b2 hdis h1 h2
  refine ⟨hdis, ?_, ?_, hmono, ?_⟩
  · intro q h1 h2 h3
    show q.known ||| bucketMask E q.unknown (q.buck_ind + 1) q.nstars E.MAXBITS 0 0 0 = _
    unfold candidate
    rw [h1, h2, h3]
  · rw [hcand, hcur]
    have : maskOf E (startQuery E r qs stp0).unknown 0 = 0 := by
      apply Nat.eq_of_testBit_eq
      intro i
      rw [maskOf_testBit]
      simp
    rw [this]
    simp
  · intro b1 b2 h1 h2 h3
    have := hmono b1 b2 h1 h2
    unfold Pow at h3
    rw [hnp]
    omega

/-! ## The pages that `split` touches -/

/-- The placement of a tuple in the new bucket touches the current page of the new
bucket and new overflow pages only; it fails only for a tuple that does not fit an
empty page. -/
theorem moveTuple_frame {E : Env} {L0 D : Nat} {st st1 : SplitSt} {t : Tuple} {b : Bool}
    (hn : NewIds L0 D st) (h : moveTuple E st t = some (b, st1)) :
    NewIds L0 D st1 ∧ st1.pg = st.pg ∧ st1.data.length = st.data.length ∧
    (∀ i, i < L0 → st1.ovflow[i]? = st.ovflow[i]?) ∧
    (∀ i, i ≠ D → st1.data[i]? = st.data[i]?) ∧
    (b = false → addToPage E (newPage E) t = none) := by
  obtain ⟨n1, n2, n3⟩ := hn
  unfold moveTuple at h
  split at h
  · simp only [Option.some.injEq, Prod.mk.injEq] at h
    obtain ⟨rfl, rfl⟩ := h
    exact ⟨⟨n1, n2, n3⟩, rfl, rfl, fun _ _ => rfl, fun _ _ => rfl, fun hf => absurd hf (by simp)⟩
  · simp only at h
    split at h
    · exact absurd h (by simp)
    · rename_i newpg hg
      have hnp := getPage_addPage hg
      subst hnp
      have hlen1 : (addPage E st.ovflow).1.length = st.ovflow.length + 1 := by simp [addPage]
      have hid : (addPage E st.ovflow).2 = st.ovflow.length := rfl
      split at h
      · exact absurd h (by simp)
      · rename_i prevpage hprev
        have key : ∀ st2 : SplitSt, st2 = (if st.is_new_ovflow = true then
              { st with ovflow := putPage (addPage E st.ovflow).1 st.newpageid
                          (pageSetOvflow prevpage (addPage E st.ovflow).2),
                        newpg := newPage E, newpageid := (addPage E st.ovflow).2,
                        is_new_ovflow := true }
            else
              { st with data := putPage st.data st.newpageid
                          (pageSetOvflow prevpage (addPage E st.ovflow).2),
                        ovflow := (addPage E st.ovflow).1, newpg := newPage E,
                        newpageid := (addPage E st.ovflow).2, is_new_ovflow := true }) →
            NewIds L0 D st2 ∧ st2.pg = st.pg ∧ st2.data.length = st.data.length ∧
            (∀ i, i < L0 → st2.ovflow[i]? = st.ovflow[i]?) ∧
            (∀ i, i ≠ D → st2.data[i]? = st.data[i]?) ∧ st2.newpg = newPage E := by
          intro st2 hst2
          by_cases hno : st.is_new_ovflow = true
          · rw [if_pos hno] at hst2
            subst hst2
            refine ⟨⟨?_, fun _ => ?_, fun hf => absurd hf (by simp)⟩, rfl, rfl, ?_,
              fun _ _ => rfl, rfl⟩
            · simp only [putPage, List.length_set, hlen1]; omega
            · show L0 ≤ st.ovflow.length
              exact n1
            · intro i hi
              have h1 := n2 hno
              simp only [putPage, addPage]
              rw [List.getElem?_set_ne (by omega), List.getElem?_append_left (by omega)]
          · rw [if_neg hno] at hst2
            subst hst2
            have hno' : st.is_new_ovflow = false := by simpa using hno
            refine ⟨⟨?_, fun _ => ?_, fun hf => absurd hf (by simp)⟩, rfl, ?_, ?_, ?_, rfl⟩
            · show L0 ≤ (addPage E st.ovflow).1.length
              rw [hlen1]; omega
            · show L0 ≤ st.ovflow.length
              exact n1
            · simp only [putPage, List.length_set]
            · intro i hi
              simp only [addPage]
              rw [List.getElem?_append_left (by omega)]
            · intro i hi
              simp only [putPage]
              rw [List.getElem?_set_ne (by rw [n3 hno']; exact fun h => hi h.symm)]
        split at h
        · rename_i hadd
          simp only [Option.some.injEq, Prod.mk.injEq] at h
          obtain ⟨rfl, rfl⟩ := h
          obtain ⟨k1, k2, k3, k4, k5, k6⟩ := key _ rfl
          refine ⟨k1, k2, k3, k4, k5, fun _ => ?_⟩
          rw [k6] at hadd
          exact hadd
        · rename_i np hadd
          simp only [Option.some.injEq, Prod.mk.injEq] at h
          obtain ⟨rfl, rfl⟩ := h
          obtain ⟨⟨k11, k12, k13⟩, k2, k3, k4, k5, -⟩ := key _ rfl
          exact ⟨⟨k11, k12, k13⟩, k2, k3, k4, k5, fun hf => absurd hf (by simp)⟩

theorem pack_eq_nil {ts : List Tuple} (h : (pack ts).length = 0) : ts = [] := by
  cases ts with
  | nil => rfl
  | cons t ts => simp [pack] at h

/-- The inner loop of `split` on the page `cur` of the old bucket: other old pages are
left as they are, the stored copy of `cur` follows the in-memory copy, and a
complete run leaves the tuples that stay, in their order.  The run is cut short only
at a tuple that does not fit an empty page. -/
theorem splitPage_track {E : Env} {n L0 D : Nat} {r : Reln} {d oldp cur : Nat} {isOv : Bool}
    (hcL : isOv = true → cur < L0) (hcD : isOv = false → cur ≠ D) :
    ∀ (fuel currtup : Nat) (st : SplitSt) (b : Bool) (st' : SplitSt) (ts1 ts2 : List Tuple),
      SplitInv E n st → CurInv E cur isOv st → NewIds L0 D st → Synced cur isOv st →
      pageTuples st.pg = ts1 ++ ts2 → currtup = (pack ts1).length →
      splitPage E r d oldp cur isOv fuel currtup st = some (b, st') →
      NewIds L0 D st' ∧ SameBut L0 D cur isOv st st' ∧ Synced cur isOv st' ∧
      st'.pg.ovflow = st.pg.ovflow ∧
      (b = true → pageTuples st'.pg = ts1 ++ ts2.filter (stays E r d oldp)) ∧
      (b = false → ∃ t ∈ ts2, addToPage E (newPage E) t = none) := by
  intro fuel
  induction fuel with
  | zero =>
    intro currtup st b st' ts1 ts2 _ hc hn hsy hts hcur h
    unfold splitPage at h
    split at h
    · exact absurd h (by simp)
    · rename_i hge
      simp only [Option.some.injEq, Prod.mk.injEq] at h
      obtain ⟨rfl, rfl⟩ := h
      have hf := pageOK_free_eq hc.1
      rw [hts, pack_append_list, List.length_append] at hf
      have : ts2 = [] := pack_eq_nil (by omega)
      subst this
      exact ⟨hn, ⟨rfl, fun _ _ _ => rfl, fun _ _ _ => rfl⟩, hsy, rfl,
        fun _ => by simpa using hts, fun hf => absurd hf (by simp)⟩
  | succ fuel ih =>
    intro currtup st b st' ts1 ts2 hs hc hn hsy hts hcur h
    unfold splitPage at h
    split at h
    · rename_i hlt
      subst hcur
      obtain ⟨t, ts3, rfl⟩ := boundary_next hc.1 hts hlt
      have htup : cstr st.pg.data (pack ts1).length = t := cstr_boundary hc.1 hts
      simp only [htup] at h
      split at h
      · -- the tuple stays
        rename_i hst
        have hst' : stays E r d oldp t = true := by simpa [stays] using hst
        obtain ⟨a1, a2, a3, a4, a5, a6⟩ := ih _ st b st' (ts1 ++ [t]) ts3 hs hc hn hsy
          (by rw [hts]; simp)
          (by rw [pack_append]; simp only [List.length_append, List.length_singleton]; omega) h
        refine ⟨a1, a2, a3, a4, fun hb => ?_, fun hb => ?_⟩
        · rw [a5 hb, List.filter_cons_of_pos hst']
          simp
        · obtain ⟨t', h1, h2⟩ := a6 hb
          exact ⟨t', List.mem_cons_of_mem _ h1, h2⟩
      · -- the tuple moves
        rename_i hst
        have hst' : ¬ (stays E r d oldp t = true) := by simpa [stays] using hst
        have ht : 0 ∉ t := pageTuples_nul_free st.pg t (by rw [hts]; simp)
        split at h
        · exact absurd h (by simp)
        · rename_i st1 hmv
          obtain ⟨m1, m2, m3, m4, m5, m6⟩ := moveTuple_frame hn hmv
          simp only [Option.some.injEq, Prod.mk.injEq] at h
          obtain ⟨rfl, rfl⟩ := h
          refine ⟨m1, ⟨m3, fun i hi _ => m4 i hi, fun i hi _ => m5 i hi⟩, ?_, by rw [m2],
            fun hf => absurd hf (by simp), fun _ => ⟨t, List.mem_cons_self _ _, m6 rfl⟩⟩
          constructor
          · intro hov
            rw [m2, m4 cur (hcL hov)]
            exact hsy.1 hov
          · intro hov
            rw [m2, m5 cur (hcD hov)]
            exact hsy.2 hov
        · rename_i st1 hmv
          obtain ⟨m1, m2, m3, m4, m5, -⟩ := moveTuple_frame hn hmv
          obtain ⟨k1, k2, k3⟩ := moveTuple_inv hs hc ht hmv
          obtain ⟨p1, c1, c2, c3, c4⟩ := compact_ok k2.1 (k3 ▸ hts)
          rw [c1] at h
          simp only at h
          obtain ⟨i1, i2⟩ := afterCompact_inv k1 k2 c2 c4
          cases isOv with
          | true =>
            simp only [if_true] at h
            split at h
            · exact absurd h (by simp)
            · rename_i pg2 hg
              have hlt2 := getPage_lt hg
              have : pg2 = p1 := getPage_set_self hg
              subst this
              simp only [putPage, List.length_set] at hlt2
              obtain ⟨j1, j2⟩ := i1 rfl
              have hn2 : NewIds L0 D { st1 with ovflow := putPage st1.ovflow cur pg2, pg := pg2 } :=
                ⟨by simp only [putPage, List.length_set]; exact m1.1, m1.2.1, m1.2.2⟩
              have hsy2 : Synced cur true
                  { st1 with ovflow := putPage st1.ovflow cur pg2, pg := pg2 } :=
                ⟨fun _ => by
                  show (putPage st1.ovflow cur pg2)[cur]? = some pg2
                  simp only [putPage]
                  rw [List.getElem?_set_self hlt2], fun hf => absurd hf (by simp)⟩
              obtain ⟨a1, a2, a3, a4, a5, a6⟩ := ih _ _ b st' ts1 ts3 j1 j2 hn2 hsy2 c3 rfl h
              refine ⟨a1, ⟨?_, ?_, ?_⟩, a3, ?_, fun hb => ?_, fun hb => ?_⟩
              · rw [a2.1]; exact m3
              · intro i hi hne
                rw [a2.2.1 i hi hne]
                show (putPage st1.ovflow cur pg2)[i]? = _
                simp only [putPage]
                rw [List.getElem?_set_ne (fun h => hne rfl h.symm)]
                exact m4 i hi
              · intro i hi hne
                rw [a2.2.2 i hi hne]
                exact m5 i hi
              · rw [a4]
                show pg2.ovflow = st.pg.ovflow
                rw [c4, k3]
              · rw [a5 hb, List.filter_cons_of_neg hst']
              · obtain ⟨t', h1, h2⟩ := a6 hb
                exact ⟨t', List.mem_cons_of_mem _ h1, h2⟩
          | false =>
            simp only [Bool.false_eq_true, if_false] at h
            split at h
            · exact absurd h (by simp)
            · rename_i pg2 hg
              have hlt2 := getPage_lt hg
              have : pg2 = p1 := getPage_set_self hg
              subst this
              simp only [putPage, List.length_set] at hlt2
              obtain ⟨j1, j2⟩ := i2 rfl
              have hn2 : NewIds L0 D { st1 with data := putPage st1.data cur pg2, pg := pg2 } :=
                ⟨m1.1, m1.2.1, m1.2.2⟩
              have hsy2 : Synced cur false
                  { st1 with data := putPage st1.data cur pg2, pg := pg2 } :=
                ⟨fun hf => absurd hf (by simp), fun _ => by
                  show (putPage st1.data cur pg2)[cur]? = some pg2
                  simp only [putPage]
                  rw [List.getElem?_set_self hlt2]⟩
              obtain ⟨a1, a2, a3, a4, a5, a6⟩ := ih _ _ b st' ts1 ts3 j1 j2 hn2 hsy2 c3 rfl h
              refine ⟨a1, ⟨?_, ?_, ?_⟩, a3, ?_, fun hb => ?_, fun hb => ?_⟩
              · rw [a2.1]
                show (putPage st1.data cur pg2).length = _
                simp only [putPage, List.length_set]
                exact m3
              · intro i hi hne
                rw [a2.2.1 i hi hne]
                exact m4 i hi
              · intro i hi hne
                rw [a2.2.2 i hi hne]
                show (putPage st1.data cur pg2)[i]? = _
                simp only [putPage]
                rw [List.getElem?_set_ne (fun h => hne rfl h.symm)]
                exact m5 i hi
              · rw [a4]
                show pg2.ovflow = st.pg.ovflow
                rw [c4, k3]
              · rw [a5 hb, List.filter_cons_of_neg hst']
              · obtain ⟨t', h1, h2⟩ := a6 hb
                exact ⟨t', List.mem_cons_of_mem _ h1, h2⟩
    · rename_i hge
      simp only [Option.some.injEq, Prod.mk.injEq] at h
      obtain ⟨rfl, rfl⟩ := h
      subst hcur
      have hf := pageOK_free_eq hc.1
      rw [hts, pack_append_list, List.length_append] at hf
      have : ts2 = [] := pack_eq_nil (by omega)
      subst this
      exact ⟨hn, ⟨rfl, fun _ _ _ => rfl, fun _ _ _ => rfl⟩, hsy, rfl,
        fun _ => by simpa using hts, fun hf => absurd hf (by simp)⟩

theorem chainIds_NO_PAGE (E : Env) (f : List Page) (n : Nat) : chainIds E f n E.NO_PAGE = [] := by
  cases n with
  | zero => rfl
  | succ n => simp [chainIds]

theorem chainIds_cons {E : Env} {f : List Page} {cur : Nat} {pg : Page} (n : Nat)
    (hne : cur ≠ E.NO_PAGE) (hg : f[cur]? = some pg) :
    chainIds E f (n + 1) cur = cur :: chainIds E f n pg.ovflow := by
  rw [chainIds, if_neg hne, hg]

/-- The tuples of the pages of a chain are tuples of the chain. -/
theorem chainIds_tuples {E : Env} {f : List Page} :
    ∀ (n start i : Nat) (p : Page) (t : Tuple), i ∈ chainIds E f n start → f[i]? = some p →
      t ∈ pageTuples p → t ∈ chainTuples E f n start := by
  intro n
  induction n with
  | zero => intro start i p t h; simp [chainIds] at h
  | succ n ih =>
    intro start i p t h hp ht
    unfold chainIds at h
    unfold chainTuples
    split at h
    · simp at h
    · rename_i hne
      rw [if_neg hne]
      split at h
      · simp at h
      · rename_i pg hg
        rcases List.mem_cons.mp h with h1 | h1
        · subst h1
          rw [hg] at hp
          simp only [Option.some.injEq] at hp
          subst hp
          exact List.mem_append_left _ ht
        · exact List.mem_append_right _ (ih _ i p t h1 hp ht)

/-- The outer loop of `split` over the overflow pages of the old bucket, `f0` being
the overflow file at the start of `split`: the overflow pages that are not in the
chain are left as they are, and a complete run leaves in every page of the chain the
tuples that stay.  The run is cut short only at a tuple that does not fit an empty
page. -/
theorem splitChain_track {E : Env} {n L0 D : Nat} {r : Reln} {d oldp : Nat} (f0 : List Page)
    (hf0 : Fwd E f0) (hL0 : f0.length = L0) :
    ∀ (fuel cur : Nat) (st : SplitSt) (lo m : Nat) (b : Bool) (st' : SplitSt),
      SplitInv E n st → NewIds L0 D st →
      (∀ i, lo ≤ i → i < L0 → st.ovflow[i]? = f0[i]?) →
      (cur = E.NO_PAGE ∨ (lo ≤ cur ∧ cur < L0 ∧ L0 - cur ≤ m)) →
      splitChain E r d oldp fuel cur true st = some (b, st') →
      NewIds L0 D st' ∧ st'.data.length = st.data.length ∧
      (∀ i, i ≠ D → st'.data[i]? = st.data[i]?) ∧
      (∀ i, i < lo → i < L0 → st'.ovflow[i]? = st.ovflow[i]?) ∧
      (∀ i, lo ≤ i → i < L0 → i ∉ chainIds E f0 m cur → st'.ovflow[i]? = f0[i]?) ∧
      (b = true → ∀ i ∈ chainIds E f0 m cur, ∀ p, f0[i]? = some p →
        ∃ p', st'.ovflow[i]? = some p' ∧ Kept E r d oldp p p') ∧
      (b = false → ∃ i ∈ chainIds E f0 m cur, ∃ p, f0[i]? = some p ∧
        ∃ t ∈ pageTuples p, addToPage E (newPage E) t = none) := by
  intro fuel
  have stop : ∀ (cur : Nat) (st : SplitSt) (lo m : Nat) (b : Bool) (st' : SplitSt),
      cur = E.NO_PAGE → NewIds L0 D st →
      (∀ i, lo ≤ i → i < L0 → st.ovflow[i]? = f0[i]?) →
      some (true, st) = some (b, st') →
      NewIds L0 D st' ∧ st'.data.length = st.data.length ∧
      (∀ i, i ≠ D → st'.data[i]? = st.data[i]?) ∧
      (∀ i, i < lo → i < L0 → st'.ovflow[i]? = st.ovflow[i]?) ∧
      (∀ i, lo ≤ i → i < L0 → i ∉ chainIds E f0 m cur → st'.ovflow[i]? = f0[i]?) ∧
      (b = true → ∀ i ∈ chainIds E f0 m cur, ∀ p, f0[i]? = some p →
        ∃ p', st'.ovflow[i]? = some p' ∧ Kept E r d oldp p p') ∧
      (b = false → ∃ i ∈ chainIds E f0 m cur, ∃ p, f0[i]? = some p ∧
        ∃ t ∈ pageTuples p, addToPage E (newPage E) t = none) := by
    intro cur st lo m b st' hcur hn hun h
    simp only [Option.some.injEq, Prod.mk.injEq] at h
    obtain ⟨rfl, rfl⟩ := h
    subst hcur
    rw [chainIds_NO_PAGE]
    exact ⟨hn, rfl, fun _ _ => rfl, fun _ _ _ => rfl, fun i h1 h2 _ => hun i h1 h2,
      fun _ i hi => absurd hi (by simp), fun hf => absurd hf (by simp)⟩
  induction fuel with
  | zero =>
    intro cur st lo m b st' _ hn hun _ h
    unfold splitChain at h
    split at h
    · rename_i hc
      exact stop cur st lo m b st' hc hn hun h
    · exact absurd h (by simp)
  | succ fuel ih =>
    intro cur st lo m b st' hs hn hun hcur h
    unfold splitChain at h
    split at h
    · rename_i hc
      exact stop cur st lo m b st' hc hn hun h
    · rename_i hne
      rcases hcur with hc | ⟨hc1, hcL, hc3⟩
      · exact absurd hc hne
      simp only [if_true] at h
      split at h
      · exact absurd h (by simp)
      · rename_i pg hpg
        have hg0 : f0[cur]? = some pg := by
          rw [← hun cur hc1 hcL]; exact (getPage_some.mp hpg).2
        obtain ⟨m', rfl⟩ : ∃ m', m = m' + 1 := ⟨m - 1, by omega⟩
        rw [chainIds_cons m' hne hg0]
        have hs2 : SplitInv E n { st with pg := pg } :=
          ⟨hs.data_len, hs.data_ok, hs.ov_ok, hs.data_links, hs.fwd, hs.new_ok, hs.new_link,
            hs.new_id⟩
        have hc2 : CurInv E cur true { st with pg := pg } := by
          refine ⟨hs.ov_ok pg (getPage_mem hpg), ?_⟩
          rcases hs.fwd cur pg (getPage_some.mp hpg).2 with h1 | ⟨h1, h2⟩
          · exact Or.inl h1
          · exact Or.inr ⟨h2, fun _ => h1⟩
        have hn2 : NewIds L0 D { st with pg := pg } := hn
        have hsy2 : Synced cur true { st with pg := pg } :=
          ⟨fun _ => (getPage_some.mp hpg).2, fun hf => absurd hf (by simp)⟩
        split at h
        · exact absurd h (by simp)
        · rename_i st1 hsp
          obtain ⟨a1, a2, -, -, -, a6⟩ := splitPage_track (fun _ => hcL) (fun hf => absurd hf (by simp))
            _ _ _ _ _ [] (pageTuples pg) hs2 hc2 hn2 hsy2 rfl rfl hsp
          simp only [Option.some.injEq, Prod.mk.injEq] at h
          obtain ⟨rfl, rfl⟩ := h
          refine ⟨a1, a2.1, fun i hi => a2.2.2 i hi (fun hf => absurd hf (by simp)), ?_, ?_,
            fun hf => absurd hf (by simp), fun _ => ?_⟩
          · intro i hi1 hi2
            exact a2.2.1 i hi2 (fun _ => by omega)
          · intro i hi1 hi2 hni
            rw [a2.2.1 i hi2 (fun _ h => hni (by rw [h]; exact List.mem_cons_self _ _))]
            exact hun i hi1 hi2
          · obtain ⟨t, h1, h2⟩ := a6 rfl
            exact ⟨cur, List.mem_cons_self _ _, pg, hg0, t, h1, h2⟩
        · rename_i st1 hsp
          obtain ⟨a1, a2, a3, a4, a5, -⟩ := splitPage_track (fun _ => hcL) (fun hf => absurd hf (by simp))
            _ _ _ _ _ [] (pageTuples pg) hs2 hc2 hn2 hsy2 rfl rfl hsp
          obtain ⟨k1, k2⟩ := splitPage_inv _ _ _ _ _ [] (pageTuples pg) hs2 hc2 rfl rfl hsp
          have a4' : st1.pg.ovflow = pg.ovflow := a4
          rw [a4'] at h
          have hlink := hf0 cur pg hg0
          obtain ⟨b1, b2, b3, b4, b5, b6, b7⟩ := ih pg.ovflow st1 (cur + 1) m' b st' k1 a1
            (fun i hi1 hi2 => by
              rw [a2.2.1 i hi2 (fun _ => by omega)]
              exact hun i (by omega) hi2)
            (by
              rcases hlink with h3 | ⟨h3, h4⟩
              · exact Or.inl h3
              · exact Or.inr ⟨by omega, by omega, by omega⟩) h
          refine ⟨b1, by rw [b2, a2.1], ?_, ?_, ?_, ?_, ?_⟩
          · intro i hi
            rw [b3 i hi]
            exact a2.2.2 i hi (fun hf => absurd hf (by simp))
          · intro i hi1 hi2
            rw [b4 i (by omega) hi2]
            exact a2.2.1 i hi2 (fun _ => by omega)
          · intro i hi1 hi2 hni
            have hic : i ≠ cur := fun h => hni (by rw [h]; exact List.mem_cons_self _ _)
            have hit : i ∉ chainIds E f0 m' pg.ovflow := fun h => hni (List.mem_cons_of_mem _ h)
            by_cases hlt : i < cur + 1
            · rw [b4 i hlt hi2, a2.2.1 i hi2 (fun _ => hic)]
              exact hun i hi1 hi2
            · exact b5 i (by omega) hi2 hit
          · intro hb i hi p hp
            rcases List.mem_cons.mp hi with h1 | h1
            · subst h1
              rw [hg0] at hp
              simp only [Option.some.injEq] at hp
              subst hp
              refine ⟨st1.pg, ?_, k2.1, ?_, a4'⟩
              · rw [b4 i (by omega) hcL]
                exact a3.1 rfl
              · simpa using a5 rfl
            · exact b6 hb i h1 p hp
          · intro hb
            obtain ⟨i, h1, h2⟩ := b7 hb
            exact ⟨i, List.mem_cons_of_mem _ h1, h2⟩

/-- The state of `split` at the start of its loops, on a well-formed relation. -/
theorem splitStart_inv {E : Env} {r : Reln} {st0 : SplitSt} (hinv : Inv r) (hw : WF E r)
    (h : splitStart E r = some st0) :
    ∃ pg0, r.data[r.sp]? = some pg0 ∧ r.sp ≠ E.NO_PAGE ∧ r.sp < r.data.length ∧
      st0 = { data := r.data ++ [newPage E], ovflow := r.ovflow, pg := pg0,
              newpg := newPage E, newpageid := r.data.length, is_new_ovflow := false } ∧
      SplitInv E (r.data.length + 1) st0 ∧ CurInv E r.sp false st0 := by
  obtain ⟨hlen, ⟨hd, ho⟩, hl⟩ := hw
  have hnew : r.sp + 2 ^ r.depth = r.data.length := by rw [hlen, hinv.2]; omega
  unfold splitStart at h
  simp only [power_helper_eq, hnew] at h
  split at h
  · exact absurd h (by simp)
  · rename_i pg0 hg0
    split at h
    · exact absurd h (by simp)
    · rename_i newpg hg1
      have hn : newpg = newPage E := getPage_addPage hg1
      subst hn
      simp only [Option.some.injEq] at h
      subst h
      have hpok : PageOK E pg0 := hd _ (getPage_mem hg0)
      have hE : 2 ≤ dataSize E := hpok.1 ▸ hpok.2.1
      refine ⟨pg0, (getPage_some.mp hg0).2, (getPage_some.mp hg0).1, getPage_lt hg0, rfl,
        ?_, hpok, ?_⟩
      · refine ⟨by simp [addPage], ?_, ho, ?_, fwd_of_linksOK hl, newPage_ok E hE, rfl,
          fun hf => absurd hf (by simp)⟩
        · intro p hp
          simp only [addPage, List.mem_append, List.mem_singleton] at hp
          rcases hp with h1 | h1
          · exact hd p h1
          · subst h1; exact newPage_ok E hE
        · intro p hp
          simp only [addPage, List.mem_append, List.mem_singleton] at hp
          rcases hp with h1 | h1
          · exact hl.1 p h1
          · subst h1; exact Or.inl rfl
      · rcases hl.1 pg0 (getPage_mem hg0) with h1 | h1
        · exact Or.inl h1
        · exact Or.inr ⟨h1, fun hf => absurd hf (by simp)⟩

/-- The loops of `split` on a well-formed relation: the pages of other buckets are
left as they are, and a complete run leaves in every page of the old bucket the
tuples that stay.  The run is cut short only at a tuple of the old bucket that does
not fit an empty page. -/
theorem splitLoops_track {E : Env} {fuel : Nat} {r : Reln} {b : Bool} {st : SplitSt}
    (hinv : Inv r) (hw : WF E r) (h : splitLoops E fuel r = some (b, st)) :
    ∃ pg0, r.data[r.sp]? = some pg0 ∧
      NewIds r.ovflow.length r.data.length st ∧ SplitInv E (r.data.length + 1) st ∧
      (∀ i, i < r.data.length → i ≠ r.sp → st.data[i]? = r.data[i]?) ∧
      (∀ i, i < r.ovflow.length → i ∉ chainIds E r.ovflow r.ovflow.length pg0.ovflow →
        st.ovflow[i]? = r.ovflow[i]?) ∧
      (b = true →
        (∃ p', st.data[r.sp]? = some p' ∧ Kept E r r.depth r.sp pg0 p') ∧
        ∀ i ∈ chainIds E r.ovflow r.ovflow.length pg0.ovflow, ∀ p, r.ovflow[i]? = some p →
          ∃ p', st.ovflow[i]? = some p' ∧ Kept E r r.depth r.sp p p') ∧
      (b = false → ∃ t ∈ bucketTuples E r r.sp, addToPage E (newPage E) t = none) := by
  unfold splitLoops at h
  split at h
  · exact absurd h (by simp)
  · rename_i st0 hst0
    obtain ⟨pg0, hg0, hsp, hspD, rfl, hs0, hc0⟩ := splitStart_inv hinv hw hst0
    have hl := hw.2.2
    have hn0 : NewIds r.ovflow.length r.data.length
        { data := r.data ++ [newPage E], ovflow := r.ovflow, pg := pg0,
          newpg := newPage E, newpageid := r.data.length, is_new_ovflow := false } :=
      ⟨Nat.le_refl _, fun hf => absurd hf (by simp), fun _ => rfl⟩
    have hsy0 : Synced r.sp false
        { data := r.data ++ [newPage E], ovflow := r.ovflow, pg := pg0,
          newpg := newPage E, newpageid := r.data.length, is_new_ovflow := false } :=
      ⟨fun hf => absurd hf (by simp), fun _ => by
        show (r.data ++ [newPage E])[r.sp]? = some pg0
        rw [List.getElem?_append_left hspD]; exact hg0⟩
    have hbt : bucketTuples E r r.sp =
        pageTuples pg0 ++ chainTuples E r.ovflow r.ovflow.length pg0.ovflow := by
      unfold bucketTuples
      rw [hg0]
    have hdata0 : ∀ i, i < r.data.length → (r.data ++ [newPage E])[i]? = r.data[i]? :=
      fun i hi => List.getElem?_append_left hi
    refine ⟨pg0, hg0, ?_⟩
    cases fuel with
    | zero =>
      unfold splitChain at h
      rw [if_neg hsp] at h
      exact absurd h (by simp)
    | succ fuel =>
      unfold splitChain at h
      rw [if_neg hsp] at h
      simp only [Bool.false_eq_true, if_false] at h
      split at h
      · exact absurd h (by simp)
      · rename_i st1 hsp1
        obtain ⟨a1, a2, -, -, -, a6⟩ := splitPage_track (fun hf => absurd hf (by simp))
          (fun _ => Nat.ne_of_lt hspD) _ _ _ _ _ [] (pageTuples pg0) hs0 hc0 hn0 hsy0 rfl rfl hsp1
        obtain ⟨k1, -⟩ := splitPage_inv _ _ _ _ _ [] (pageTuples pg0) hs0 hc0 rfl rfl hsp1
        simp only [Option.some.injEq, Prod.mk.injEq] at h
        obtain ⟨rfl, rfl⟩ := h
        refine ⟨a1, k1, ?_, ?_, fun hf => absurd hf (by simp), fun _ => ?_⟩
        · intro i hi hne
          rw [a2.2.2 i (Nat.ne_of_lt hi) (fun _ => hne)]
          exact hdata0 i hi
        · intro i hi _
          exact a2.2.1 i hi (fun hf => absurd hf (by simp))
        · obtain ⟨t, h1, h2⟩ := a6 rfl
          exact ⟨t, by rw [hbt]; exact List.mem_append_left _ h1, h2⟩
      · rename_i st1 hsp1
        obtain ⟨a1, a2, a3, a4, a5, -⟩ := splitPage_track (fun hf => absurd hf (by simp))
          (fun _ => Nat.ne_of_lt hspD) _ _ _ _ _ [] (pageTuples pg0) hs0 hc0 hn0 hsy0 rfl rfl hsp1
        obtain ⟨k1, k2⟩ := splitPage_inv _ _ _ _ _ [] (pageTuples pg0) hs0 hc0 rfl rfl hsp1
        have a4' : st1.pg.ovflow = pg0.ovflow := a4
        rw [a4'] at h
        obtain ⟨b1, b2, b3, b4, b5, b6, b7⟩ := splitChain_track r.ovflow (fwd_of_linksOK hl) rfl
          fuel pg0.ovflow st1 0 r.ovflow.length b st k1 a1
          (fun i _ hi => a2.2.1 i hi (fun hf => absurd hf (by simp)))
          (by
            rcases hl.1 pg0 (List.getElem?_mem hg0) with h3 | h3
            · exact Or.inl h3
            · exact Or.inr ⟨Nat.zero_le _, h3, by omega⟩) h
        obtain ⟨j1, -⟩ := And.intro (splitChain_inv _ _ _ _ _ _ k1 (fun hf => absurd hf (by simp)) h)
          trivial
        refine ⟨b1, j1, ?_, ?_, fun hb => ⟨⟨st1.pg, ?_, k2.1, by simpa using a5 rfl, a4'⟩, b6 hb⟩,
          fun hb => ?_⟩
        · intro i hi hne
          rw [b3 i (Nat.ne_of_lt hi), a2.2.2 i (Nat.ne_of_lt hi) (fun _ => hne)]
          exact hdata0 i hi
        · intro i hi hni
          exact b5 i (Nat.zero_le _) hi hni
        · rw [b3 r.sp (Nat.ne_of_lt hspD)]
          exact a3.2 rfl
        · obtain ⟨i, h1, p, h2, t, h3, h4⟩ := b7 hb
          exact ⟨t, by rw [hbt]; exact List.mem_append_right _ (chainIds_tuples _ _ i p t h1 h2 h3),
            h4⟩

theorem pack_length (ts : List Tuple) :
    (pack ts).length = (ts.map (fun t => t.length + 1)).sum := by
  induction ts with
  | nil => rfl
  | cons t ts ih =>
    simp only [pack, List.length_append, List.length_cons, List.map_cons, List.sum_cons, ih]
    omega

/-- What `split` leaves in the files of a well-formed relation: the pages of other
buckets are as before; when the loops run to their end, every page of the old bucket
holds the tuples that stay; the loops are cut short only at a tuple of the old bucket
that does not fit an empty page. -/
theorem split_track {E : Env} {fuel : Nat} {r r' : Reln} (hinv : Inv r) (hw : WF E r)
    (h : split E fuel r = some r') :
    ∃ pg0 b st, r.data[r.sp]? = some pg0 ∧ splitLoops E fuel r = some (b, st) ∧
      r'.data.length = r.data.length + 1 ∧ r.ovflow.length ≤ r'.ovflow.length ∧
      (∀ i, i < r.data.length → i ≠ r.sp → r'.data[i]? = r.data[i]?) ∧
      (∀ i, i < r.ovflow.length → i ∉ chainIds E r.ovflow r.ovflow.length pg0.ovflow →
        r'.ovflow[i]? = r.ovflow[i]?) ∧
      (b = true →
        (∃ p', r'.data[r.sp]? = some p' ∧ Kept E r r.depth r.sp pg0 p') ∧
        ∀ i ∈ chainIds E r.ovflow r.ovflow.length pg0.ovflow, ∀ p, r.ovflow[i]? = some p →
          ∃ p', r'.ovflow[i]? = some p' ∧ Kept E r r.depth r.sp p p') ∧
      (b = false → ∃ t ∈ bucketTuples E r r.sp, addToPage E (newPage E) t = none) := by
  rw [split_eq_loops] at h
  split at h
  · exact absurd h (by simp)
  · rename_i st hl
    obtain ⟨pg0, hg0, a1, a2, a3, a4, -, a6⟩ := splitLoops_track hinv hw hl
    simp only [Option.some.injEq] at h
    subst h
    exact ⟨pg0, false, st, hg0, hl, a2.data_len, a1.1, a3, a4, fun hf => absurd hf (by simp), a6⟩
  · rename_i st hl
    obtain ⟨pg0, hg0, a1, a2, a3, a4, a5, -⟩ := splitLoops_track hinv hw hl
    have hspD : r.sp < r.data.length := (List.getElem?_eq_some.mp hg0).1
    have hfw := fwd_of_linksOK hw.2.2
    split at h
    · rename_i hno
      simp only [Option.some.injEq] at h
      subst h
      have hid := a1.2.1 hno
      have hov : ∀ i, i < r.ovflow.length →
          (putPage st.ovflow st.newpageid st.newpg)[i]? = st.ovflow[i]? := by
        intro i hi
        simp only [putPage]
        rw [List.getElem?_set_ne (by omega)]
      refine ⟨pg0, true, st, hg0, hl, a2.data_len, ?_, a3, ?_, fun _ => ⟨(a5 rfl).1, ?_⟩,
        fun hf => absurd hf (by simp)⟩
      · show r.ovflow.length ≤ (putPage st.ovflow st.newpageid st.newpg).length
        simp only [putPage, List.length_set]
        exact a1.1
      · intro i hi hni
        show (putPage st.ovflow st.newpageid st.newpg)[i]? = _
        rw [hov i hi]
        exact a4 i hi hni
      · intro i hi p hp
        show ∃ p', (putPage st.ovflow st.newpageid st.newpg)[i]? = some p' ∧ _
        rw [hov i (List.getElem?_eq_some.mp hp).1]
        exact (a5 rfl).2 i hi p hp
    · rename_i hno
      have hno' : st.is_new_ovflow = false := by simpa using hno
      simp only [Option.some.injEq] at h
      subst h
      have hid := a1.2.2 hno'
      have hda : ∀ i, i < r.data.length →
          (putPage st.data st.newpageid st.newpg)[i]? = st.data[i]? := by
        intro i hi
        simp only [putPage]
        rw [List.getElem?_set_ne (by omega)]
      refine ⟨pg0, true, st, hg0, hl, ?_, a1.1, ?_, a4, fun _ => ⟨?_, (a5 rfl).2⟩,
        fun hf => absurd hf (by simp)⟩
      · show (putPage st.data st.newpageid st.newpg).length = _
        simp only [putPage, List.length_set]
        exact a2.data_len
      · intro i hi hne
        show (putPage st.data st.newpageid st.newpg)[i]? = _
        rw [hda i hi]
        exact a3 i hi hne
      · show ∃ p', (putPage st.data st.newpageid st.newpg)[r.sp]? = some p' ∧ _
        rw [hda r.sp hspD]
        exact (a5 rfl).1

/-- The pages that `Kept` relates: the free offset and the tuple count of the
compacted page are those of the tuples that stay, which lie packed below the free
offset. -/
theorem kept_page {E : Env} {r : Reln} {d oldp : Nat} {p p' : Page}
    (h : Kept E r d oldp p p') :
    pageTuples p' = (pageTuples p).filter (stays E r d oldp) ∧
    p'.data.take p'.free = pack ((pageTuples p).filter (stays E r d oldp)) ∧
    p'.free = (((pageTuples p).filter (stays E r d oldp)).map (fun t => t.length + 1)).sum ∧
    p'.ntuples = ((pageTuples p).filter (stays E r d oldp)).length ∧
    p'.ovflow = p.ovflow := by
  obtain ⟨hok, ht, hl⟩ := h
  refine ⟨ht, ?_, ?_, ?_, hl⟩
  · rw [← ht]; exact hok.2.2.2.1.symm
  · rw [← pack_length, ← ht]; exact (pageOK_free_eq hok).symm
  · rw [← ht]; exact hok.2.2.2.2

/-! ## The bound of `addToPage` on the free offset is kept -/

theorem room_new (E : Env) : Room E (newPage E) := Nat.zero_le _

theorem room_add {E : Env} {p p' : Page} {t : Tuple} (h : addToPage E p t = some p') :
    Room E p' := by
  unfold addToPage at h
  split at h
  · simp only [Option.some.injEq] at h
    subst h
    show p.free + t.length + 1 ≤ _
    omega
  · exact absurd h (by simp)

theorem room_link {E : Env} {p : Page} (h : Room E p) (x : Nat) :
    Room E (pageSetOvflow p x) := h

theorem room_compact {E : Env} {p p' : Page} {c l : Nat} (hp : Room E p)
    (h : compact p c l = some p') : Room E p' := by
  unfold compact at h
  split at h
  · exact absurd h (by simp)
  · simp only [Option.some.injEq] at h
    subst h
    show p.free - (l + 1) ≤ _
    unfold Room at hp
    omega

theorem room_set {E : Env} {f : List Page} (hf : ∀ pg ∈ f, Room E pg) (j : Nat) {x : Page}
    (hx : Room E x) : ∀ pg ∈ putPage f j x, Room E pg := by
  intro pg hpg
  rcases List.mem_or_eq_of_mem_set hpg with h1 | h1
  · exact hf pg h1
  · subst h1; exact hx

theorem room_addPage {E : Env} {f : List Page} (hf : ∀ pg ∈ f, Room E pg) :
    ∀ pg ∈ (addPage E f).1, Room E pg := by
  intro pg hpg
  simp only [addPage, List.mem_append, List.mem_singleton] at hpg
  rcases hpg with h1 | h1
  · exact hf pg h1
  · subst h1; exact room_new E

theorem moveTuple_room {E : Env} {st st1 : SplitSt} {t : Tuple} {b : Bool}
    (hr : RoomSt E st) (h : moveTuple E st t = some (b, st1)) : RoomSt E st1 := by
  obtain ⟨r1, r2, r3, r4⟩ := hr
  unfold moveTuple at h
  split at h
  · rename_i np hadd
    simp only [Option.some.injEq, Prod.mk.injEq] at h
    obtain ⟨-, rfl⟩ := h
    exact ⟨r1, r2, r3, room_add hadd⟩
  · simp only at h
    split at h
    · exact absurd h (by simp)
    · rename_i newpg hg
      have hov1 := room_addPage r2
      have hnew : Room E newpg := hov1 _ (getPage_mem hg)
      split at h
      · exact absurd h (by simp)
      · rename_i prevpage hprev
        have hprevR : Room E prevpage := by
          by_cases hno : st.is_new_ovflow = true
          · rw [if_pos hno] at hprev
            exact hov1 _ (getPage_mem hprev)
          · rw [if_neg hno] at hprev
            exact r1 _ (getPage_mem hprev)
        have key : ∀ st2 : SplitSt, st2 = (if st.is_new_ovflow = true then
              { st with ovflow := putPage (addPage E st.ovflow).1 st.newpageid
                          (pageSetOvflow prevpage (addPage E st.ovflow).2),
                        newpg := newpg, newpageid := (addPage E st.ovflow).2,
                        is_new_ovflow := true }
            else
              { st with data := putPage st.data st.newpageid
                          (pageSetOvflow prevpage (addPage E st.ovflow).2),
                        ovflow := (addPage E st.ovflow).1, newpg := newpg,
                        newpageid := (addPage E st.ovflow).2, is_new_ovflow := true }) →
            RoomSt E st2 := by
          intro st2 hst2
          by_cases hno : st.is_new_ovflow = true
          · rw [if_pos hno] at hst2
            subst hst2
            exact ⟨r1, room_set hov1 _ (room_link hprevR _), r3, hnew⟩
          · rw [if_neg hno] at hst2
            subst hst2
            exact ⟨room_set r1 _ (room_link hprevR _), hov1, r3, hnew⟩
        split at h
        · simp only [Option.some.injEq, Prod.mk.injEq] at h
          obtain ⟨-, rfl⟩ := h
          exact key _ rfl
        · rename_i np hadd
          simp only [Option.some.injEq, Prod.mk.injEq] at h
          obtain ⟨-, rfl⟩ := h
          obtain ⟨k1, k2, k3, -⟩ := key _ rfl
          exact ⟨k1, k2, k3, room_add hadd⟩

theorem splitPage_room {E : Env} {r : Reln} {d oldp cur : Nat} {isOv : Bool} :
    ∀ (fuel currtup : Nat) (st : SplitSt) (b : Bool) (st' : SplitSt),
      RoomSt E st → splitPage E r d oldp cur isOv fuel currtup st = some (b, st') →
      RoomSt E st' := by
  intro fuel
  induction fuel with
  | zero =>
    intro currtup st b st' hr h
    unfold splitPage at h
    split at h
    · exact absurd h (by simp)
    · simp only [Option.some.injEq, Prod.mk.injEq] at h
      obtain ⟨-, rfl⟩ := h
      exact hr
  | succ fuel ih =>
    intro currtup st b st' hr h
    unfold splitPage at h
    split at h
    · simp only at h
      split at h
      · exact ih _ _ _ _ hr h
      · split at h
        · exact absurd h (by simp)
        · rename_i st1 hmv
          simp only [Option.some.injEq, Prod.mk.injEq] at h
          obtain ⟨-, rfl⟩ := h
          exact moveTuple_room hr hmv
        · rename_i st1 hmv
          obtain ⟨k1, k2, k3, k4⟩ := moveTuple_room hr hmv
          split at h
          · exact absurd h (by simp)
          · rename_i pg1 hc
            have hpg1 : Room E pg1 := room_compact k3 hc
            split at h
            · split at h
              · exact absurd h (by simp)
              · rename_i pg2 hg
                exact ih _ { st1 with ovflow := putPage st1.ovflow cur pg1, pg := pg2 } _ _
                  ⟨k1, room_set k2 _ hpg1, room_set k2 _ hpg1 _ (getPage_mem hg), k4⟩ h
            · split at h
              · exact absurd h (by simp)
              · rename_i pg2 hg
                exact ih _ { st1 with data := putPage st1.data cur pg1, pg := pg2 } _ _
                  ⟨room_set k1 _ hpg1, k2, room_set k1 _ hpg1 _ (getPage_mem hg), k4⟩ h
    · simp only [Option.some.injEq, Prod.mk.injEq] at h
      obtain ⟨-, rfl⟩ := h
      exact hr

theorem splitChain_room {E : Env} {r : Reln} {d oldp : Nat} :
    ∀ (fuel cur : Nat) (isOv : Bool) (st : SplitSt) (b : Bool) (st' : SplitSt),
      RoomSt E st → splitChain E r d oldp fuel cur isOv st = some (b, st') →
      RoomSt E st' := by
  intro fuel
  induction fuel with
  | zero =>
    intro cur isOv st b st' hr h
    unfold splitChain at h
    split at h
    · simp only [Option.some.injEq, Prod.mk.injEq] at h
      obtain ⟨-, rfl⟩ := h
      exact hr
    · exact absurd h (by simp)
  | succ fuel ih =>
    intro cur isOv st b st' hr h
    unfold splitChain at h
    split at h
    · simp only [Option.some.injEq, Prod.mk.injEq] at h
      obtain ⟨-, rfl⟩ := h
      exact hr
    · split at h
      · exact absurd h (by simp)
      · rename_i pg hpg
        have hpgR : Room E pg := by
          cases isOv with
          | false =>
            simp only [Bool.false_eq_true, if_false, Option.some.injEq] at hpg
            subst hpg
            exact hr.2.2.1
          | true =>
            simp only [if_true] at hpg
            exact hr.2.1 _ (getPage_mem hpg)
        have hr2 : RoomSt E { st with pg := pg } := ⟨hr.1, hr.2.1, hpgR, hr.2.2.2⟩
        split at h
        · exact absurd h (by simp)
        · rename_i st1 hsp
          simp only [Option.some.injEq, Prod.mk.injEq] at h
          obtain ⟨-, rfl⟩ := h
          exact splitPage_room _ _ _ _ _ hr2 hsp
        · rename_i st1 hsp
          exact ih _ _ _ _ _ (splitPage_room _ _ _ _ _ hr2 hsp) h

/-- The function `split` keeps the bound on the free offsets. -/
theorem split_room {E : Env} {fuel : Nat} {r r' : Reln} (hr : RoomOK E r)
    (h : split E fuel r = some r') : RoomOK E r' := by
  rw [split_eq_loops] at h
  have key : ∀ b st, splitLoops E fuel r = some (b, st) → RoomSt E st := by
    intro b st hl
    unfold splitLoops at hl
    split at hl
    · exact absurd hl (by simp)
    · rename_i st0 hst0
      refine splitChain_room _ _ _ _ _ _ ?_ hl
      unfold splitStart at hst0
      split at hst0
      · exact absurd hst0 (by simp)
      · rename_i pg hg
        split at hst0
        · exact absurd hst0 (by simp)
        · rename_i newpg hg1
          simp only [Option.some.injEq] at hst0
          subst hst0
          exact ⟨room_addPage hr.1, hr.2, hr.1 _ (getPage_mem hg),
            room_addPage hr.1 _ (getPage_mem hg1)⟩
  split at h
  · exact absurd h (by simp)
  · rename_i st hl
    simp only [Option.some.injEq] at h
    subst h
    exact ⟨(key _ _ hl).1, (key _ _ hl).2.1⟩
  · rename_i st hl
    obtain ⟨k1, k2, -, k4⟩ := key _ _ hl
    split at h
    · simp only [Option.some.injEq] at h
      subst h
      exact ⟨k1, room_set k2 _ k4⟩
    · simp only [Option.some.injEq] at h
      subst h
      exact ⟨room_set k1 _ k4, k2⟩

theorem maybeSplit_room {E : Env} {fuel : Nat} {r r1 : Reln} (hr : RoomOK E r)
    (h : maybeSplit E fuel r = some r1) : RoomOK E r1 := by
  rcases maybeSplit_run h with ⟨-, r0, h0, h1, h2⟩ | ⟨-, h3⟩
  · have := split_room hr h0
    unfold RoomOK
    rw [h1, h2]
    exact this
  · rw [h3]; exact hr

theorem addToChainEnd_room {E : Env} {r r' : Reln} {t : Tuple} {p res : Nat}
    {prev : Option (Nat × Page)} (hr : RoomOK E r) (hprev : ∀ x, prev = some x → Room E x.2)
    (h : addToChainEnd E r t p prev = some (r', res)) : RoomOK E r' := by
  unfold addToChainEnd at h
  split at h
  · exact absurd h (by simp)
  · rename_i prevp prevpg
    simp only at h
    split at h
    · exact absurd h (by simp)
    · split at h
      · simp only [Option.some.injEq, Prod.mk.injEq] at h
        obtain ⟨rfl, -⟩ := h
        exact ⟨hr.1, room_addPage hr.2⟩
      · rename_i newpg1 hadd
        simp only [Option.some.injEq, Prod.mk.injEq] at h
        obtain ⟨rfl, -⟩ := h
        exact ⟨hr.1, room_set (room_set (room_addPage hr.2) _ (room_add hadd)) _
          (room_link (hprev _ rfl) _)⟩

theorem addToChain_room {E : Env} {r : Reln} {t : Tuple} {p : Nat} (hr : RoomOK E r) :
    ∀ (fuel ovp : Nat) (prev : Option (Nat × Page)) (r' : Reln) (res : Nat),
      (∀ x, prev = some x → Room E x.2) →
      addToChain E r t p fuel ovp prev = some (r', res) → RoomOK E r' := by
  intro fuel
  induction fuel with
  | zero =>
    intro ovp prev r' res hprev h
    unfold addToChain at h
    split at h
    · exact absurd h (by simp)
    · exact addToChainEnd_room hr hprev h
  | succ fuel ih =>
    intro ovp prev r' res hprev h
    unfold addToChain at h
    split at h
    · split at h
      · exact absurd h (by simp)
      · rename_i ovpg hg
        split at h
        · refine ih _ _ _ _ ?_ h
          intro x hx
          simp only [Option.some.injEq] at hx
          subst hx
          exact hr.2 _ (getPage_mem hg)
        · rename_i ovpg1 hadd
          simp only [Option.some.injEq, Prod.mk.injEq] at h
          obtain ⟨rfl, -⟩ := h
          exact ⟨hr.1, room_set hr.2 _ (room_add hadd)⟩
    · exact addToChainEnd_room hr hprev h

theorem place_room {E : Env} {fuel : Nat} {r r' : Reln} {t : Tuple} {res : Nat}
    (hr : RoomOK E r) (h : place E fuel r t = some (r', res)) : RoomOK E r' := by
  unfold place at h
  simp only at h
  split at h
  · exact absurd h (by simp)
  · rename_i pg hg
    have hpg : Room E pg := hr.1 _ (getPage_mem hg)
    split at h
    · rename_i pg1 hadd
      simp only [Option.some.injEq, Prod.mk.injEq] at h
      obtain ⟨rfl, -⟩ := h
      exact ⟨room_set hr.1 _ (room_add hadd), hr.2⟩
    · split at h
      · split at h
        · exact absurd h (by simp)
        · split at h
          · simp only [Option.some.injEq, Prod.mk.injEq] at h
            obtain ⟨rfl, -⟩ := h
            exact ⟨room_set hr.1 _ (room_link hpg _), room_addPage hr.2⟩
          · rename_i newpg1 hadd
            simp only [Option.some.injEq, Prod.mk.injEq] at h
            obtain ⟨rfl, -⟩ := h
            exact ⟨room_set hr.1 _ (room_link hpg _),
              room_set (room_addPage hr.2) _ (room_add hadd)⟩
      · exact addToChain_room hr _ _ _ _ _ (fun x hx => absurd hx (by simp)) h

/-- Every call of `addToRelation` keeps the bound on the free offsets. -/
theorem addToRelation_room {E : Env} {fuel : Nat} {r r' : Reln} {t : Tuple} {res : Nat}
    (hr : RoomOK E r) (h : addToRelation E fuel r t = some (r', res)) : RoomOK E r' := by
  unfold addToRelation at h
  split at h
  · exact absurd h (by simp)
  · rename_i r1 hm
    exact place_room (maybeSplit_room hr hm) h

/-- The relation created by `newRelation` keeps the bound on the free offsets. -/
theorem newRelation_room (E : Env) (nattrs npages d : Nat) (cv : List ChVecItem) :
    RoomOK E (newRelation E nattrs npages d cv) := by
  constructor
  · intro pg hpg
    simp only [newRelation] at hpg
    rw [List.eq_of_mem_replicate hpg]
    exact room_new E
  · intro pg hpg
    simp [newRelation] at hpg

theorem pack_mem_length {ts : List Tuple} {t : Tuple} (h : t ∈ ts) :
    t.length + 1 ≤ (pack ts).length := by
  induction ts with
  | nil => simp at h
  | cons a ts ih =>
    simp only [pack, List.length_append, List.length_cons]
    rcases List.mem_cons.mp h with h1 | h1
    · subst h1; omega
    · have := ih h1; omega

/-- A tuple stored in a page that keeps the page invariant and the bound on the free
offset fits an empty page. -/
theorem fits_of_room {E : Env} {p : Page} {t : Tuple} (hp : PageOK E p) (hr : Room E p)
    (ht : t ∈ pageTuples p) : Fits E t := by
  have h1 := pack_mem_length ht
  rw [pageOK_free_eq hp] at h1
  unfold Room at hr
  unfold Fits addToPage
  rw [if_pos (by show 0 + t.length ≤ _; omega)]
  simp

theorem chainTuples_mem {E : Env} {f : List Page} {t : Tuple} :
    ∀ (n pid : Nat), t ∈ chainTuples E f n pid → ∃ pg ∈ f, t ∈ pageTuples pg := by
  intro n
  induction n with
  | zero => intro pid h; simp [chainTuples] at h
  | succ n ih =>
    intro pid h
    unfold chainTuples at h
    split at h
    · simp at h
    · split at h
      · simp at h
      · rename_i pg hg
        rcases List.mem_append.mp h with h1 | h1
        · exact ⟨pg, List.getElem?_mem hg, h1⟩
        · exact ih _ h1

/-- In a well-formed relation that keeps the bound on the free offsets every stored
tuple fits an empty page. -/
theorem bucket_fits {E : Env} {r : Reln} (hw : WF E r) (hr : RoomOK E r) (p : Nat) :
    ∀ t ∈ bucketTuples E r p, Fits E t := by
  intro t ht
  unfold bucketTuples at ht
  split at ht
  · simp at ht
  · rename_i pg hg
    rcases List.mem_append.mp ht with h1 | h1
    · have hm := List.getElem?_mem hg
      exact fits_of_room (hw.2.1.1 pg hm) (hr.1 pg hm) h1
    · obtain ⟨pg1, hm, h2⟩ := chainTuples_mem _ _ h1
      exact fits_of_room (hw.2.1.2 pg1 hm) (hr.2 pg1 hm) h2

/-! ## The pages of the old bucket, the frame and the termination of `split` -/

theorem kept_compacted {E : Env} {r : Reln} {p p' : Page}
    (h : Kept E r r.depth r.sp p p') : PageOK E p' ∧ Compacted E r p p' := by
  obtain ⟨h1, h2, h3, h4, h5⟩ := kept_page h
  have e : pageTuples p' = (pageTuples p).filter
      (fun t => decide (getLower (tupleHash E r t) (r.depth + 1) = r.sp)) := h1
  refine ⟨h.1, e, ?_, ?_, ?_, h5⟩
  · rw [h1]; exact h2
  · rw [h1]; exact h3
  · rw [h1]; exact h4

/-- Claim C17 (compaction keeps the page invariant): in a well-formed relation whose
pages keep the bound of `addToPage` on the free offset (as every relation built by
`newRelation` and `addToRelation` does), after `split` every page of the chain of
bucket `sp`, the primary page and the overflow pages, satisfies the page invariant
and holds exactly its former tuples with `getLower(tupleHash(t), d+1) = sp`, in
their order, packed from offset 0; its free offset is the sum of `strlen(t) + 1`
over them, its tuple count is their number, and its overflow link is unchanged. -/
theorem compaction_keeps_pages (E : Env) (fuel : Nat) (r r' : Reln) (hinv : Inv r)
    (hw : WF E r) (hroom : RoomOK E r) (h : split E fuel r = some r') :
    ∃ pg0, r.data[r.sp]? = some pg0 ∧
      (∃ p', r'.data[r.sp]? = some p' ∧ PageOK E p' ∧ Compacted E r pg0 p') ∧
      ∀ i ∈ chainIds E r.ovflow r.ovflow.length pg0.ovflow, ∀ p, r.ovflow[i]? = some p →
        ∃ p', r'.ovflow[i]? = some p' ∧ PageOK E p' ∧ Compacted E r p p' := by
  obtain ⟨pg0, b, st, hg0, -, -, -, -, -, a5, a6⟩ := split_track hinv hw h
  cases b with
  | false =>
    obtain ⟨t, h1, h2⟩ := a6 rfl
    exact absurd h2 (bucket_fits hw hroom r.sp t h1)
  | true =>
    obtain ⟨⟨p', e1, e2⟩, e3⟩ := a5 rfl
    refine ⟨pg0, hg0, ⟨p', e1, kept_compacted e2⟩, ?_⟩
    intro i hi p hp
    obtain ⟨p', e4, e5⟩ := e3 i hi p hp
    exact ⟨p', e4, kept_compacted e5⟩

/-- Claim C19 (frame of `split`): on a well-formed relation, `split` increases
`npages` by exactly 1 and leaves `nattrs`, `depth`, `sp`, `ntups`, `insertions` and
the choice vector unchanged; it adds the data page `sp + 2^d`, does not shrink the
overflow file, and leaves every other data page than `sp` and every overflow page
that is not in the chain of bucket `sp` as it was. -/
theorem split_frame (E : Env) (fuel : Nat) (r r' : Reln) (hinv : Inv r) (hw : WF E r)
    (h : split E fuel r = some r') :
    (r'.npages = r.npages + 1 ∧ r'.nattrs = r.nattrs ∧ r'.depth = r.depth ∧ r'.sp = r.sp ∧
      r'.ntups = r.ntups ∧ r'.insertions = r.insertions ∧ r'.cv = r.cv) ∧
    r.sp + 2 ^ r.depth = r.data.length ∧ r'.data.length = r.data.length + 1 ∧
    r.ovflow.length ≤ r'.ovflow.length ∧
    ∃ pg0, r.data[r.sp]? = some pg0 ∧
      (∀ i, i < r.data.length → i ≠ r.sp → r'.data[i]? = r.data[i]?) ∧
      (∀ i, i < r.ovflow.length → i ∉ chainIds E r.ovflow r.ovflow.length pg0.ovflow →
        r'.ovflow[i]? = r.ovflow[i]?) := by
  obtain ⟨f1, f2, f3, f4, f5, f6, f7⟩ := split_fields h
  obtain ⟨pg0, b, st, hg0, -, a1, a2, a3, a4, -, -⟩ := split_track hinv hw h
  refine ⟨⟨f1, f6, f2, f3, f4, f5, f7⟩, ?_, a1, a2, pg0, hg0, a3, a4⟩
  rw [hw.1, hinv.2]; omega

/-- Claim C20 (termination of `split`): on a well-formed relation (every page
satisfies the page invariant, overflow links lead forward) with page ids below
`NO_PAGE`, `split` returns: the inner loop with as many iterations as `pageFree(pg)`,
the outer loop with one iteration more than there are overflow pages.  When moreover
every tuple of bucket `sp` fits an empty page, the loops run to their end: the
return at "Tuple too big to insert?" is not taken. -/
theorem split_terminates (E : Env) (fuel : Nat) (r : Reln) (hinv : Inv r) (hw : WF E r)
    (hD : r.data.length < E.NO_PAGE) (hB : r.ovflow.length + storedCount r ≤ E.NO_PAGE)
    (hfuel : r.ovflow.length < fuel) :
    (∃ r', split E fuel r = some r') ∧
    ((∀ t ∈ bucketTuples E r r.sp, Fits E t) → ∃ st, splitLoops E fuel r = some (true, st)) := by
  obtain ⟨r', h, -⟩ := split_some hinv hw hD hB hfuel
  refine ⟨⟨r', h⟩, fun hfit => ?_⟩
  obtain ⟨pg0, b, st, -, hl, -, -, -, -, -, a6⟩ := split_track hinv hw h
  cases b with
  | false =>
    obtain ⟨t, h1, h2⟩ := a6 rfl
    exact absurd h2 (hfit t h1)
  | true => exact ⟨st, hl⟩

/-! ## Concrete runs for the split policy and the query scan -/

/-- Claim C11, refuted as stated: with 32-bit `Count` and `nattrs = 429496730` the
product `10 * nattrs` wraps to 4, so the threshold of the code is `1024 / 4 = 256`,
where the claim has `T = max(1, 1024 / 4294967300) = 1`.  After the first insertion
into the fresh relation `insertions` is 1, which is `≥ T`; the second call does not
split: `npages` is still 4, `sp` is 0 and `insertions` is 2. -/
theorem threshold_wraps :
    (1 ≤ 429496730 ∧ max 1 (stdEnv.PAGESIZE / (10 * 429496730)) = 1) ∧
    threshold stdEnv (newRelation stdEnv 429496730 4 2 stdCv) = 256 ∧
    (addAll stdEnv 1 (newRelation stdEnv 429496730 4 2 stdCv) [bytes "1,a,x,10"]).map
        (fun x => (x.1.nattrs, x.1.insertions, x.1.npages, x.1.sp, x.1.depth, x.2)) =
      some (429496730, 1, 4, 0, 2, [1]) ∧
    (addAll stdEnv 1 (newRelation stdEnv 429496730 4 2 stdCv)
        [bytes "1,a,x,10", bytes "2,b,y,20"]).map
        (fun x => (x.1.insertions, x.1.npages, x.1.sp, x.1.depth, x.2.length)) =
      some (2, 4, 0, 2, 2) :=
  ⟨by decide, by decide!, by decide!, by decide!⟩

/-- Witness for C11 as amended: the insertion of `35,35,35,35` into `relW`, whose 25
insertions reach the threshold `1024 / 40 = 25`, so that bucket 0 is split first; and
the insertion of `1,a,x,10` into the fresh relation `relS`, without a split. -/
theorem split_policy_witness :
    ((addToRelation stdEnv 2 relW (bytes "35,35,35,35") = some (relW1, 0) ∧
        relW.insertions ≥ threshold stdEnv relW) ∧
      ∃ r0 r1, split stdEnv 2 relW = some r0 ∧ maybeSplit stdEnv 2 relW = some r1 ∧
        r1.data = r0.data ∧ r1.ovflow = r0.ovflow ∧ r1.insertions = 0 ∧
        r1.npages = relW.npages + 1 ∧
        ((relW.sp + 1 = 2 ^ relW.depth ∧ r1.sp = 0 ∧ r1.depth = relW.depth + 1) ∨
          (relW.sp + 1 ≠ 2 ^ relW.depth ∧ r1.sp = relW.sp + 1 ∧ r1.depth = relW.depth)) ∧
        place stdEnv 2 r1 (bytes "35,35,35,35") = some (relW1, 0) ∧
        relW1.sp = r1.sp ∧ relW1.depth = r1.depth ∧ relW1.npages = r1.npages ∧
        (0 ≠ stdEnv.NO_PAGE → relW1.insertions = 1)) ∧
    ((addToRelation stdEnv 1 relS (bytes "1,a,x,10") = some (relS1, 1) ∧
        relS.insertions < threshold stdEnv relS) ∧
      maybeSplit stdEnv 1 relS = some relS ∧
      place stdEnv 1 relS (bytes "1,a,x,10") = some (relS1, 1) ∧
      relS1.depth = relS.depth ∧ relS1.sp = relS.sp ∧ relS1.npages = relS.npages ∧
      (1 ≠ stdEnv.NO_PAGE → relS1.insertions = relS.insertions + 1)) ∧
    (10 * relS.nattrs < 2 ^ stdEnv.COUNT_BITS ∧ 1 ≤ relS.nattrs ∧
      threshold stdEnv relS = max 1 (stdEnv.PAGESIZE / (10 * relS.nattrs))) :=
  ⟨⟨⟨by decide!, by decide⟩,
      (split_policy stdEnv 2 relW relW1 (bytes "35,35,35,35") 0
        (by decide!)).2.2.1 (by decide)⟩,
    ⟨⟨by decide!, by decide⟩,
      (split_policy stdEnv 1 relS relS1 (bytes "1,a,x,10") 1
        (by decide!)).2.2.2 (by decide)⟩,
    ⟨by decide,
      (split_policy stdEnv 1 relS relS1 (bytes "1,a,x,10") 1
        (by decide!)).1.2.2 (by decide)⟩⟩

/-- Claim C12 fails on the code (no phantom results): `relW1` is the state after the
insertion of the 26 tuples `tups26` into a fresh relation of depth 0; the 26th
insertion splits bucket 0.  The tuple `34,34,34,34` is stored once, in bucket 1, and
not below the free offset of any page of bucket 0, from which the compaction of
`split` removed it.  The scan of the query `?,?,?,34` returns it 13 times: 12 times
from the bytes behind the free offset of page 0 and once from bucket 1. -/
theorem scan_returns_removed_tuple :
    addToRelation stdEnv 2 relW (bytes "35,35,35,35") = some (relW1, 0) ∧
    (relW1.depth, relW1.sp, relW1.npages, relW1.ovflow.length) = (1, 0, 2, 0) ∧
    bytes "34,34,34,34" ∉ bucketTuples stdEnv relW1 0 ∧
    (bucketTuples stdEnv relW1 0 ++ bucketTuples stdEnv relW1 1).count (bytes "34,34,34,34") = 1 ∧
    scan stdEnv relW1 6000 100 (startQuery stdEnv relW1 (bytes "?,?,?,34") 0) =
      some (List.replicate 13 (bytes "34,34,34,34")) := by
  simp only [← scanR_eq]
  decide!

/-- Claim C13 fails on the code (candidate coverage): after the insertion of the 52
tuples `tups52` into a fresh relation with 2 attributes, depth 1 and the alternating
choice vector, the state has `d = 1`, `sp = 1`, `npages = 3`.  The tuple `10,21`
matches the query `?,21`, its bucket address is 1 and it is stored in bucket 1.
`startQuery` seeds the scan at bucket 2 with one unknown bit; the one call of
`getNextBucket` leads to bucket 3, the last candidate (`buck_ind = 2^nstars - 1`),
which lies behind the last page `2^d - 1 + sp = 2`.  Bucket 1 is not a candidate. -/
theorem candidates_miss_bucket :
    (addAll stdEnv 2 (newRelation stdEnv 2 2 1 cvAlt) tups52).map
        (fun x => (x.1.depth, x.1.sp, x.1.npages, Pow 2 x.1.depth - 1 + x.1.sp)) =
      some (1, 1, 3, 2) ∧
    (addAll stdEnv 2 (newRelation stdEnv 2 2 1 cvAlt) tups52).map
        (fun x => (tupleMatch x.1 (bytes "10,21") (bytes "?,21"),
          bucketAddr (tupleHash stdEnv x.1 (bytes "10,21")) x.1.depth x.1.sp,
          (bucketTuples stdEnv x.1 1).count (bytes "10,21"))) =
      some (true, 1, 1) ∧
    (addAll stdEnv 2 (newRelation stdEnv 2 2 1 cvAlt) tups52).map
        (fun x => startQuery stdEnv x.1 (bytes "?,21") 0) =
      some { known := 2, unknown := 1, curpage := 2, is_ovflow := false, curtup := 0,
             nstars := 1, buck_ind := 0, attris := bytes "?,21" } ∧
    (addAll stdEnv 2 (newRelation stdEnv 2 2 1 cvAlt) tups52).map
        (fun x => getNextBucket stdEnv (startQuery stdEnv x.1 (bytes "?,21") 0)) =
      some { known := 2, unknown := 1, curpage := 3, is_ovflow := false, curtup := 0,
             nstars := 1, buck_ind := 1, attris := bytes "?,21" } ∧
    Pow 2 1 - 1 = 1 := by
  decide!

/-- Claim C16 fails on the code (write before read in `split`): in the split of bucket
0 of `relAB` the inner loop over the primary page moves `tupA` into the in-memory copy
`newpg` of the new page 1, and the stored copy of page 1 still holds no tuple.  When
`tupB` is moved next, `newpg` is full: page 1 is read back from the data file to be
linked to the new overflow page 1, and the page read, and written, holds no tuple. -/
theorem split_rereads_unwritten_page :
    ((splitStart stdEnv relAB).bind
        (fun st0 => splitPage stdEnv relAB 0 0 0 false st0.pg.free 0 st0)).map
        (fun x => (x.1, pageTuples x.2.newpg, x.2.newpageid, x.2.is_new_ovflow)) =
      some (true, [tupA], 1, false) ∧
    ((splitStart stdEnv relAB).bind
        (fun st0 => splitPage stdEnv relAB 0 0 0 false st0.pg.free 0 st0)).bind
        (fun x => (getPage stdEnv x.2.data x.2.newpageid).map pageTuples) =
      some [] ∧
    (((splitStart stdEnv relAB).bind
        (fun st0 => splitPage stdEnv relAB 0 0 0 false st0.pg.free 0 st0)).bind
        (fun x => moveTuple stdEnv x.2 tupB)).map
        (fun y => (y.1, pageTuples y.2.newpg, y.2.newpageid, y.2.is_new_ovflow)) =
      some (true, [tupB], 1, true) ∧
    (((splitStart stdEnv relAB).bind
        (fun st0 => splitPage stdEnv relAB 0 0 0 false st0.pg.free 0 st0)).bind
        (fun x => moveTuple stdEnv x.2 tupB)).bind
        (fun y => (getPage stdEnv y.2.data 1).map (fun p => (pageTuples p, p.ovflow))) =
      some ([], 1) := by
  decide!

/-- Claim C14, refuted as stated: in the freshly created relation `relS` (`d = 2`,
`sp = 0`) the query `?,?,?,?` has `compHash = 0`, so `getLower(compHash, d) ≥ sp` and
`k = d = 2`; `getLower(starPos, k)` is 3, with two 1 bits.  `startQuery` sets the
unknown mask to `getLower(starPos, d + 1) = 7` and `nstars` to 3. -/
theorem query_mask_keeps_bit_d :
    relS.depth = 2 ∧ relS.sp = 0 ∧
    getLower (queryHash stdEnv relS (strtok (bytes "?,?,?,?")) 0 (0, 0)).1 relS.depth ≥ relS.sp ∧
    getLower (queryHash stdEnv relS (strtok (bytes "?,?,?,?")) 0 (0, 0)).2 relS.depth = 3 ∧
    onesBelow stdEnv.MAXBITS 3 = 2 ∧
    (startQuery stdEnv relS (bytes "?,?,?,?") 0).unknown = 7 ∧
    (startQuery stdEnv relS (bytes "?,?,?,?") 0).nstars = 3 := by
  decide!

/-- Witness for C14 as amended: the query `?,?,?,?` on `relS`, of depth 2, and on
`relW`, of depth 0. -/
theorem query_startup_witness :
    (1 ≤ relS.depth ∧
      (startQuery stdEnv relS (bytes "?,?,?,?") 0).known =
        getLower (queryHash stdEnv relS (strtok (bytes "?,?,?,?")) 0 (0, 0)).1
          (if getLower (queryHash stdEnv relS (strtok (bytes "?,?,?,?")) 0 (0, 0)).1 relS.depth
              ≥ relS.sp then relS.depth
           else relS.depth + 1) ∧
      (startQuery stdEnv relS (bytes "?,?,?,?") 0).unknown =
        getLower (queryHash stdEnv relS (strtok (bytes "?,?,?,?")) 0 (0, 0)).2 (relS.depth + 1) ∧
      (∀ i, (startQuery stdEnv relS (bytes "?,?,?,?") 0).unknown.testBit i = true →
        i < stdEnv.MAXBITS) ∧
      (startQuery stdEnv relS (bytes "?,?,?,?") 0).nstars =
        onesBelow stdEnv.MAXBITS (startQuery stdEnv relS (bytes "?,?,?,?") 0).unknown) ∧
    (relW.depth = 0 ∧ (startQuery stdEnv relW (bytes "?,?,?,?") 5).known = 0) :=
  ⟨⟨by decide, (query_startup stdEnv relS (bytes "?,?,?,?") 0).2.2 (by decide)⟩,
    ⟨by decide, (query_startup stdEnv relW (bytes "?,?,?,?") 5).2.1 (by decide)⟩⟩

/-- Witness for C15: the unknown mask `101` (two set bits) and the call of
`getNextBucket` that raises `buck_ind` from 2 to 3. -/
theorem bucket_enumeration_witness :
    ((∀ i, (5 : Nat).testBit i = true → i < stdEnv.MAXBITS) ∧
      2 = onesBelow stdEnv.MAXBITS 5 ∧ 1 ≤ 3 ∧ 3 < 2 ^ 2 ∧ 2 + 1 = 3) ∧
    (getNextBucket stdEnv
      { known := 8, unknown := 5, curpage := 12, is_ovflow := true, curtup := 40,
        nstars := 2, buck_ind := 2, attris := [] }).curpage = 8 ||| maskOf stdEnv 5 3 ∧
    maskOf stdEnv 5 3 = 5 ∧
    (∀ b1 b2, b1 < 2 ^ 2 → b2 < 2 ^ 2 → maskOf stdEnv 5 b1 = maskOf stdEnv 5 b2 → b1 = b2) ∧
    (∀ m, (∀ i, m.testBit i = true → (5 : Nat).testBit i = true) ↔
      ∃ c, c < 2 ^ 2 ∧ maskOf stdEnv 5 c = m) :=
  have h := bucket_enumeration stdEnv
    { known := 8, unknown := 5, curpage := 12, is_ovflow := true, curtup := 40,
      nstars := 2, buck_ind := 2, attris := [] } 3
    (fun _ hi => testBit_bound (by decide : (5 : Nat) < 2 ^ 32) hi)
    (by decide) (by decide) (by decide) (by decide)
  ⟨⟨fun _ hi => testBit_bound (by decide : (5 : Nat) < 2 ^ 32) hi,
      by decide, by decide, by decide, by decide⟩,
    h.1.2.1, by decide, h.2.2.2.1, h.2.2.2.2⟩

/-- Witness for C18: the query `?,?,?,?` on the relation `relS` of depth 2. -/
theorem early_exit_loses_no_bucket_witness :
    (1 ≤ relS.depth ∧ relS.npages = 2 ^ relS.depth + relS.sp) ∧
    (∀ i, ¬ ((startQuery stdEnv relS (bytes "?,?,?,?") 0).known.testBit i = true ∧
        (startQuery stdEnv relS (bytes "?,?,?,?") 0).unknown.testBit i = true)) ∧
    (∀ b1 b2, b1 < b2 → b2 < 2 ^ (startQuery stdEnv relS (bytes "?,?,?,?") 0).nstars →
      candidate stdEnv (startQuery stdEnv relS (bytes "?,?,?,?") 0) b1 <
        candidate stdEnv (startQuery stdEnv relS (bytes "?,?,?,?") 0) b2) ∧
    (∀ b1 b2, b1 < b2 → b2 < 2 ^ (startQuery stdEnv relS (bytes "?,?,?,?") 0).nstars →
      candidate stdEnv (startQuery stdEnv relS (bytes "?,?,?,?") 0) b1 >
        Pow 2 relS.depth - 1 + relS.sp →
      candidate stdEnv (startQuery stdEnv relS (bytes "?,?,?,?") 0) b2 > relS.npages - 1) ∧
    candidate stdEnv (startQuery stdEnv relS (bytes "?,?,?,?") 0) 4 = 4 ∧
    candidate stdEnv (startQuery stdEnv relS (bytes "?,?,?,?") 0) 5 = 5 :=
  have h := early_exit_loses_no_bucket stdEnv relS (bytes "?,?,?,?") 0 (by decide) (by decide)
  ⟨⟨by decide, by decide⟩, h.1, h.2.2.2.1, h.2.2.2.2, by decide!, by decide!⟩

/-- Witness for C17: the split of bucket 0 of `relAB`, whose chain has the primary
page 0 and the overflow page 0. -/
theorem compaction_keeps_pages_witness :
    (Inv relAB ∧ WF stdEnv relAB ∧ RoomOK stdEnv relAB ∧
      split stdEnv 2 relAB = some relAB1) ∧
    ∃ pg0, relAB.data[relAB.sp]? = some pg0 ∧
      (∃ p', relAB1.data[relAB.sp]? = some p' ∧ PageOK stdEnv p' ∧
        Compacted stdEnv relAB pg0 p') ∧
      ∀ i ∈ chainIds stdEnv relAB.ovflow relAB.ovflow.length pg0.ovflow, ∀ p,
        relAB.ovflow[i]? = some p →
        ∃ p', relAB1.ovflow[i]? = some p' ∧ PageOK stdEnv p' ∧ Compacted stdEnv relAB p p' :=
  ⟨⟨by decide, by decide!, by decide!, by decide!⟩,
    compaction_keeps_pages stdEnv 2 relAB relAB1 (by decide) (by decide!) (by decide!)
      (by decide!)⟩

/-- Witness for C19: the split of bucket 0 of `relAB`. -/
theorem split_frame_witness :
    (Inv relAB ∧ WF stdEnv relAB ∧ split stdEnv 2 relAB = some relAB1) ∧
    (relAB1.npages = relAB.npages + 1 ∧ relAB1.nattrs = relAB.nattrs ∧
      relAB1.depth = relAB.depth ∧ relAB1.sp = relAB.sp ∧ relAB1.ntups = relAB.ntups ∧
      relAB1.insertions = relAB.insertions ∧ relAB1.cv = relAB.cv) ∧
    relAB.sp + 2 ^ relAB.depth = relAB.data.length ∧
    relAB1.data.length = relAB.data.length + 1 ∧
    relAB.ovflow.length ≤ relAB1.ovflow.length ∧
    ∃ pg0, relAB.data[relAB.sp]? = some pg0 ∧
      (∀ i, i < relAB.data.length → i ≠ relAB.sp → relAB1.data[i]? = relAB.data[i]?) ∧
      (∀ i, i < relAB.ovflow.length →
        i ∉ chainIds stdEnv relAB.ovflow relAB.ovflow.length pg0.ovflow →
        relAB1.ovflow[i]? = relAB.ovflow[i]?) :=
  ⟨⟨by decide, by decide!, by decide!⟩,
    split_frame stdEnv 2 relAB relAB1 (by decide) (by decide!) (by decide!)⟩

/-- Witness for C20: the split of bucket 0 of `relAB`, with its 1 overflow page and 2
stored tuples. -/
theorem split_terminates_witness :
    (Inv relAB ∧ WF stdEnv relAB ∧ relAB.data.length < stdEnv.NO_PAGE ∧
      relAB.ovflow.length + storedCount relAB ≤ stdEnv.NO_PAGE ∧ relAB.ovflow.length < 2 ∧
      ∀ t ∈ bucketTuples stdEnv relAB relAB.sp, Fits stdEnv t) ∧
    (∃ r', split stdEnv 2 relAB = some r') ∧
    ∃ st, splitLoops stdEnv 2 relAB = some (true, st) :=
  have h := split_terminates stdEnv 2 relAB (by decide) (by decide!) (by decide) (by decide!)
    (by decide)
  ⟨⟨by decide, by decide!, by decide, by decide!, by decide, by decide!⟩, h.1,
    h.2 (by decide!)⟩

end MALH
